import Mathlib

/-! # Process scheduling simulator: a shallow embedding of `process_scheduler.c`

The C program simulates four CPU scheduling disciplines (FCFS, non-preemptive SJF,
Round Robin with a fixed quantum, non-preemptive Priority) over an array of `Process`
records.  This file embeds the four algorithms as Lean functions and proves properties
of the schedules they compute.

Conventions of the embedding

* A `Process p[]` together with its length `n` is a `List Process` (`n = p.length`);
  `p[i]` is `rd p i` and `p[i] = v` is `List.set`.
* A C `int` is a 32-bit two's complement integer.  An `int` value is an `Int` in the range
  `INT_MIN .. INT_MAX`, and every addition and subtraction of the program on a time is
  followed by `wrap`, the reduction modulo `2^32` into that range (what the usual
  compilers produce where C leaves signed overflow undefined).  The one subtraction left
  without `wrap` is `remaining_time -= TIME_QUANTUM`, which is executed only when
  `remaining_time > TIME_QUANTUM`.  Loop counters, `completed` and the job counts of
  `recommend_algorithm` never exceed `n`, which is itself an `int`, so they are natural
  numbers or integers without `wrap`.
* The namespace `Ideal` holds the same loops with `int` read as a mathematical integer
  (no `wrap`).  It is a proof device: the properties of the schedules are first proved
  there, and `fcfs_eq_ideal`, `sel_eq_ideal` and `rr_eq_ideal` show that the program
  computes the same result on an input without negative times whose largest arrival time
  plus the sum of its burst times fits in an `int` (`NoOverflow`).
* `for (i = 0; i < n; i++)` is a left fold over `List.range n`.
* `while (completed != n)` loops may diverge; they take a fuel argument that bounds the
  number of evaluations of the loop condition and return `none` when it is exhausted.
* The sentinel `idx = -1` of the selection scans is `none : Option Nat`.
* `copy_processes` works on the pair `(src, dest)` and returns both arrays, so that its
  effect on each of them can be stated.
* `recommend_algorithm` returns the recommendation it prints.  A `float` value is the
  rational number it denotes; `toFloat` rounds a rational to the nearest `float`
  (IEEE 754 binary32, 24 significant bits, ties to even).  The exponent range of `float`
  is not modelled: the values that occur, quotients of an `int` by a positive `int`,
  are far from it.
* Of `print_results` only the divisor of the throughput, `p[n-1].completion_time`, is
  embedded.
-/

namespace ProcessScheduler

/-- The C macro `MAX_PROCESSES`. -/
def MAX_PROCESSES : Nat := 50

/-- The C macro `TIME_QUANTUM`. -/
def TIME_QUANTUM : Int := 4

/-- The C struct `Process`. -/
structure Process where
  pid : Int
  arrival_time : Int
  burst_time : Int
  remaining_time : Int
  priority : Int
  completion_time : Int
  waiting_time : Int
  turnaround_time : Int
deriving DecidableEq, Inhabited

/-- Array read `p[i]`. -/
def rd (p : List Process) (i : Nat) : Process := (p[i]?).getD default

/-- Array read `is_completed[i]`. -/
def flag (f : List Bool) (i : Nat) : Bool := (f[i]?).getD false

/-- The largest `int`. -/
def INT_MAX : Int := 2147483647

/-- The smallest `int`. -/
def INT_MIN : Int := -2147483648

/-- The `int` that results from an `int` operation whose mathematical result is `x`:
`x` reduced modulo `2^32` into the range `INT_MIN .. INT_MAX`. -/
def wrap (x : Int) : Int := (x + 2147483648) % 4294967296 - 2147483648

/-! ## FCFS -/

/-- Body of the inner sorting loop of `fcfs`: swap `p[j]` and `p[j+1]` when the former
arrives strictly later. -/
def fcfsSwap (p : List Process) (j : Nat) : List Process :=
  if (rd p j).arrival_time > (rd p (j + 1)).arrival_time then
    let temp := rd p j
    (p.set j (rd p (j + 1))).set (j + 1) temp
  else p

/-- Inner loop of the sort, `for (j = 0; j < n - i - 1; j++)`. -/
def fcfsPass (n : Nat) (p : List Process) (i : Nat) : List Process :=
  (List.range (n - i - 1)).foldl fcfsSwap p

/-- Outer loop of the sort, `for (i = 0; i < n - 1; i++)`. -/
def fcfsSort (n : Nat) (p : List Process) : List Process :=
  (List.range (n - 1)).foldl (fcfsPass n) p

/-- Body of the second loop of `fcfs`; the state is the array and `current_time`. -/
def fcfsRun (s : List Process × Int) (i : Nat) : List Process × Int :=
  let current_time :=
    if s.2 < (rd s.1 i).arrival_time then (rd s.1 i).arrival_time else s.2
  let current_time := wrap (current_time + (rd s.1 i).burst_time)
  let turnaround := wrap (current_time - (rd s.1 i).arrival_time)
  (s.1.set i { rd s.1 i with
      completion_time := current_time
      turnaround_time := turnaround
      waiting_time := wrap (turnaround - (rd s.1 i).burst_time) },
   current_time)

/-- The C function `fcfs(p, n)` with `n = p.length`. -/
def fcfs (p : List Process) : List Process :=
  ((List.range p.length).foldl fcfsRun (fcfsSort p.length p, 0)).1

/-! ## SJF and Priority -/

/-- Local state of the `while` loop of `sjf` and of `priority_scheduling`. -/
structure SelState where
  p : List Process
  current_time : Int
  completed : Nat
  is_completed : List Bool
deriving DecidableEq

/-- Body of the selection scan of `sjf`; the accumulator is `(idx, min_burst)`. -/
def sjfScanStep (p : List Process) (current_time : Int) (is_completed : List Bool)
    (acc : Option Nat × Int) (i : Nat) : Option Nat × Int :=
  if (rd p i).arrival_time ≤ current_time ∧ flag is_completed i = false then
    if (rd p i).burst_time < acc.2 then (some i, (rd p i).burst_time) else acc
  else acc

/-- Selection scan of `sjf`: `idx` after `for (i = 0; i < n; i++)`. -/
def sjfScan (n : Nat) (p : List Process) (current_time : Int) (is_completed : List Bool) :
    Option Nat :=
  ((List.range n).foldl (sjfScanStep p current_time is_completed) (none, 99999)).1

/-- The branch `idx != -1` of `sjf` and `priority_scheduling`: run `p[idx]` to completion. -/
def selExec (s : SelState) (idx : Nat) : SelState :=
  let current_time := wrap (s.current_time + (rd s.p idx).burst_time)
  let turnaround := wrap (current_time - (rd s.p idx).arrival_time)
  { p := s.p.set idx { rd s.p idx with
        completion_time := current_time
        turnaround_time := turnaround
        waiting_time := wrap (turnaround - (rd s.p idx).burst_time) }
    current_time := current_time
    completed := s.completed + 1
    is_completed := s.is_completed.set idx true }

/-- The `while (completed != n)` loop of `sjf`. -/
def sjfLoop (n : Nat) : Nat → SelState → Option SelState
  | 0, _ => none
  | fuel + 1, s =>
    if s.completed = n then some s
    else
      match sjfScan n s.p s.current_time s.is_completed with
      | some idx => sjfLoop n fuel (selExec s idx)
      | none => sjfLoop n fuel { s with current_time := wrap (s.current_time + 1) }

/-- The C function `sjf(p, n)` with `n = p.length`. -/
def sjf (fuel : Nat) (p : List Process) : Option (List Process) :=
  (sjfLoop p.length fuel
    { p := p, current_time := 0, completed := 0,
      is_completed := List.replicate MAX_PROCESSES false }).map SelState.p

/-- Body of the selection scan of `priority_scheduling`; the accumulator is
`(idx, highest_priority)`. -/
def priorityScanStep (p : List Process) (current_time : Int) (is_completed : List Bool)
    (acc : Option Nat × Int) (i : Nat) : Option Nat × Int :=
  if (rd p i).arrival_time ≤ current_time ∧ flag is_completed i = false then
    if (rd p i).priority < acc.2 then (some i, (rd p i).priority) else acc
  else acc

/-- Selection scan of `priority_scheduling`. -/
def priorityScan (n : Nat) (p : List Process) (current_time : Int)
    (is_completed : List Bool) : Option Nat :=
  ((List.range n).foldl (priorityScanStep p current_time is_completed) (none, 99999)).1

/-- The `while (completed != n)` loop of `priority_scheduling`. -/
def priorityLoop (n : Nat) : Nat → SelState → Option SelState
  | 0, _ => none
  | fuel + 1, s =>
    if s.completed = n then some s
    else
      match priorityScan n s.p s.current_time s.is_completed with
      | some idx => priorityLoop n fuel (selExec s idx)
      | none => priorityLoop n fuel { s with current_time := wrap (s.current_time + 1) }

/-- The C function `priority_scheduling(p, n)` with `n = p.length`. -/
def priority_scheduling (fuel : Nat) (p : List Process) : Option (List Process) :=
  (priorityLoop p.length fuel
    { p := p, current_time := 0, completed := 0,
      is_completed := List.replicate MAX_PROCESSES false }).map SelState.p

/-! ## Round Robin -/

/-- Local state of `round_robin`; `did_something` is reset at every pass. -/
structure RRState where
  p : List Process
  current_time : Int
  completed : Nat
  did_something : Bool
deriving DecidableEq

/-- Body of the scan `for (i = 0; i < n; i++)` of `round_robin`, for a quantum `q`.
`remaining_time -= TIME_QUANTUM` is executed only when `remaining_time > TIME_QUANTUM`,
so the difference lies between 1 and `remaining_time` and is never reduced by `wrap`. -/
def rrStep (q : Int) (s : RRState) (i : Nat) : RRState :=
  if (rd s.p i).arrival_time ≤ s.current_time ∧ (rd s.p i).remaining_time > 0 then
    if (rd s.p i).remaining_time > q then
      { p := s.p.set i { rd s.p i with remaining_time := (rd s.p i).remaining_time - q }
        current_time := wrap (s.current_time + q)
        completed := s.completed
        did_something := true }
    else
      let current_time := wrap (s.current_time + (rd s.p i).remaining_time)
      let turnaround := wrap (current_time - (rd s.p i).arrival_time)
      { p := s.p.set i { rd s.p i with
            remaining_time := 0
            completion_time := current_time
            turnaround_time := turnaround
            waiting_time := wrap (turnaround - (rd s.p i).burst_time) }
        current_time := current_time
        completed := s.completed + 1
        did_something := true }
  else s

/-- One iteration of the `while` loop of `round_robin`: a full scan, then the idle tick. -/
def rrPass (q : Int) (n : Nat) (s : RRState) : RRState :=
  let t := (List.range n).foldl (rrStep q) { s with did_something := false }
  if t.did_something = false then { t with current_time := wrap (t.current_time + 1) }
  else t

/-- The `while (completed != n)` loop of `round_robin`, for a quantum `q`. -/
def rrLoop (q : Int) (n : Nat) : Nat → RRState → Option RRState
  | 0, _ => none
  | fuel + 1, s => if s.completed = n then some s else rrLoop q n fuel (rrPass q n s)

/-- The function `round_robin(p, n)` with the quantum as a parameter. -/
def round_robin_q (q : Int) (fuel : Nat) (p : List Process) : Option (List Process) :=
  (rrLoop q p.length fuel
    { p := p, current_time := 0, completed := 0, did_something := false }).map RRState.p

/-- The C function `round_robin(p, n)` with `n = p.length`. -/
def round_robin (fuel : Nat) (p : List Process) : Option (List Process) :=
  round_robin_q TIME_QUANTUM fuel p

/-- Record built by `input_processes` for the process read at index `i`: `pid = i + 1`
and `remaining_time = burst_time`.  The three timing fields, which `input_processes`
leaves unset, are taken to be 0. -/
def mkProc (i : Nat) (arrival burst prio : Int) : Process :=
  { pid := i + 1, arrival_time := arrival, burst_time := burst, remaining_time := burst,
    priority := prio, completion_time := 0, waiting_time := 0, turnaround_time := 0 }

/-! ## The common shape of `sjf` and `priority_scheduling`

The two functions differ only in the field compared by the selection scan.  The
definitions below abstract that field as `key`; `sjfLoop_eq` and `priorityLoop_eq` show
that the two loops above are the instances at `burst_time` and `priority`. -/

/-- Selection scan body with the compared field abstracted. -/
def selScanStep (key : Process → Int) (p : List Process) (current_time : Int)
    (is_completed : List Bool) (acc : Option Nat × Int) (i : Nat) : Option Nat × Int :=
  if (rd p i).arrival_time ≤ current_time ∧ flag is_completed i = false then
    if key (rd p i) < acc.2 then (some i, key (rd p i)) else acc
  else acc

/-- Selection scan with the compared field abstracted. -/
def selScan (key : Process → Int) (n : Nat) (p : List Process) (current_time : Int)
    (is_completed : List Bool) : Option Nat :=
  ((List.range n).foldl (selScanStep key p current_time is_completed) (none, 99999)).1

/-- The non-preemptive selection loop with the compared field abstracted. -/
def selLoop (key : Process → Int) (n : Nat) : Nat → SelState → Option SelState
  | 0, _ => none
  | fuel + 1, s =>
    if s.completed = n then some s
    else
      match selScan key n s.p s.current_time s.is_completed with
      | some idx => selLoop key n fuel (selExec s idx)
      | none => selLoop key n fuel { s with current_time := wrap (s.current_time + 1) }

/-- Initial local state of `sjf` and `priority_scheduling`. -/
def selInit (p : List Process) : SelState :=
  { p := p, current_time := 0, completed := 0,
    is_completed := List.replicate MAX_PROCESSES false }

/-! ## The same loops over the mathematical integers

In the namespace `Ideal` the loop bodies are those of the program with every `int`
computation carried out in `ℤ`, without `wrap`.  The scans, the sort and the initial
states involve no arithmetic and are shared.

These functions are not the embedding of the program: they are auxiliary objects of the
proofs, tied to the program by `fcfs_eq_ideal`, `sel_eq_ideal` and `rr_eq_ideal`, and the
theorems that settle the claims are stated for the functions of the program only. -/

namespace Ideal

/-- Body of the second loop of `fcfs`, over `ℤ`. -/
def fcfsRun (s : List Process × Int) (i : Nat) : List Process × Int :=
  let current_time :=
    if s.2 < (rd s.1 i).arrival_time then (rd s.1 i).arrival_time else s.2
  let current_time := current_time + (rd s.1 i).burst_time
  let turnaround := current_time - (rd s.1 i).arrival_time
  (s.1.set i { rd s.1 i with
      completion_time := current_time
      turnaround_time := turnaround
      waiting_time := turnaround - (rd s.1 i).burst_time },
   current_time)

/-- The function `fcfs` over `ℤ`. -/
def fcfs (p : List Process) : List Process :=
  ((List.range p.length).foldl fcfsRun (fcfsSort p.length p, 0)).1

/-- The branch `idx != -1` of `sjf` and `priority_scheduling`, over `ℤ`. -/
def selExec (s : SelState) (idx : Nat) : SelState :=
  let current_time := s.current_time + (rd s.p idx).burst_time
  let turnaround := current_time - (rd s.p idx).arrival_time
  { p := s.p.set idx { rd s.p idx with
        completion_time := current_time
        turnaround_time := turnaround
        waiting_time := turnaround - (rd s.p idx).burst_time }
    current_time := current_time
    completed := s.completed + 1
    is_completed := s.is_completed.set idx true }

/-- The non-preemptive selection loop over `ℤ`, with the compared field abstracted. -/
def selLoop (key : Process → Int) (n : Nat) : Nat → SelState → Option SelState
  | 0, _ => none
  | fuel + 1, s =>
    if s.completed = n then some s
    else
      match selScan key n s.p s.current_time s.is_completed with
      | some idx => selLoop key n fuel (selExec s idx)
      | none => selLoop key n fuel { s with current_time := s.current_time + 1 }

/-- Body of the scan of `round_robin`, over `ℤ`. -/
def rrStep (q : Int) (s : RRState) (i : Nat) : RRState :=
  if (rd s.p i).arrival_time ≤ s.current_time ∧ (rd s.p i).remaining_time > 0 then
    if (rd s.p i).remaining_time > q then
      { p := s.p.set i { rd s.p i with remaining_time := (rd s.p i).remaining_time - q }
        current_time := s.current_time + q
        completed := s.completed
        did_something := true }
    else
      let current_time := s.current_time + (rd s.p i).remaining_time
      let turnaround := current_time - (rd s.p i).arrival_time
      { p := s.p.set i { rd s.p i with
            remaining_time := 0
            completion_time := current_time
            turnaround_time := turnaround
            waiting_time := turnaround - (rd s.p i).burst_time }
        current_time := current_time
        completed := s.completed + 1
        did_something := true }
  else s

/-- One iteration of the `while` loop of `round_robin`, over `ℤ`. -/
def rrPass (q : Int) (n : Nat) (s : RRState) : RRState :=
  let t := (List.range n).foldl (rrStep q) { s with did_something := false }
  if t.did_something = false then { t with current_time := t.current_time + 1 } else t

/-- The `while (completed != n)` loop of `round_robin`, over `ℤ`. -/
def rrLoop (q : Int) (n : Nat) : Nat → RRState → Option RRState
  | 0, _ => none
  | fuel + 1, s => if s.completed = n then some s else rrLoop q n fuel (rrPass q n s)

/-- Row `i` of `l` is row `i` of `q` with its timing fields written by the FCFS loop
over `ℤ`. -/
def FcfsDone (l q : List Process) (i : Nat) : Prop :=
  rd l i = { rd q i with
    completion_time :=
      max (if i = 0 then 0 else (rd l (i - 1)).completion_time) (rd q i).arrival_time
        + (rd q i).burst_time
    turnaround_time :=
      max (if i = 0 then 0 else (rd l (i - 1)).completion_time) (rd q i).arrival_time
        + (rd q i).burst_time - (rd q i).arrival_time
    waiting_time :=
      max (if i = 0 then 0 else (rd l (i - 1)).completion_time) (rd q i).arrival_time
        + (rd q i).burst_time - (rd q i).arrival_time - (rd q i).burst_time }

/-- The input contract over `ℤ`: the conditions of `ValidInput` without the bound
`INT_MAX`. -/
def ValidInput (p : List Process) : Prop :=
  1 ≤ p.length ∧ p.length ≤ MAX_PROCESSES ∧
  ∀ i, i < p.length →
    0 ≤ (rd p i).arrival_time ∧ 0 < (rd p i).burst_time ∧
    (rd p i).remaining_time = (rd p i).burst_time

/-- The part of the input contract that Round Robin relies on, over `ℤ`. -/
def ValidProcesses (p : List Process) : Prop :=
  1 ≤ p.length ∧
  ∀ i, i < p.length →
    0 ≤ (rd p i).arrival_time ∧ 0 < (rd p i).burst_time ∧
    (rd p i).remaining_time = (rd p i).burst_time

end Ideal

/-! ## Predicates and invariants used in the proofs -/

/-- Row `i` of `l` is row `i` of `q` with its timing fields written by the FCFS loop. -/
def FcfsDone (l q : List Process) (i : Nat) : Prop :=
  rd l i = { rd q i with
    completion_time :=
      wrap (max (if i = 0 then 0 else (rd l (i - 1)).completion_time) (rd q i).arrival_time
        + (rd q i).burst_time)
    turnaround_time :=
      wrap (wrap (max (if i = 0 then 0 else (rd l (i - 1)).completion_time)
        (rd q i).arrival_time + (rd q i).burst_time) - (rd q i).arrival_time)
    waiting_time :=
      wrap (wrap (wrap (max (if i = 0 then 0 else (rd l (i - 1)).completion_time)
        (rd q i).arrival_time + (rd q i).burst_time) - (rd q i).arrival_time)
          - (rd q i).burst_time) }

/-- Positions `K, K+1, …` of `l` are in non-decreasing arrival order and dominate every
earlier position. -/
def SortedFrom (K : Nat) (l : List Process) : Prop :=
  (∀ a b, K ≤ a → a ≤ b → b < l.length → (rd l a).arrival_time ≤ (rd l b).arrival_time) ∧
  (∀ a b, a < K → K ≤ b → b < l.length → (rd l a).arrival_time ≤ (rd l b).arrival_time)

/-- Process `i` is a candidate of the selection scan: it has arrived and is not completed. -/
def Eligible (p : List Process) (current_time : Int) (is_completed : List Bool) (i : Nat) :
    Prop :=
  (rd p i).arrival_time ≤ current_time ∧ flag is_completed i = false

/-- Number of entries set among the first `n` flags of `is_completed`. -/
def doneCount (f : List Bool) (n : Nat) : Nat :=
  ((Finset.range n).filter (fun i => flag f i = true)).card

/-- The records `x` and `y` agree on the fields read from the input. -/
def SameInput (x y : Process) : Prop :=
  x.pid = y.pid ∧ x.arrival_time = y.arrival_time ∧ x.burst_time = y.burst_time ∧
  x.remaining_time = y.remaining_time ∧ x.priority = y.priority

/-- Invariant of the `while` loop of `sjf` and `priority_scheduling` started on the
array `p0`: what is known about the processes already flagged in `is_completed`. -/
structure SelInv (key : Process → Int) (p0 : List Process) (s : SelState) : Prop where
  len : s.p.length = p0.length
  flen : s.is_completed.length = MAX_PROCESSES
  count : s.completed = doneCount s.is_completed p0.length
  same : ∀ i, i < p0.length → SameInput (rd s.p i) (rd p0 i)
  done : ∀ i, i < p0.length → flag s.is_completed i = true →
    (rd s.p i).completion_time ≤ s.current_time ∧
    (rd p0 i).arrival_time ≤ (rd s.p i).completion_time - (rd p0 i).burst_time ∧
    (rd s.p i).turnaround_time = (rd s.p i).completion_time - (rd p0 i).arrival_time ∧
    (rd s.p i).waiting_time = (rd s.p i).turnaround_time - (rd p0 i).burst_time
  pair : ∀ i j, i < p0.length → j < p0.length → i ≠ j →
    flag s.is_completed i = true → flag s.is_completed j = true →
    ((rd s.p i).completion_time ≤ (rd s.p j).completion_time - (rd p0 j).burst_time ∨
      (rd s.p j).completion_time ≤ (rd s.p i).completion_time - (rd p0 i).burst_time) ∧
    ((rd p0 j).arrival_time ≤ (rd s.p i).completion_time - (rd p0 i).burst_time →
      (rd s.p i).completion_time < (rd s.p j).completion_time →
      key (rd p0 i) ≤ key (rd p0 j) ∧ (key (rd p0 i) = key (rd p0 j) → i < j))
  pend : ∀ i j, i < p0.length → j < p0.length →
    flag s.is_completed i = true → flag s.is_completed j = false →
    (rd p0 j).arrival_time ≤ (rd s.p i).completion_time - (rd p0 i).burst_time →
    key (rd p0 i) ≤ key (rd p0 j) ∧ (key (rd p0 i) = key (rd p0 j) → i < j)

/-- Number of processes among the first `n` whose `remaining_time` is zero. -/
def finishedCount (p : List Process) (n : Nat) : Nat :=
  ((Finset.range n).filter (fun i => (rd p i).remaining_time = 0)).card

/-- Sum of the `remaining_time` fields of an array. -/
def totalRemaining (p : List Process) : Int := (p.map Process.remaining_time).sum

/-- Sum of the `burst_time` fields of an array. -/
def totalBurst (p : List Process) : Int := (p.map Process.burst_time).sum

/-- Invariant of `round_robin` started on `p0`, where `mx` bounds the arrival times. -/
structure RRInv (p0 : List Process) (mx : Int) (s : RRState) : Prop where
  len : s.p.length = p0.length
  same : ∀ i, i < p0.length →
    (rd s.p i).pid = (rd p0 i).pid ∧ (rd s.p i).arrival_time = (rd p0 i).arrival_time ∧
    (rd s.p i).burst_time = (rd p0 i).burst_time ∧ (rd s.p i).priority = (rd p0 i).priority
  rem : ∀ i, i < p0.length →
    0 ≤ (rd s.p i).remaining_time ∧ (rd s.p i).remaining_time ≤ (rd p0 i).burst_time
  count : s.completed = finishedCount s.p p0.length
  work : ∀ i, i < p0.length → (rd s.p i).remaining_time < (rd p0 i).burst_time →
    (rd p0 i).arrival_time + ((rd p0 i).burst_time - (rd s.p i).remaining_time)
      ≤ s.current_time
  done : ∀ i, i < p0.length → (rd s.p i).remaining_time = 0 →
    (rd p0 i).arrival_time + (rd p0 i).burst_time ≤ (rd s.p i).completion_time ∧
    (rd s.p i).completion_time ≤ s.current_time ∧
    (rd s.p i).turnaround_time = (rd s.p i).completion_time - (rd p0 i).arrival_time ∧
    (rd s.p i).waiting_time = (rd s.p i).turnaround_time - (rd p0 i).burst_time
  pot : s.current_time + totalRemaining s.p ≤ mx + totalBurst p0
  tot : totalRemaining s.p ≤ totalBurst p0

/-- Termination measure of the `while` loop of `round_robin`: the work left plus the
idle time that may still have to elapse before the last arrival `mx`. -/
def rrMeasure (mx : Int) (s : RRState) : Int :=
  totalRemaining s.p + max (mx - s.current_time) 0

/-- Initial local state of `round_robin`. -/
def rrInit (p : List Process) : RRState :=
  { p := p, current_time := 0, completed := 0, did_something := false }

/-- The input contract of the four algorithms: between 1 and `MAX_PROCESSES` processes,
every `arrival_time ≥ 0`, every `burst_time > 0`, and `remaining_time = burst_time` as
`input_processes` and `copy_processes` set it.  The two times are `int` values, so they
are at most `INT_MAX`. -/
def ValidInput (p : List Process) : Prop :=
  1 ≤ p.length ∧ p.length ≤ MAX_PROCESSES ∧
  ∀ i, i < p.length →
    (0 ≤ (rd p i).arrival_time ∧ (rd p i).arrival_time ≤ INT_MAX) ∧
    (0 < (rd p i).burst_time ∧ (rd p i).burst_time ≤ INT_MAX) ∧
    (rd p i).remaining_time = (rd p i).burst_time

instance (p : List Process) : Decidable (ValidInput p) := by
  unfold ValidInput
  infer_instance

/-- The part of the input contract that `round_robin` relies on: at least one process,
every `arrival_time ≥ 0`, every `burst_time > 0`, `remaining_time = burst_time` on entry,
the two times being `int` values (no bound on the number of processes). -/
def ValidProcesses (p : List Process) : Prop :=
  1 ≤ p.length ∧
  ∀ i, i < p.length →
    (0 ≤ (rd p i).arrival_time ∧ (rd p i).arrival_time ≤ INT_MAX) ∧
    (0 < (rd p i).burst_time ∧ (rd p i).burst_time ≤ INT_MAX) ∧
    (rd p i).remaining_time = (rd p i).burst_time

instance (p : List Process) : Decidable (ValidProcesses p) := by
  unfold ValidProcesses
  infer_instance

/-- A record has consistent, non-negative timing: `waiting_time ≥ 0`,
`turnaround_time ≥ burst_time` and `completion_time ≥ arrival_time + burst_time`. -/
def NonNegWait (x : Process) : Prop :=
  0 ≤ x.waiting_time ∧ x.burst_time ≤ x.turnaround_time ∧
  x.arrival_time + x.burst_time ≤ x.completion_time

/-- The conservation equations `turnaround_time = completion_time - arrival_time` and
`waiting_time = turnaround_time - burst_time`. -/
def Conserved (x : Process) : Prop :=
  x.turnaround_time = x.completion_time - x.arrival_time ∧
  x.waiting_time = x.turnaround_time - x.burst_time

/-- The fields of a record that come from the input (the process descriptor):
`pid`, `arrival_time`, `burst_time`, `priority`. -/
def Process.descr (x : Process) : Int × Int × Int × Int :=
  (x.pid, x.arrival_time, x.burst_time, x.priority)

/-- Two arrays of the same length agree at every index on the fields read from the
input; they may differ in `completion_time`, `turnaround_time` and `waiting_time`. -/
def SameInputs (l m : List Process) : Prop :=
  l.length = m.length ∧ ∀ i, i < l.length → SameInput (rd l i) (rd m i)

/-- Lockstep relation between two runs of the selection loop on arrays that agree on the
input fields: same clock, counter and flags, and equal records wherever the flag is set. -/
def SelRel (n : Nat) (s t : SelState) : Prop :=
  s.current_time = t.current_time ∧ s.completed = t.completed ∧
  s.is_completed = t.is_completed ∧ s.p.length = n ∧ t.p.length = n ∧
  s.is_completed.length = MAX_PROCESSES ∧
  ∀ i, i < n → SameInput (rd s.p i) (rd t.p i) ∧
    (flag s.is_completed i = true → rd s.p i = rd t.p i)

/-- Lockstep relation between two runs of `round_robin` on arrays that agree on the input
fields: same clock, counter and flag, and equal records wherever the process is finished. -/
def RRRel (n : Nat) (s t : RRState) : Prop :=
  s.current_time = t.current_time ∧ s.completed = t.completed ∧
  s.did_something = t.did_something ∧ s.p.length = n ∧ t.p.length = n ∧
  ∀ i, i < n → SameInput (rd s.p i) (rd t.p i) ∧
    ((rd s.p i).remaining_time = 0 → rd s.p i = rd t.p i)

/-- Bookkeeping invariant of the selection loop started on `p0`; it needs no assumption
on the input: the array keeps its length and input fields, and `completed` counts the
flags set in `is_completed`. -/
structure SelBase (p0 : List Process) (s : SelState) : Prop where
  len : s.p.length = p0.length
  flen : s.is_completed.length = MAX_PROCESSES
  count : s.completed = doneCount s.is_completed p0.length
  same : ∀ i, i < p0.length → SameInput (rd s.p i) (rd p0 i)

/-- Termination measure of the selection loop: the processes left plus the idle time that
may still have to elapse before the last arrival `mx`. -/
def selMeasure (n : Nat) (mx : Int) (s : SelState) : Int :=
  ((n : Int) - s.completed) + max (mx - s.current_time) 0

/-- Sum of the burst times of the processes among the first `n` that are flagged in
`is_completed`. -/
def doneBurst (f : List Bool) (p0 : List Process) : Int :=
  ∑ i in (Finset.range p0.length).filter (fun i => flag f i = true), (rd p0 i).burst_time

/-- Bookkeeping invariant of `round_robin` on an array of `n` records, `z` of which had
`remaining_time = 0` on entry: `completed` counts the records brought to zero by the run.
It needs no assumption on the input. -/
structure RRCount (n z : Nat) (s : RRState) : Prop where
  len : s.p.length = n
  count : s.completed + z = finishedCount s.p n

/-- The execution intervals `[completion_time - burst_time, completion_time)` of two
records do not overlap. -/
def NoOverlap (x y : Process) : Prop :=
  x.completion_time ≤ y.completion_time - y.burst_time ∨
  y.completion_time ≤ x.completion_time - x.burst_time

/-! ## `copy_processes` and the divisor of `print_results` -/

/-- Body of the loop of `copy_processes`; the state is the pair `(src, dest)`:
`dest[i] = src[i]; dest[i].remaining_time = src[i].burst_time;`. -/
def copyStep (s : List Process × List Process) (i : Nat) : List Process × List Process :=
  let dest := s.2.set i (rd s.1 i)
  (s.1, dest.set i { rd dest i with remaining_time := (rd s.1 i).burst_time })

/-- The C function `copy_processes(src, dest, n)`; it returns both arrays, `src` first. -/
def copy_processes (src dest : List Process) (n : Nat) : List Process × List Process :=
  (List.range n).foldl copyStep (src, dest)

/-- The array `main` passes to an algorithm after `copy_processes(original, temp, n)`:
the first `n` records of `temp`. -/
def copied (src dest : List Process) (n : Nat) : List Process :=
  (copy_processes src dest n).2.take n

/-- The value by which `print_results(p, n, …)` divides `n` to print the throughput:
`p[n-1].completion_time`. -/
def throughputDivisor (p : List Process) : Int := (rd p (p.length - 1)).completion_time

/-! ## `recommend_algorithm` -/

/-- The three recommendations printed by `recommend_algorithm`. -/
inductive Recommendation where
  | SJF
  | Priority
  | RoundRobin
deriving DecidableEq

/-- Body of the analysis loop of `recommend_algorithm`; the state is
`(total_burst, short_jobs, long_jobs)`. -/
def analyzeStep (p : List Process) (s : Int × Int × Int) (i : Nat) : Int × Int × Int :=
  let total_burst := wrap (s.1 + (rd p i).burst_time)
  if (rd p i).burst_time < 10 then (total_burst, s.2.1 + 1, s.2.2)
  else (total_burst, s.2.1, s.2.2 + 1)

/-- The analysis loop of `recommend_algorithm`. -/
def analyze (p : List Process) : Int × Int × Int :=
  (List.range p.length).foldl (analyzeStep p) (0, 0, 0)

/-- Round to the nearest integer, a tie going to the even one. -/
def roundHalfEven (y : ℚ) : Int :=
  if y - ⌊y⌋ < 1 / 2 then ⌊y⌋
  else if 1 / 2 < y - ⌊y⌋ then ⌊y⌋ + 1
  else if ⌊y⌋ % 2 = 0 then ⌊y⌋
  else ⌊y⌋ + 1

/-- The `float` nearest to `x` (binary32, round to nearest, ties to even): for
`2^e ≤ |x| < 2^(e+1)` the result is `x` rounded to a multiple of `2^(e-23)`, so that it has
24 significant bits.  Conversions `(float)i` and the `float` division round with it. -/
def toFloat (x : ℚ) : ℚ :=
  if x = 0 then 0
  else roundHalfEven (x / 2 ^ (Int.log 2 |x| - 23)) * 2 ^ (Int.log 2 |x| - 23)

/-- The local `float avg_burst = (float)total_burst / n` of `recommend_algorithm`: both
operands are converted to `float` and the quotient is rounded to `float`.  (For `n = 0`
the program computes a NaN; the value is then not used, because `short_jobs > long_jobs`
is false.) -/
def avg_burst (p : List Process) : ℚ :=
  toFloat (toFloat ((analyze p).1 : ℚ) / toFloat (p.length : ℚ))

/-- The C function `recommend_algorithm(p, n)` with `n = p.length`, returning the
recommendation it prints. -/
def recommend_algorithm (p : List Process) : Recommendation :=
  if (analyze p).2.1 > (analyze p).2.2 ∧ avg_burst p < 15 then Recommendation.SJF
  else if (analyze p).2.2 > (analyze p).2.1 * 2 then Recommendation.Priority
  else Recommendation.RoundRobin

/-- The `shortJobs` of the specification: the number of processes with
`burst_time < 10`. -/
def shortJobs (p : List Process) : Nat :=
  (p.filter (fun x => decide (x.burst_time < 10))).length

/-- The `longJobs` of the specification: the number of processes with
`burst_time ≥ 10`. -/
def longJobs (p : List Process) : Nat :=
  (p.filter (fun x => decide (10 ≤ x.burst_time))).length

/-- The `avgBurst` of the specification, as an exact rational: the sum of the burst times
divided by the number of processes. -/
def avgBurst (p : List Process) : ℚ := (totalBurst p : ℚ) / (p.length : ℚ)

/-- Completion time of the record before position `i`, and 0 before the first record. -/
def prevCompletion (l : List Process) (i : Nat) : Int :=
  if i = 0 then 0 else (rd l (i - 1)).completion_time

/-- Invariant of `round_robin` on an arrival-sorted input `p0` whose bursts fit in one
quantum: the first `completed` records are finished, with the completion times of the
FCFS recurrence, the others are untouched, and while a process is left the clock lies
between the previous completion and the start time of the next process. -/
structure RRSeq (p0 : List Process) (s : RRState) : Prop where
  len : s.p.length = p0.length
  le : s.completed ≤ p0.length
  same : ∀ i, i < p0.length →
    (rd s.p i).arrival_time = (rd p0 i).arrival_time ∧
    (rd s.p i).burst_time = (rd p0 i).burst_time
  todo : ∀ i, s.completed ≤ i → i < p0.length →
    (rd s.p i).remaining_time = (rd p0 i).burst_time
  done : ∀ i, i < s.completed →
    (rd s.p i).remaining_time = 0 ∧
    (rd s.p i).completion_time =
      wrap (max (prevCompletion s.p i) (rd p0 i).arrival_time + (rd p0 i).burst_time)
  clock : INT_MIN ≤ s.current_time
  lo : s.completed < p0.length → prevCompletion s.p s.completed ≤ s.current_time
  hi : s.completed < p0.length →
    s.current_time ≤ max (prevCompletion s.p s.completed) (rd p0 s.completed).arrival_time

/-- The array is in non-decreasing `arrival_time` order. -/
def ArrivalSorted (p : List Process) : Prop :=
  ∀ b, b < p.length → ∀ a, a ≤ b → (rd p a).arrival_time ≤ (rd p b).arrival_time

instance (p : List Process) : Decidable (ArrivalSorted p) := by
  unfold ArrivalSorted
  infer_instance

/-- The run cannot overflow: the largest arrival time plus the sum of the burst times is
at most `INT_MAX`. -/
def NoOverflow (p : List Process) : Prop :=
  ∀ i, i < p.length → (rd p i).arrival_time + totalBurst p ≤ INT_MAX

instance (p : List Process) : Decidable (NoOverflow p) := by
  unfold NoOverflow
  infer_instance

/-- The conservation equations as the program computes them: each difference is an `int`
subtraction, reduced modulo `2^32` into the range of `int`. -/
def WrapConserved (x : Process) : Prop :=
  x.turnaround_time = wrap (x.completion_time - x.arrival_time) ∧
  x.waiting_time = wrap (x.turnaround_time - x.burst_time)

/-- Termination measure of the selection loop of the program: the number of processes
left, each weighted by the number of `int` values, plus the distance of the clock from
`INT_MAX`. -/
def selClockMeasure (n : Nat) (s : SelState) : Int :=
  ((n : Int) - s.completed) * 4294967296 + (INT_MAX - s.current_time)

/-- Invariant of `round_robin` started on a valid array `p0`, wraparound included: the
input fields are kept, `remaining_time` stays between 0 and the burst, `completed` counts
the finished processes, the clock is an `int`, and a finished process has an `int`
completion time from which its other two timing fields were computed. -/
structure RRBase (p0 : List Process) (s : RRState) : Prop where
  len : s.p.length = p0.length
  same : ∀ i, i < p0.length →
    (rd s.p i).pid = (rd p0 i).pid ∧ (rd s.p i).arrival_time = (rd p0 i).arrival_time ∧
    (rd s.p i).burst_time = (rd p0 i).burst_time ∧ (rd s.p i).priority = (rd p0 i).priority
  rem : ∀ i, i < p0.length →
    0 ≤ (rd s.p i).remaining_time ∧ (rd s.p i).remaining_time ≤ (rd p0 i).burst_time
  count : s.completed = finishedCount s.p p0.length
  clock : INT_MIN ≤ s.current_time ∧ s.current_time ≤ INT_MAX
  done : ∀ i, i < p0.length → (rd s.p i).remaining_time = 0 →
    (INT_MIN ≤ (rd s.p i).completion_time ∧ (rd s.p i).completion_time ≤ INT_MAX) ∧
    (rd s.p i).turnaround_time =
      wrap ((rd s.p i).completion_time - (rd p0 i).arrival_time) ∧
    (rd s.p i).waiting_time = wrap ((rd s.p i).turnaround_time - (rd p0 i).burst_time)

/-- Termination measure of the `while` loop of `round_robin`: the work left, each unit
weighted by the number of `int` values, plus the distance of the clock from `INT_MAX`. -/
def rrClockMeasure (s : RRState) : Int :=
  totalRemaining s.p * 4294967296 + (INT_MAX - s.current_time)

/-! # Properties -/

/-! ## Lemmas about loops, arrays, the sort and the scans -/

theorem foldl_range_inv {σ : Type} (f : σ → Nat → σ) (I : Nat → σ → Prop) (n : Nat) (s0 : σ)
    (h0 : I 0 s0) (hstep : ∀ k s, k < n → I k s → I (k + 1) (f s k)) :
    I n ((List.range n).foldl f s0) := by
  induction n with
  | zero => simpa using h0
  | succ m ih =>
    rw [List.range_succ, List.foldl_append]
    simp only [List.foldl_cons, List.foldl_nil]
    exact hstep m _ (Nat.lt_succ_self m) (ih (fun k s hk => hstep k s (Nat.lt_succ_of_lt hk)))

theorem rd_set_eq (p : List Process) (i : Nat) (v : Process) (h : i < p.length) :
    rd (p.set i v) i = v := by
  simp [rd, h]

theorem rd_set_ne (p : List Process) (i j : Nat) (v : Process) (h : i ≠ j) :
    rd (p.set i v) j = rd p j := by
  simp [rd, List.getElem?_set_ne h]

theorem flag_set_eq (f : List Bool) (i : Nat) (v : Bool) (h : i < f.length) :
    flag (f.set i v) i = v := by
  simp [flag, h]

theorem flag_set_ne (f : List Bool) (i j : Nat) (v : Bool) (h : i ≠ j) :
    flag (f.set i v) j = flag f j := by
  simp [flag, List.getElem?_set_ne h]

theorem rd_eq_getElem (p : List Process) (i : Nat) (h : i < p.length) : rd p i = p[i] := by
  simp [rd, h]

theorem list_ext_rd (p q : List Process) (hl : p.length = q.length)
    (h : ∀ i, i < p.length → rd p i = rd q i) : p = q := by
  apply List.ext_getElem hl
  intro i h1 h2
  have := h i h1
  rwa [rd_eq_getElem _ _ h1, rd_eq_getElem _ _ h2] at this

theorem fcfsSwap_length (p : List Process) (j : Nat) : (fcfsSwap p j).length = p.length := by
  unfold fcfsSwap
  split <;> simp

theorem rd_fcfsSwap (p : List Process) (j a : Nat) (h : j + 1 < p.length) :
    rd (fcfsSwap p j) a =
      if (rd p j).arrival_time > (rd p (j + 1)).arrival_time then
        (if a = j then rd p (j + 1) else if a = j + 1 then rd p j else rd p a)
      else rd p a := by
  unfold fcfsSwap
  by_cases hc : (rd p j).arrival_time > (rd p (j + 1)).arrival_time
  · simp only [hc, if_true]
    by_cases h1 : a = j + 1
    · subst h1
      rw [rd_set_eq _ _ _ (by simp; omega)]
      simp
    · rw [rd_set_ne _ _ _ _ (fun e => h1 e.symm)]
      by_cases h2 : a = j
      · subst h2
        rw [rd_set_eq _ _ _ (by omega)]
        simp
      · rw [rd_set_ne _ _ _ _ (fun e => h2 e.symm)]
        simp [h1, h2]
  · simp only [hc, if_false]

theorem fcfsSwap_sortedFrom (K j : Nat) (l : List Process) (hj : j + 1 < K)
    (hK : K ≤ l.length) (h : SortedFrom K l) : SortedFrom K (fcfsSwap l j) := by
  have hjl : j + 1 < l.length := by omega
  refine ⟨?_, ?_⟩
  · intro a b ha hab hb
    rw [fcfsSwap_length] at hb
    rw [rd_fcfsSwap _ _ _ hjl, rd_fcfsSwap _ _ _ hjl]
    have := h.1 a b ha hab hb
    split
    · rw [if_neg (by omega), if_neg (by omega), if_neg (by omega), if_neg (by omega)]
      exact this
    · exact this
  · intro a b ha hKb hb
    rw [fcfsSwap_length] at hb
    rw [rd_fcfsSwap _ _ _ hjl, rd_fcfsSwap _ _ _ hjl]
    split
    · rw [if_neg (show ¬ b = j by omega), if_neg (show ¬ b = j + 1 by omega)]
      by_cases h1 : a = j
      · rw [if_pos h1]; exact h.2 (j + 1) b (by omega) hKb hb
      · rw [if_neg h1]
        by_cases h2 : a = j + 1
        · rw [if_pos h2]; exact h.2 j b (by omega) hKb hb
        · rw [if_neg h2]; exact h.2 a b ha hKb hb
    · exact h.2 a b ha hKb hb

theorem fcfsSwap_prefixMax (k : Nat) (l : List Process) (hk : k + 1 < l.length)
    (h : ∀ a, a < k → (rd l a).arrival_time ≤ (rd l k).arrival_time) :
    ∀ a, a < k + 1 →
      (rd (fcfsSwap l k) a).arrival_time ≤ (rd (fcfsSwap l k) (k + 1)).arrival_time := by
  intro a ha
  rw [rd_fcfsSwap _ _ _ hk, rd_fcfsSwap _ _ _ hk]
  by_cases hc : (rd l k).arrival_time > (rd l (k + 1)).arrival_time
  · simp only [hc, if_true]
    rw [if_neg (show ¬ k + 1 = k by omega)]
    by_cases h1 : a = k
    · rw [if_pos h1]; omega
    · rw [if_neg h1, if_neg (show ¬ a = k + 1 by omega)]
      exact h a (by omega)
  · simp only [hc, if_false]
    by_cases h1 : a = k
    · subst h1; omega
    · have := h a (by omega); omega

theorem fcfsPass_sortedFrom (n i : Nat) (l : List Process) (hl : l.length = n)
    (hi : i + 1 < n) (h : SortedFrom (n - i) l) :
    (fcfsPass n l i).length = n ∧ SortedFrom (n - (i + 1)) (fcfsPass n l i) := by
  have key := foldl_range_inv fcfsSwap
    (fun k s => s.length = n ∧ SortedFrom (n - i) s ∧
      ∀ a, a < k → (rd s a).arrival_time ≤ (rd s k).arrival_time)
    (n - i - 1) l ⟨hl, h, fun a ha => absurd ha (Nat.not_lt_zero a)⟩
    (by
      rintro k s hk ⟨hlen, hs, hpm⟩
      refine ⟨by rw [fcfsSwap_length, hlen], ?_, ?_⟩
      · exact fcfsSwap_sortedFrom _ _ _ (by omega) (by omega) hs
      · exact fcfsSwap_prefixMax k s (by omega) hpm)
  obtain ⟨hlen, hs, hpm⟩ := key
  refine ⟨hlen, ?_, ?_⟩
  · intro a b ha hab hb
    rw [show fcfsPass n l i = (List.range (n - i - 1)).foldl fcfsSwap l from rfl] at hb ⊢
    by_cases h1 : a = b
    · subst h1; exact le_rfl
    · by_cases h2 : a = n - i - 1
      · subst h2
        exact hs.2 _ b (by omega) (by omega) hb
      · exact hs.1 a b (by omega) hab hb
  · intro a b ha hKb hb
    rw [show fcfsPass n l i = (List.range (n - i - 1)).foldl fcfsSwap l from rfl] at hb ⊢
    by_cases h2 : b = n - i - 1
    · subst h2
      exact hpm a (by omega)
    · exact hs.2 a b (by omega) (by omega) hb

theorem fcfsSort_length (p : List Process) : (fcfsSort p.length p).length = p.length := by
  exact foldl_range_inv (fcfsPass p.length) (fun _ s => s.length = p.length) (p.length - 1) p rfl
    (by
      intro k s _ hs
      exact foldl_range_inv fcfsSwap (fun _ t => t.length = p.length) _ s hs
        (fun j t _ ht => by show (fcfsSwap t j).length = p.length; rw [fcfsSwap_length]; exact ht))

theorem fcfsSort_sorted (p : List Process) (a b : Nat) (hab : a ≤ b) (hb : b < p.length) :
    (rd (fcfsSort p.length p) a).arrival_time ≤ (rd (fcfsSort p.length p) b).arrival_time := by
  have key := foldl_range_inv (fcfsPass p.length)
    (fun k s => s.length = p.length ∧ SortedFrom (p.length - k) s) (p.length - 1) p
    ⟨rfl, ⟨fun a b ha hab hb => by omega, fun a b ha hKb hb => by omega⟩⟩
    (by
      rintro k s hk ⟨hlen, hs⟩
      exact fcfsPass_sortedFrom p.length k s hlen (by omega) hs)
  obtain ⟨hlen, hs⟩ := key
  have hb2 : b < (fcfsSort p.length p).length := by rw [fcfsSort_length]; exact hb
  by_cases h1 : a = b
  · subst h1; exact le_rfl
  · by_cases h0 : a = 0
    · subst h0
      exact hs.2 0 b (by omega) (by omega) hb2
    · exact hs.1 a b (by omega) hab hb2

theorem fcfsSwap_cons (a : Process) (p : List Process) (j : Nat) :
    fcfsSwap (a :: p) (j + 1) = a :: fcfsSwap p j := by
  unfold fcfsSwap
  simp only [rd, List.getElem?_cons_succ, List.set_cons_succ]
  split <;> rfl

theorem fcfsSwap_zero (x y : Process) (l : List Process) :
    fcfsSwap (x :: y :: l) 0 =
      if x.arrival_time > y.arrival_time then y :: x :: l else x :: y :: l := by
  unfold fcfsSwap
  simp [rd]

theorem fcfsSwap_perm (p : List Process) (j : Nat) (h : j + 1 < p.length) :
    (fcfsSwap p j).Perm p := by
  induction p generalizing j with
  | nil => simp at h
  | cons a p ih =>
    cases j with
    | zero =>
      cases p with
      | nil => simp at h
      | cons b l =>
        rw [fcfsSwap_zero]
        split
        · exact List.Perm.swap a b l
        · exact List.Perm.refl _
    | succ j =>
      rw [fcfsSwap_cons]
      exact List.Perm.cons a (ih j (by simpa using h))

theorem fcfsSwap_filter (p : List Process) (j : Nat) (h : j + 1 < p.length) (t : Int) :
    (fcfsSwap p j).filter (fun x => decide (x.arrival_time = t)) =
      p.filter (fun x => decide (x.arrival_time = t)) := by
  induction p generalizing j with
  | nil => simp at h
  | cons a p ih =>
    cases j with
    | zero =>
      cases p with
      | nil => simp at h
      | cons b l =>
        rw [fcfsSwap_zero]
        split
        · rename_i hc
          by_cases ha : a.arrival_time = t
          · have hb : ¬ b.arrival_time = t := by omega
            simp [List.filter_cons, ha, hb]
          · simp [List.filter_cons, ha]
        · rfl
    | succ j =>
      rw [fcfsSwap_cons, List.filter_cons, List.filter_cons, ih j (by simpa using h)]

theorem fcfsSort_perm_filter (p : List Process) :
    (fcfsSort p.length p).length = p.length ∧ (fcfsSort p.length p).Perm p ∧
    ∀ t : Int, (fcfsSort p.length p).filter (fun x => decide (x.arrival_time = t)) =
      p.filter (fun x => decide (x.arrival_time = t)) := by
  exact foldl_range_inv (fcfsPass p.length)
    (fun _ s => s.length = p.length ∧ s.Perm p ∧
      ∀ t : Int, s.filter (fun x => decide (x.arrival_time = t)) =
        p.filter (fun x => decide (x.arrival_time = t)))
    (p.length - 1) p ⟨rfl, List.Perm.refl _, fun _ => rfl⟩
    (by
      intro k s hk hs
      exact foldl_range_inv fcfsSwap
        (fun _ s => s.length = p.length ∧ s.Perm p ∧
          ∀ t : Int, s.filter (fun x => decide (x.arrival_time = t)) =
            p.filter (fun x => decide (x.arrival_time = t)))
        (p.length - k - 1) s hs
        (by
          rintro j u hj ⟨hlen, hperm, hfil⟩
          have hju : j + 1 < u.length := by omega
          exact ⟨by rw [fcfsSwap_length, hlen], (fcfsSwap_perm u j hju).trans hperm,
            fun t => by rw [fcfsSwap_filter u j hju t, hfil t]⟩))

theorem sjfScan_eq (n : Nat) (p : List Process) (ct : Int) (f : List Bool) :
    sjfScan n p ct f = selScan Process.burst_time n p ct f := rfl

theorem priorityScan_eq (n : Nat) (p : List Process) (ct : Int) (f : List Bool) :
    priorityScan n p ct f = selScan Process.priority n p ct f := rfl

theorem selScan_spec (key : Process → Int) (n : Nat) (p : List Process) (ct : Int)
    (f : List Bool) :
    (selScan key n p ct f = none →
      ∀ j, j < n → Eligible p ct f j → 99999 ≤ key (rd p j)) ∧
    (∀ idx, selScan key n p ct f = some idx →
      idx < n ∧ Eligible p ct f idx ∧ key (rd p idx) < 99999 ∧
      ∀ j, j < n → Eligible p ct f j →
        key (rd p idx) ≤ key (rd p j) ∧ (key (rd p j) = key (rd p idx) → idx ≤ j)) := by
  have key := foldl_range_inv (selScanStep key p ct f)
    (fun k acc =>
      (acc.1 = none → acc.2 = 99999 ∧
        ∀ j, j < k → Eligible p ct f j → 99999 ≤ key (rd p j)) ∧
      (∀ idx, acc.1 = some idx →
        idx < k ∧ Eligible p ct f idx ∧ acc.2 = key (rd p idx) ∧ key (rd p idx) < 99999 ∧
        ∀ j, j < k → Eligible p ct f j →
          key (rd p idx) ≤ key (rd p j) ∧ (key (rd p j) = key (rd p idx) → idx ≤ j)))
    n (none, 99999)
    ⟨fun _ => ⟨rfl, fun j hj => absurd hj (Nat.not_lt_zero j)⟩, fun idx h => by simp at h⟩
    (by
      rintro k ⟨o, m⟩ hk ⟨hnone, hsome⟩
      simp only at hnone hsome
      unfold selScanStep
      by_cases he : (rd p k).arrival_time ≤ ct ∧ flag f k = false
      · rw [if_pos he]
        by_cases hlt : key (rd p k) < m
        · simp only [hlt, if_true]
          refine ⟨fun h => by simp at h, ?_⟩
          intro idx hidx
          simp only [Option.some.injEq] at hidx
          subst hidx
          cases o with
          | none =>
            obtain ⟨hm, hall⟩ := hnone rfl
            subst hm
            refine ⟨Nat.lt_succ_self _, he, rfl, hlt, ?_⟩
            intro j hj hej
            by_cases hjk : j = k
            · subst hjk; exact ⟨le_rfl, fun _ => le_rfl⟩
            · have := hall j (by omega) hej
              exact ⟨by omega, fun h => by omega⟩
          | some i0 =>
            obtain ⟨hi0, hel, hm, hb, hall⟩ := hsome i0 rfl
            subst hm
            refine ⟨Nat.lt_succ_self _, he, rfl, by omega, ?_⟩
            intro j hj hej
            by_cases hjk : j = k
            · subst hjk; exact ⟨le_rfl, fun _ => le_rfl⟩
            · have := (hall j (by omega) hej).1
              exact ⟨by omega, fun h => by omega⟩
        · simp only [hlt, if_false]
          refine ⟨?_, ?_⟩
          · intro ho
            obtain ⟨hm, hall⟩ := hnone ho
            refine ⟨hm, ?_⟩
            intro j hj hej
            by_cases hjk : j = k
            · subst hjk; omega
            · exact hall j (by omega) hej
          · intro idx hidx
            obtain ⟨hi0, hel, hm, hb, hall⟩ := hsome idx hidx
            refine ⟨by omega, hel, hm, hb, ?_⟩
            intro j hj hej
            by_cases hjk : j = k
            · subst hjk
              exact ⟨by omega, fun _ => by omega⟩
            · exact hall j (by omega) hej
      · rw [if_neg he]
        refine ⟨?_, ?_⟩
        · intro ho
          obtain ⟨hm, hall⟩ := hnone ho
          refine ⟨hm, ?_⟩
          intro j hj hej
          by_cases hjk : j = k
          · subst hjk; exact absurd hej he
          · exact hall j (by omega) hej
        · intro idx hidx
          obtain ⟨hi0, hel, hm, hb, hall⟩ := hsome idx hidx
          refine ⟨by omega, hel, hm, hb, ?_⟩
          intro j hj hej
          by_cases hjk : j = k
          · subst hjk; exact absurd hej he
          · exact hall j (by omega) hej)
  refine ⟨fun h => (key.1 h).2, fun idx h => ?_⟩
  obtain ⟨h1, h2, _, h4, h5⟩ := key.2 idx h
  exact ⟨h1, h2, h4, h5⟩

theorem doneCount_set (f : List Bool) (n idx : Nat) (hn : idx < n) (hf : idx < f.length)
    (h : flag f idx = false) : doneCount (f.set idx true) n = doneCount f n + 1 := by
  unfold doneCount
  have hset : (Finset.range n).filter (fun i => flag (f.set idx true) i = true) =
      insert idx ((Finset.range n).filter (fun i => flag f i = true)) := by
    ext i
    simp only [Finset.mem_filter, Finset.mem_range, Finset.mem_insert]
    by_cases hi : i = idx
    · subst hi
      simp [flag_set_eq _ _ _ hf, hn]
    · rw [flag_set_ne _ _ _ _ (fun e => hi e.symm)]
      simp [hi]
  rw [hset, Finset.card_insert_of_not_mem]
  simp [h]

theorem doneCount_full (f : List Bool) (n : Nat) (h : doneCount f n = n) :
    ∀ i, i < n → flag f i = true := by
  unfold doneCount at h
  have h2 : ((Finset.range n).filter (fun i => flag f i = true)).card = (Finset.range n).card := by
    rw [h, Finset.card_range]
  rw [Finset.card_filter_eq_iff] at h2
  intro i hi
  exact h2 i (Finset.mem_range.mpr hi)

theorem flag_replicate (i : Nat) : flag (List.replicate MAX_PROCESSES false) i = false := by
  simp only [flag, List.getElem?_replicate]
  split <;> rfl

theorem doneCount_replicate (n : Nat) : doneCount (List.replicate MAX_PROCESSES false) n = 0 := by
  unfold doneCount
  rw [Finset.card_eq_zero, Finset.filter_eq_empty_iff]
  intro i _
  simp [flag_replicate]

theorem SameInput.refl (x : Process) : SameInput x x := ⟨rfl, rfl, rfl, rfl, rfl⟩

theorem rd_cons_zero (a : Process) (l : List Process) : rd (a :: l) 0 = a := by
  simp [rd]

theorem rd_cons_succ (a : Process) (l : List Process) (i : Nat) :
    rd (a :: l) (i + 1) = rd l i := by
  simp [rd]

theorem sum_map_set (f : Process → Int) (l : List Process) (i : Nat) (v : Process)
    (h : i < l.length) :
    ((l.set i v).map f).sum = (l.map f).sum - f (rd l i) + f v := by
  induction l generalizing i with
  | nil => simp at h
  | cons a l ih =>
    cases i with
    | zero =>
      simp only [List.set_cons_zero, List.map_cons, List.sum_cons, rd_cons_zero]
      omega
    | succ i =>
      simp only [List.set_cons_succ, List.map_cons, List.sum_cons, rd_cons_succ]
      rw [ih i (by simpa using h)]
      omega

theorem sum_map_nonneg (f : Process → Int) (l : List Process)
    (h : ∀ i, i < l.length → 0 ≤ f (rd l i)) : 0 ≤ (l.map f).sum := by
  induction l with
  | nil => simp
  | cons a l ih =>
    simp only [List.map_cons, List.sum_cons]
    have h0 := h 0 (by simp)
    rw [rd_cons_zero] at h0
    have := ih (fun i hi => by
      have := h (i + 1) (by simpa using hi)
      rwa [rd_cons_succ] at this)
    omega

theorem map_congr_rd (f g : Process → Int) (l : List Process)
    (h : ∀ i, i < l.length → f (rd l i) = g (rd l i)) : l.map f = l.map g := by
  induction l with
  | nil => rfl
  | cons a l ih =>
    simp only [List.map_cons]
    have h0 := h 0 (by simp)
    rw [rd_cons_zero] at h0
    rw [h0, ih (fun i hi => by
      have := h (i + 1) (by simpa using hi)
      rwa [rd_cons_succ] at this)]

theorem finishedCount_full (p : List Process) (n : Nat) (h : finishedCount p n = n) :
    ∀ i, i < n → (rd p i).remaining_time = 0 := by
  unfold finishedCount at h
  have h2 : ((Finset.range n).filter (fun i => (rd p i).remaining_time = 0)).card
      = (Finset.range n).card := by
    rw [h, Finset.card_range]
  rw [Finset.card_filter_eq_iff] at h2
  intro i hi
  exact h2 i (Finset.mem_range.mpr hi)

theorem finishedCount_not_full (p : List Process) (n : Nat) (h : finishedCount p n ≠ n) :
    ∃ i, i < n ∧ (rd p i).remaining_time ≠ 0 := by
  by_contra hne
  apply h
  unfold finishedCount
  have : (Finset.range n).filter (fun i => (rd p i).remaining_time = 0) = Finset.range n := by
    rw [Finset.filter_eq_self]
    intro i hi
    by_contra hx
    exact hne ⟨i, Finset.mem_range.mp hi, hx⟩
  rw [this, Finset.card_range]

theorem finishedCount_set_finish (p : List Process) (n idx : Nat) (v : Process)
    (hn : idx < n) (hp : idx < p.length) (h : (rd p idx).remaining_time ≠ 0)
    (hv : v.remaining_time = 0) :
    finishedCount (p.set idx v) n = finishedCount p n + 1 := by
  unfold finishedCount
  have hset : (Finset.range n).filter (fun i => (rd (p.set idx v) i).remaining_time = 0) =
      insert idx ((Finset.range n).filter (fun i => (rd p i).remaining_time = 0)) := by
    ext i
    simp only [Finset.mem_filter, Finset.mem_range, Finset.mem_insert]
    by_cases hi : i = idx
    · subst hi
      simp [rd_set_eq _ _ _ hp, hn, hv]
    · rw [rd_set_ne _ _ _ _ (fun e => hi e.symm)]
      simp [hi]
  rw [hset, Finset.card_insert_of_not_mem]
  simp [h]

theorem finishedCount_set_slice (p : List Process) (n idx : Nat) (v : Process)
    (hp : idx < p.length) (h : (rd p idx).remaining_time ≠ 0)
    (hv : v.remaining_time ≠ 0) :
    finishedCount (p.set idx v) n = finishedCount p n := by
  unfold finishedCount
  congr 1
  ext i
  simp only [Finset.mem_filter, Finset.mem_range]
  by_cases hi : i = idx
  · subst hi
    simp [rd_set_eq _ _ _ hp, hv, h]
  · rw [rd_set_ne _ _ _ _ (fun e => hi e.symm)]

theorem ValidInput.procs {p : List Process} (h : ValidInput p) : ValidProcesses p :=
  ⟨h.1, h.2.2⟩

theorem hkey_burst : ∀ x y, SameInput x y → Process.burst_time x = Process.burst_time y :=
  fun _ _ h => h.2.2.1

theorem hkey_priority : ∀ x y, SameInput x y → Process.priority x = Process.priority y :=
  fun _ _ h => h.2.2.2.2

/-- Every array of arrival times has an upper bound (used to instantiate `RRInv`). -/
theorem exists_arrival_bound (p : List Process) :
    ∃ mx : Int, ∀ i, i < p.length → (rd p i).arrival_time ≤ mx := by
  induction p with
  | nil => exact ⟨0, fun i hi => absurd hi (Nat.not_lt_zero i)⟩
  | cons a l ih =>
    obtain ⟨m, hm⟩ := ih
    refine ⟨max m a.arrival_time, fun i hi => ?_⟩
    cases i with
    | zero => rw [rd_cons_zero]; exact le_max_right _ _
    | succ i =>
      rw [rd_cons_succ]
      exact le_trans (hm i (by simpa using hi)) (le_max_left _ _)

theorem TIME_QUANTUM_pos : 0 < TIME_QUANTUM := by decide

theorem map_eq_of_rd {α : Type} (f : Process → α) (l m : List Process)
    (hl : l.length = m.length) (h : ∀ i, i < l.length → f (rd l i) = f (rd m i)) :
    l.map f = m.map f := by
  apply List.ext_getElem (by simp [hl])
  intro i h1 h2
  simp only [List.length_map] at h1 h2
  simp only [List.getElem_map]
  have := h i h1
  rwa [rd_eq_getElem _ _ h1, rd_eq_getElem _ _ h2] at this

theorem SameInput.descr_eq {x y : Process} (h : SameInput x y) : x.descr = y.descr := by
  obtain ⟨h1, h2, h3, _, h5⟩ := h
  simp [Process.descr, h1, h2, h3, h5]

theorem filter_arrival_map_descr (l : List Process) (t : Int) :
    (l.filter (fun x => decide (x.arrival_time = t))).map Process.descr =
      (l.map Process.descr).filter (fun d => decide (d.2.1 = t)) := by
  rw [List.filter_map]
  rfl

theorem fcfsSort_pid_order (p : List Process)
    (hpid : ∀ k, k < p.length → (rd p k).pid = k + 1) (i j : Nat) (hij : i < j)
    (hj : j < p.length)
    (he : (rd (fcfsSort p.length p) i).arrival_time =
      (rd (fcfsSort p.length p) j).arrival_time) :
    (rd (fcfsSort p.length p) i).pid < (rd (fcfsSort p.length p) j).pid := by
  have hp : p.Pairwise (fun x y => x.pid < y.pid) := by
    rw [List.pairwise_iff_getElem]
    intro a b ha hb hab
    have h1 := hpid a ha
    have h2 := hpid b hb
    rw [rd_eq_getElem _ _ ha] at h1
    rw [rd_eq_getElem _ _ hb] at h2
    rw [h1, h2]
    omega
  have hf := (fcfsSort_perm_filter p).2.2 (rd (fcfsSort p.length p) j).arrival_time
  have hpf := hp.filter (fun x => decide (x.arrival_time =
    (rd (fcfsSort p.length p) j).arrival_time))
  rw [← hf, List.pairwise_filter, List.pairwise_iff_getElem] at hpf
  have hlen := fcfsSort_length p
  have hi' : i < (fcfsSort p.length p).length := by rw [hlen]; omega
  have hj' : j < (fcfsSort p.length p).length := by rw [hlen]; exact hj
  have := hpf i j hi' hj' hij
  rw [← rd_eq_getElem _ _ hi', ← rd_eq_getElem _ _ hj'] at this
  exact this (by simpa using he) (by simp)

theorem foldl_range_rel {σ τ : Type} (f : σ → Nat → σ) (g : τ → Nat → τ) (R : σ → τ → Prop)
    (n : Nat) (a : σ) (b : τ) (h0 : R a b)
    (hstep : ∀ k s t, k < n → R s t → R (f s k) (g t k)) :
    R ((List.range n).foldl f a) ((List.range n).foldl g b) := by
  induction n with
  | zero => simpa using h0
  | succ m ih =>
    rw [List.range_succ, List.foldl_append, List.foldl_append]
    simp only [List.foldl_cons, List.foldl_nil]
    exact hstep m _ _ (Nat.lt_succ_self m)
      (ih (fun k s t hk => hstep k s t (Nat.lt_succ_of_lt hk)))

theorem Process.eq_of_same {x y : Process} (h : SameInput x y)
    (hc : x.completion_time = y.completion_time)
    (ht : x.turnaround_time = y.turnaround_time) (hw : x.waiting_time = y.waiting_time) :
    x = y := by
  obtain ⟨h1, h2, h3, h4, h5⟩ := h
  cases x
  cases y
  simp only at h1 h2 h3 h4 h5 hc ht hw
  subst h1 h2 h3 h4 h5 hc ht hw
  rfl

theorem SameInput.symm {x y : Process} (h : SameInput x y) : SameInput y x :=
  ⟨h.1.symm, h.2.1.symm, h.2.2.1.symm, h.2.2.2.1.symm, h.2.2.2.2.symm⟩

theorem SameInput.trans {x y z : Process} (h : SameInput x y) (k : SameInput y z) :
    SameInput x z :=
  ⟨h.1.trans k.1, h.2.1.trans k.2.1, h.2.2.1.trans k.2.2.1, h.2.2.2.1.trans k.2.2.2.1,
    h.2.2.2.2.trans k.2.2.2.2⟩

theorem fcfsSwap_sameInputs (l m : List Process) (j : Nat) (hj : j + 1 < l.length)
    (h : SameInputs l m) : SameInputs (fcfsSwap l j) (fcfsSwap m j) := by
  obtain ⟨hlen, hs⟩ := h
  refine ⟨by rw [fcfsSwap_length, fcfsSwap_length, hlen], fun i hi => ?_⟩
  rw [fcfsSwap_length] at hi
  rw [rd_fcfsSwap _ _ _ hj, rd_fcfsSwap _ _ _ (by rw [← hlen]; exact hj)]
  rw [← (hs j (by omega)).2.1, ← (hs (j + 1) hj).2.1]
  split
  · by_cases h1 : i = j
    · rw [if_pos h1, if_pos h1]; exact hs (j + 1) hj
    · rw [if_neg h1, if_neg h1]
      by_cases h2 : i = j + 1
      · rw [if_pos h2, if_pos h2]; exact hs j (by omega)
      · rw [if_neg h2, if_neg h2]; exact hs i hi
  · exact hs i hi

theorem fcfsSort_sameInputs (p q : List Process) (h : SameInputs p q) :
    SameInputs (fcfsSort p.length p) (fcfsSort q.length q) := by
  rw [← h.1]
  have key := foldl_range_rel (fcfsPass p.length) (fcfsPass p.length)
    (fun l m => l.length = p.length ∧ SameInputs l m) (p.length - 1) p q ⟨rfl, h⟩
    (by
      rintro k l m hk ⟨hl, hlm⟩
      exact foldl_range_rel fcfsSwap fcfsSwap
        (fun l m => l.length = p.length ∧ SameInputs l m) (p.length - k - 1) l m ⟨hl, hlm⟩
        (by
          rintro j u v hj ⟨hu, huv⟩
          exact ⟨by rw [fcfsSwap_length, hu],
            fcfsSwap_sameInputs u v j (by omega) huv⟩))
  exact key.2

theorem foldl_range_congr {σ : Type} (f g : σ → Nat → σ) (n : Nat) (a : σ)
    (h : ∀ s k, k < n → f s k = g s k) :
    (List.range n).foldl f a = (List.range n).foldl g a :=
  foldl_range_rel f g (fun x y => x = y) n a a rfl
    (fun k s t hk e => by rw [e]; exact h t k hk)

theorem selScan_congr (key : Process → Int) (hkey : ∀ x y, SameInput x y → key x = key y)
    (n : Nat) (p q : List Process) (ct : Int) (f : List Bool)
    (h : ∀ i, i < n → SameInput (rd p i) (rd q i)) :
    selScan key n p ct f = selScan key n q ct f := by
  unfold selScan
  rw [foldl_range_congr (selScanStep key p ct f) (selScanStep key q ct f) n _
    (fun acc k hk => by
      unfold selScanStep
      rw [(h k hk).2.1, hkey _ _ (h k hk)])]

theorem selInit_rel (p q : List Process) (h : SameInputs p q) :
    SelRel p.length (selInit p) (selInit q) :=
  ⟨rfl, rfl, rfl, rfl, h.1.symm, by simp [selInit],
    fun i hi => ⟨h.2 i hi, fun hf => by simp [selInit, flag_replicate] at hf⟩⟩

theorem map_pid_eq (l : List Process) :
    l.map Process.pid = (l.map Process.descr).map Prod.fst := by
  rw [List.map_map]
  rfl

theorem totalRemaining_eq_totalBurst (p : List Process)
    (hrem : ∀ i, i < p.length → (rd p i).remaining_time = (rd p i).burst_time) :
    totalRemaining p = totalBurst p := by
  unfold totalRemaining totalBurst
  rw [map_congr_rd _ _ p hrem]

theorem doneCount_le (f : List Bool) (n : Nat) : doneCount f n ≤ n := by
  unfold doneCount
  have := Finset.card_filter_le (Finset.range n) (fun i => flag f i = true)
  rwa [Finset.card_range] at this

theorem doneCount_lt (f : List Bool) (n k : Nat) (hk : k < n) (h : flag f k = false) :
    doneCount f n < n := by
  rcases Nat.lt_or_ge (doneCount f n) n with hlt | hge
  · exact hlt
  · have := doneCount_full f n (le_antisymm (doneCount_le f n) hge) k hk
    rw [h] at this
    exact absurd this (by simp)

theorem doneCount_not_full (f : List Bool) (n : Nat) (h : doneCount f n ≠ n) :
    ∃ i, i < n ∧ flag f i = false := by
  by_contra hne
  apply h
  unfold doneCount
  have : (Finset.range n).filter (fun i => flag f i = true) = Finset.range n := by
    rw [Finset.filter_eq_self]
    intro i hi
    by_contra hx
    refine hne ⟨i, Finset.mem_range.mp hi, ?_⟩
    cases hf : flag f i with
    | false => rfl
    | true => exact absurd hf hx
  rw [this, Finset.card_range]

theorem selBase_init (p0 : List Process) : SelBase p0 (selInit p0) where
  len := rfl
  flen := by simp [selInit]
  count := by simp [selInit, doneCount_replicate]
  same := fun i _ => SameInput.refl _

theorem sum_range_rd (f : Process → Int) (p : List Process) :
    ∑ i in Finset.range p.length, f (rd p i) = (p.map f).sum := by
  induction p with
  | nil => simp
  | cons a l ih =>
    simp only [List.length_cons, List.map_cons, List.sum_cons]
    rw [Finset.sum_range_succ', rd_cons_zero]
    simp only [rd_cons_succ]
    rw [ih]
    omega

theorem doneBurst_le_total (f : List Bool) (p0 : List Process)
    (hb : ∀ i, i < p0.length → 0 ≤ (rd p0 i).burst_time) :
    0 ≤ doneBurst f p0 ∧ doneBurst f p0 ≤ totalBurst p0 := by
  unfold doneBurst totalBurst
  rw [← sum_range_rd]
  refine ⟨Finset.sum_nonneg (fun i hi => hb i (Finset.mem_range.mp (Finset.mem_filter.mp hi).1)),
    Finset.sum_le_sum_of_subset_of_nonneg (Finset.filter_subset _ _)
      (fun i hi _ => hb i (Finset.mem_range.mp hi))⟩

theorem doneBurst_set (f : List Bool) (p0 : List Process) (idx : Nat) (hn : idx < p0.length)
    (hf : idx < f.length) (h : flag f idx = false) :
    doneBurst (f.set idx true) p0 = doneBurst f p0 + (rd p0 idx).burst_time := by
  unfold doneBurst
  have hset : (Finset.range p0.length).filter (fun i => flag (f.set idx true) i = true) =
      insert idx ((Finset.range p0.length).filter (fun i => flag f i = true)) := by
    ext i
    simp only [Finset.mem_filter, Finset.mem_range, Finset.mem_insert]
    by_cases hi : i = idx
    · subst hi
      simp [flag_set_eq _ _ _ hf, hn]
    · rw [flag_set_ne _ _ _ _ (fun e => hi e.symm)]
      simp [hi]
  rw [hset, Finset.sum_insert (by simp [h])]
  omega

theorem finishedCount_le (p : List Process) (n : Nat) : finishedCount p n ≤ n := by
  unfold finishedCount
  have := Finset.card_filter_le (Finset.range n) (fun i => (rd p i).remaining_time = 0)
  rwa [Finset.card_range] at this

theorem finishedCount_zero (p : List Process) (n : Nat) (h : finishedCount p n = 0) :
    ∀ i, i < n → (rd p i).remaining_time ≠ 0 := by
  unfold finishedCount at h
  rw [Finset.card_eq_zero, Finset.filter_eq_empty_iff] at h
  exact fun i hi => h (Finset.mem_range.mpr hi)

theorem finishedCount_pos (p : List Process) (n k : Nat) (hk : k < n)
    (h : (rd p k).remaining_time = 0) : 1 ≤ finishedCount p n := by
  rcases Nat.eq_zero_or_pos (finishedCount p n) with h0 | hpos
  · exact absurd h (finishedCount_zero p n h0 k hk)
  · exact hpos

theorem rrInit_count (p : List Process) :
    RRCount p.length (finishedCount p p.length) (rrInit p) :=
  ⟨rfl, by show 0 + finishedCount p p.length = finishedCount p p.length; omega⟩

theorem doneBurst_replicate (p0 : List Process) :
    doneBurst (List.replicate MAX_PROCESSES false) p0 = 0 := by
  unfold doneBurst
  apply Finset.sum_eq_zero
  intro i hi
  have := (Finset.mem_filter.mp hi).2
  rw [flag_replicate] at this
  exact absurd this (by simp)

theorem copy_processes_spec (src dest : List Process) (n : Nat) (hd : n ≤ dest.length) :
    (copy_processes src dest n).1 = src ∧
    (copy_processes src dest n).2.length = dest.length ∧
    (∀ i, i < n → rd (copy_processes src dest n).2 i =
      { rd src i with remaining_time := (rd src i).burst_time }) ∧
    (∀ i, n ≤ i → rd (copy_processes src dest n).2 i = rd dest i) := by
  have key := foldl_range_inv copyStep
    (fun k s => s.1 = src ∧ s.2.length = dest.length ∧
      (∀ i, i < k → rd s.2 i = { rd src i with remaining_time := (rd src i).burst_time }) ∧
      (∀ i, k ≤ i → rd s.2 i = rd dest i))
    n (src, dest) ⟨rfl, rfl, fun i hi => absurd hi (Nat.not_lt_zero i), fun _ _ => rfl⟩
    (by
      rintro k ⟨a, b⟩ hk ⟨ha, hlen, hlow, hhigh⟩
      simp only at ha hlen hlow hhigh
      subst ha
      have hkb : k < b.length := by omega
      refine ⟨rfl, by simp [copyStep, hlen], fun i hi => ?_, fun i hi => ?_⟩
      · simp only [copyStep]
        by_cases hik : i = k
        · rw [hik, rd_set_eq _ _ _ (by simp; exact hkb), rd_set_eq _ _ _ hkb]
        · rw [rd_set_ne _ _ _ _ (fun e => hik e.symm), rd_set_ne _ _ _ _ (fun e => hik e.symm)]
          exact hlow i (by omega)
      · simp only [copyStep]
        rw [rd_set_ne _ _ _ _ (by omega), rd_set_ne _ _ _ _ (by omega)]
        exact hhigh i (by omega))
  exact key

theorem rd_take (l : List Process) (n i : Nat) (hi : i < n) : rd (l.take n) i = rd l i := by
  simp [rd, List.getElem?_take, hi]

theorem copied_spec (src dest : List Process) (n : Nat) (hd : n ≤ dest.length) :
    (copied src dest n).length = n ∧
    ∀ i, i < n → rd (copied src dest n) i =
      { rd src i with remaining_time := (rd src i).burst_time } := by
  obtain ⟨_, hlen, hlow, _⟩ := copy_processes_spec src dest n hd
  refine ⟨by simp [copied, hlen, hd], fun i hi => ?_⟩
  unfold copied
  rw [rd_take _ _ _ hi]
  exact hlow i hi

theorem option_eq_of_imp {α : Type} (a b : Option α) (h1 : ∀ r, a = some r → b = some r)
    (h2 : ∀ r, b = some r → a = some r) : a = b := by
  cases ha : a with
  | some r => exact (h1 r ha).symm
  | none =>
    cases hb : b with
    | none => rfl
    | some r =>
      have := h2 r hb
      rw [ha] at this
      exact absurd this (by simp)

theorem sameInputs_swap {l m : List Process} (h : SameInputs l m) : SameInputs m l :=
  ⟨h.1.symm, fun i hi => (h.2 i (by rw [h.1]; exact hi)).symm⟩

theorem copied_sameInputs (src1 src2 dest1 dest2 : List Process) (n : Nat)
    (hd1 : n ≤ dest1.length) (hd2 : n ≤ dest2.length)
    (h : ∀ i, i < n → (rd src1 i).descr = (rd src2 i).descr) :
    SameInputs (copied src1 dest1 n) (copied src2 dest2 n) := by
  obtain ⟨l1, r1⟩ := copied_spec src1 dest1 n hd1
  obtain ⟨l2, r2⟩ := copied_spec src2 dest2 n hd2
  refine ⟨by rw [l1, l2], fun i hi => ?_⟩
  rw [l1] at hi
  rw [r1 i hi, r2 i hi]
  have hd := h i hi
  simp only [Process.descr, Prod.mk.injEq] at hd
  exact ⟨hd.1, hd.2.1, hd.2.2.1, hd.2.2.1, hd.2.2.2⟩

theorem divisor_of_pid (p r : List Process) (hp : 1 ≤ p.length) (hl : r.length = p.length)
    (hpid : ∀ k, k < p.length → (rd p k).pid = k + 1)
    (hsame : ∀ k, k < p.length → (rd r k).pid = (rd p k).pid) :
    (rd r (p.length - 1)).pid = p.length ∧
    ∀ i, i < p.length → (rd r i).pid = p.length →
      throughputDivisor r = (rd r i).completion_time := by
  refine ⟨?_, fun i hi he => ?_⟩
  · rw [hsame _ (by omega), hpid _ (by omega)]
    push_cast [Nat.cast_sub hp]
    omega
  · rw [hsame i hi, hpid i hi] at he
    have : i = p.length - 1 := by omega
    unfold throughputDivisor
    rw [hl, this]

theorem short_add_long (p : List Process) : shortJobs p + longJobs p = p.length := by
  induction p with
  | nil => rfl
  | cons a l ih =>
    unfold shortJobs longJobs at ih ⊢
    by_cases hlt : a.burst_time < 10
    · have hge : ¬ 10 ≤ a.burst_time := by omega
      simp only [List.filter_cons, hlt, hge, decide_True, decide_False, if_true,
        Bool.false_eq_true, if_false, List.length_cons]
      omega
    · have hge : 10 ≤ a.burst_time := by omega
      simp only [List.filter_cons, hlt, hge, decide_True, decide_False, if_true,
        Bool.false_eq_true, if_false, List.length_cons]
      omega

theorem mem_rd (p : List Process) (x : Process) (hx : x ∈ p) :
    ∃ i, i < p.length ∧ rd p i = x := by
  obtain ⟨i, hi, e⟩ := List.getElem_of_mem hx
  exact ⟨i, hi, by rw [rd_eq_getElem _ _ hi, e]⟩

theorem sum_map_le (f : Process → Int) (c : Int) (l : List Process)
    (h : ∀ i, i < l.length → f (rd l i) ≤ c) : (l.map f).sum ≤ c * l.length := by
  induction l with
  | nil => simp
  | cons a l ih =>
    simp only [List.map_cons, List.sum_cons, List.length_cons]
    have h0 := h 0 (by simp)
    rw [rd_cons_zero] at h0
    have := ih (fun i hi => by
      have := h (i + 1) (by simpa using hi)
      rwa [rd_cons_succ] at this)
    push_cast
    linarith

theorem all_short (p : List Process) (h : ∀ i, i < p.length → (rd p i).burst_time < 10) :
    shortJobs p = p.length ∧ longJobs p = 0 := by
  have hs : shortJobs p = p.length := by
    unfold shortJobs
    rw [List.filter_eq_self.mpr]
    intro x hx
    obtain ⟨i, hi, e⟩ := mem_rd p x hx
    rw [← e]
    simpa using h i hi
  have := short_add_long p
  exact ⟨hs, by omega⟩

theorem all_long (p : List Process) (h : ∀ i, i < p.length → 10 ≤ (rd p i).burst_time) :
    shortJobs p = 0 ∧ longJobs p = p.length := by
  have hs : longJobs p = p.length := by
    unfold longJobs
    rw [List.filter_eq_self.mpr]
    intro x hx
    obtain ⟨i, hi, e⟩ := mem_rd p x hx
    rw [← e]
    simpa using h i hi
  have := short_add_long p
  exact ⟨by omega, hs⟩

theorem fcfsSort_of_sorted (p : List Process)
    (hs : ∀ i j, i ≤ j → j < p.length → (rd p i).arrival_time ≤ (rd p j).arrival_time) :
    fcfsSort p.length p = p := by
  exact foldl_range_inv (fcfsPass p.length) (fun _ s => s = p) (p.length - 1) p rfl
    (by
      intro k s hk e
      have e' : s = p := e
      subst e'
      exact foldl_range_inv fcfsSwap (fun _ t => t = s) (s.length - k - 1) s rfl
        (by
          intro j t hj et
          have et' : t = s := et
          subst et'
          show fcfsSwap t j = t
          unfold fcfsSwap
          have := hs j (j + 1) (by omega) (by omega)
          rw [if_neg (by omega)]))

/-! ## The schedules over the mathematical integers -/

namespace Ideal

theorem fcfsRun_fold_ideal (q : List Process) :
    ((List.range q.length).foldl fcfsRun (q, 0)).1.length = q.length ∧
    ∀ i, i < q.length → FcfsDone ((List.range q.length).foldl fcfsRun (q, 0)).1 q i := by
  have key := foldl_range_inv fcfsRun
    (fun k s => s.1.length = q.length ∧ (∀ i, k ≤ i → rd s.1 i = rd q i) ∧
      (∀ i, i < k → FcfsDone s.1 q i) ∧
      s.2 = if k = 0 then 0 else (rd s.1 (k - 1)).completion_time)
    q.length (q, 0) ⟨rfl, fun _ _ => rfl, fun i hi => absurd hi (Nat.not_lt_zero i), rfl⟩
    (by
      rintro k ⟨l, ct⟩ hk ⟨hlen, hrest, hdone, hct⟩
      have hkl : k < l.length := by rw [hlen]; exact hk
      simp only at hlen hrest hdone hct
      refine ⟨by simp [fcfsRun, hlen], ?_, ?_, ?_⟩
      · intro i hi
        simp only [fcfsRun]
        rw [rd_set_ne _ _ _ _ (by omega)]
        exact hrest i (by omega)
      · intro i hi
        simp only [FcfsDone, fcfsRun]
        by_cases hik : i = k
        · subst hik
          rw [rd_set_eq _ _ _ hkl, hrest i le_rfl]
          have hmax : (if ct < (rd q i).arrival_time then (rd q i).arrival_time else ct)
              = max ct (rd q i).arrival_time := by omega
          rw [hmax]
          by_cases h0 : i = 0
          · subst h0
            simp only [if_true] at hct ⊢
            rw [hct]
          · simp only [h0, if_false] at hct ⊢
            rw [rd_set_ne _ _ _ _ (by omega), ← hct]
        · have hlt : i < k := by omega
          have := hdone i hlt
          simp only [FcfsDone] at this
          rw [rd_set_ne _ _ _ _ (by omega)]
          by_cases h0 : i = 0
          · simpa [h0] using this
          · simp only [h0, if_false] at this ⊢
            rw [rd_set_ne _ _ _ _ (by omega)]
            exact this
      · simp only [fcfsRun]
        simp only [Nat.add_sub_cancel, Nat.succ_ne_zero, if_false]
        rw [rd_set_eq _ _ _ hkl])
  exact ⟨key.1, key.2.2.1⟩

theorem selInv_init (key : Process → Int) (p0 : List Process) : SelInv key p0 (selInit p0) where
  len := rfl
  flen := by simp [selInit]
  count := by simp [selInit, doneCount_replicate]
  same := fun i _ => SameInput.refl _
  done := fun i _ h => by simp [selInit, flag_replicate] at h
  pair := fun i j _ _ _ h => by simp [selInit, flag_replicate] at h
  pend := fun i j _ _ h => by simp [selInit, flag_replicate] at h

theorem selInv_tick (key : Process → Int) (p0 : List Process) (s : SelState)
    (h : SelInv key p0 s) : SelInv key p0 { s with current_time := s.current_time + 1 } where
  len := h.len
  flen := h.flen
  count := h.count
  same := h.same
  done := fun i hi hf => by
    obtain ⟨h1, h2⟩ := h.done i hi hf
    exact ⟨by show (rd s.p i).completion_time ≤ s.current_time + 1; omega, h2⟩
  pair := h.pair
  pend := h.pend

theorem selInv_exec (key : Process → Int) (p0 : List Process) (s : SelState) (idx : Nat)
    (hkey : ∀ x y, SameInput x y → key x = key y) (hn : p0.length ≤ MAX_PROCESSES)
    (hb : ∀ i, i < p0.length → 0 ≤ (rd p0 i).burst_time)
    (h : SelInv key p0 s)
    (hsel : selScan key p0.length s.p s.current_time s.is_completed = some idx) :
    SelInv key p0 (selExec s idx) := by
  obtain ⟨hidx, ⟨harr, hnot⟩, _, hmin⟩ := (selScan_spec key _ _ _ _).2 idx hsel
  have hidxp : idx < s.p.length := by rw [h.len]; exact hidx
  have hidxf : idx < s.is_completed.length := by rw [h.flen]; omega
  obtain ⟨sp, sa, sb, sr, spr⟩ := h.same idx hidx
  have hrdi : rd (selExec s idx).p idx =
      { rd s.p idx with
        completion_time := s.current_time + (rd s.p idx).burst_time
        turnaround_time := s.current_time + (rd s.p idx).burst_time - (rd s.p idx).arrival_time
        waiting_time := s.current_time + (rd s.p idx).burst_time - (rd s.p idx).arrival_time
          - (rd s.p idx).burst_time } := rd_set_eq _ _ _ hidxp
  have hrdn : ∀ i, i ≠ idx → rd (selExec s idx).p i = rd s.p i :=
    fun i hi => rd_set_ne _ _ _ _ (fun e => hi e.symm)
  have hfli : flag (selExec s idx).is_completed idx = true := flag_set_eq _ _ _ hidxf
  have hfln : ∀ i, i ≠ idx → flag (selExec s idx).is_completed i = flag s.is_completed i :=
    fun i hi => flag_set_ne _ _ _ _ (fun e => hi e.symm)
  have hct : (selExec s idx).current_time = s.current_time + (rd p0 idx).burst_time := by
    show s.current_time + (rd s.p idx).burst_time = _
    rw [sb]
  have hci : (rd (selExec s idx).p idx).completion_time =
      s.current_time + (rd p0 idx).burst_time := by rw [hrdi, ← sb]
  have hbi := hb idx hidx
  -- candidates of the scan, in terms of the input array
  have hcand : ∀ j, j < p0.length → flag s.is_completed j = false →
      (rd p0 j).arrival_time ≤ s.current_time →
      key (rd p0 idx) ≤ key (rd p0 j) ∧ (key (rd p0 idx) = key (rd p0 j) → idx ≤ j) := by
    intro j hj hfj haj
    have hsj := h.same j hj
    have := hmin j hj ⟨by rw [hsj.2.1]; exact haj, hfj⟩
    rw [hkey _ _ hsj, hkey _ _ (h.same idx hidx)] at this
    exact ⟨this.1, fun e => this.2 e.symm⟩
  refine ⟨?_, ?_, ?_, ?_, ?_, ?_, ?_⟩
  · simp [selExec, h.len]
  · simp [selExec, h.flen]
  · show s.completed + 1 = doneCount (s.is_completed.set idx true) p0.length
    rw [doneCount_set _ _ _ hidx hidxf hnot, h.count]
  · intro i hi
    by_cases hii : i = idx
    · subst hii
      rw [hrdi]
      exact ⟨sp, sa, sb, sr, spr⟩
    · rw [hrdn i hii]; exact h.same i hi
  · intro i hi hf
    by_cases hii : i = idx
    · rw [hii, hct, hrdi]
      simp only
      rw [sa] at harr
      rw [sa, sb]
      exact ⟨le_rfl, by omega, rfl, rfl⟩
    · rw [hfln i hii] at hf
      rw [hrdn i hii, hct]
      obtain ⟨h1, h2⟩ := h.done i hi hf
      exact ⟨by omega, h2⟩
  · intro i j hi hj hij hfi hfj
    by_cases hii : i = idx
    · subst hii
      have hjj : j ≠ i := fun e => hij e.symm
      rw [hfln j hjj] at hfj
      rw [hci, hrdn j hjj]
      have hdj := (h.done j hj hfj).1
      exact ⟨Or.inr (by omega), fun _ hlt => by omega⟩
    · rw [hfln i hii] at hfi
      rw [hrdn i hii]
      have hdi := (h.done i hi hfi).1
      by_cases hjj : j = idx
      · subst hjj
        rw [hci]
        refine ⟨Or.inl (by omega), fun ha _ => ?_⟩
        exact h.pend i j hi hj hfi hnot ha
      · rw [hfln j hjj] at hfj
        rw [hrdn j hjj]
        exact h.pair i j hi hj hij hfi hfj
  · intro i j hi hj hfi hfj ha
    have hjj : j ≠ idx := by
      intro e
      rw [e, hfli] at hfj
      exact Bool.noConfusion hfj
    rw [hfln j hjj] at hfj
    by_cases hii : i = idx
    · subst hii
      rw [hci] at ha
      have := hcand j hj hfj (by omega)
      exact ⟨this.1, fun e => by have := this.2 e; omega⟩
    · rw [hfln i hii] at hfi
      rw [hrdn i hii] at ha
      exact h.pend i j hi hj hfi hfj ha

theorem selLoop_inv (key : Process → Int) (p0 : List Process)
    (hkey : ∀ x y, SameInput x y → key x = key y) (hn : p0.length ≤ MAX_PROCESSES)
    (hb : ∀ i, i < p0.length → 0 ≤ (rd p0 i).burst_time)
    (fuel : Nat) (s r : SelState) (h : SelInv key p0 s)
    (hr : selLoop key p0.length fuel s = some r) :
    SelInv key p0 r ∧ r.completed = p0.length := by
  induction fuel generalizing s with
  | zero => simp [selLoop] at hr
  | succ k ih =>
    simp only [selLoop] at hr
    by_cases hc : s.completed = p0.length
    · simp only [hc, if_true, Option.some.injEq] at hr
      subst hr
      exact ⟨h, hc⟩
    · simp only [hc, if_false] at hr
      cases hs : selScan key p0.length s.p s.current_time s.is_completed with
      | none =>
        rw [hs] at hr
        exact ih _ (selInv_tick key p0 s h) hr
      | some idx =>
        rw [hs] at hr
        exact ih _ (selInv_exec key p0 s idx hkey hn hb h hs) hr

theorem rrInv_update (p0 : List Process) (mx : Int) (s : RRState) (i : Nat) (v : Process)
    (ct : Int) (c : Nat) (d : Bool) (hi : i < p0.length) (h : RRInv p0 mx s)
    (harr : (rd s.p i).arrival_time ≤ s.current_time)
    (hv : v.pid = (rd s.p i).pid ∧ v.arrival_time = (rd s.p i).arrival_time ∧
      v.burst_time = (rd s.p i).burst_time ∧ v.priority = (rd s.p i).priority)
    (hr0 : 0 ≤ v.remaining_time) (hr1 : v.remaining_time < (rd s.p i).remaining_time)
    (hct : ct = s.current_time + ((rd s.p i).remaining_time - v.remaining_time))
    (hc : (v.remaining_time ≠ 0 ∧ c = s.completed) ∨
      (v.remaining_time = 0 ∧ c = s.completed + 1 ∧ v.completion_time = ct ∧
        v.turnaround_time = ct - v.arrival_time ∧
        v.waiting_time = v.turnaround_time - v.burst_time)) :
    RRInv p0 mx { p := s.p.set i v, current_time := ct, completed := c, did_something := d } := by
  have hip : i < s.p.length := by rw [h.len]; exact hi
  obtain ⟨sp, sa, sb, spr⟩ := h.same i hi
  obtain ⟨vp, va, vb, vpr⟩ := hv
  obtain ⟨ri0, ri1⟩ := h.rem i hi
  have hsum : totalRemaining (s.p.set i v) =
      totalRemaining s.p - (rd s.p i).remaining_time + v.remaining_time :=
    sum_map_set Process.remaining_time s.p i v hip
  have hwork : (rd p0 i).arrival_time + ((rd p0 i).burst_time - (rd s.p i).remaining_time)
      ≤ s.current_time := by
    by_cases hlt : (rd s.p i).remaining_time < (rd p0 i).burst_time
    · exact h.work i hi hlt
    · have : (rd s.p i).remaining_time = (rd p0 i).burst_time := by omega
      rw [this, ← sa]
      omega
  refine ⟨?_, ?_, ?_, ?_, ?_, ?_, ?_, ?_⟩
  · simp [h.len]
  · intro j hj
    show (rd (s.p.set i v) j).pid = _ ∧ _
    by_cases hji : j = i
    · subst hji
      rw [rd_set_eq _ _ _ hip]
      exact ⟨vp.trans sp, va.trans sa, vb.trans sb, vpr.trans spr⟩
    · rw [rd_set_ne _ _ _ _ (fun e => hji e.symm)]
      exact h.same j hj
  · intro j hj
    show 0 ≤ (rd (s.p.set i v) j).remaining_time ∧ _
    by_cases hji : j = i
    · subst hji
      rw [rd_set_eq _ _ _ hip]
      exact ⟨hr0, by omega⟩
    · rw [rd_set_ne _ _ _ _ (fun e => hji e.symm)]
      exact h.rem j hj
  · show c = finishedCount (s.p.set i v) p0.length
    rcases hc with ⟨hne, hceq⟩ | ⟨hz, hceq, _⟩
    · rw [finishedCount_set_slice _ _ _ _ hip (by omega) hne, hceq, h.count]
    · rw [finishedCount_set_finish _ _ _ _ hi hip (by omega) hz, hceq, h.count]
  · intro j hj
    show (rd (s.p.set i v) j).remaining_time < _ → _ ≤ ct
    by_cases hji : j = i
    · subst hji
      rw [rd_set_eq _ _ _ hip]
      intro _
      omega
    · rw [rd_set_ne _ _ _ _ (fun e => hji e.symm)]
      intro hlt
      have := h.work j hj hlt
      omega
  · intro j hj
    show (rd (s.p.set i v) j).remaining_time = 0 → _ ∧ _ ≤ ct ∧ _
    by_cases hji : j = i
    · subst hji
      rw [rd_set_eq _ _ _ hip]
      intro hz
      rcases hc with ⟨hne, _⟩ | ⟨_, _, hcomp, htat, hwt⟩
      · exact absurd hz hne
      · rw [hcomp, htat, hwt, htat, va, vb, sa, sb]
        refine ⟨by omega, le_rfl, rfl, rfl⟩
    · rw [rd_set_ne _ _ _ _ (fun e => hji e.symm)]
      intro hz
      obtain ⟨h1, h2, h3⟩ := h.done j hj hz
      exact ⟨h1, by omega, h3⟩
  · show ct + totalRemaining (s.p.set i v) ≤ _
    have := h.pot
    omega
  · show totalRemaining (s.p.set i v) ≤ _
    have := h.tot
    omega

theorem rrStep_cases_ideal (q : Int) (s : RRState) (i : Nat) :
    (¬ ((rd s.p i).arrival_time ≤ s.current_time ∧ (rd s.p i).remaining_time > 0) ∧
      rrStep q s i = s) ∨
    (((rd s.p i).arrival_time ≤ s.current_time ∧ (rd s.p i).remaining_time > 0) ∧
      (rd s.p i).remaining_time > q ∧
      rrStep q s i =
        { p := s.p.set i { rd s.p i with remaining_time := (rd s.p i).remaining_time - q }
          current_time := s.current_time + q
          completed := s.completed
          did_something := true }) ∨
    (((rd s.p i).arrival_time ≤ s.current_time ∧ (rd s.p i).remaining_time > 0) ∧
      ¬ (rd s.p i).remaining_time > q ∧
      rrStep q s i =
        { p := s.p.set i { rd s.p i with
            remaining_time := 0
            completion_time := s.current_time + (rd s.p i).remaining_time
            turnaround_time :=
              s.current_time + (rd s.p i).remaining_time - (rd s.p i).arrival_time
            waiting_time :=
              s.current_time + (rd s.p i).remaining_time - (rd s.p i).arrival_time
                - (rd s.p i).burst_time }
          current_time := s.current_time + (rd s.p i).remaining_time
          completed := s.completed + 1
          did_something := true }) := by
  unfold rrStep
  by_cases he : (rd s.p i).arrival_time ≤ s.current_time ∧ (rd s.p i).remaining_time > 0
  · by_cases hq : (rd s.p i).remaining_time > q
    · right; left
      exact ⟨he, hq, by rw [if_pos he, if_pos hq]⟩
    · right; right
      exact ⟨he, hq, by rw [if_pos he, if_neg hq]⟩
  · left
    exact ⟨he, by rw [if_neg he]⟩

theorem rrInv_step (p0 : List Process) (mx q : Int) (s : RRState) (i : Nat) (hq : 0 < q)
    (hi : i < p0.length) (h : RRInv p0 mx s) : RRInv p0 mx (rrStep q s i) := by
  rcases rrStep_cases_ideal q s i with ⟨_, e⟩ | ⟨⟨ha, hp⟩, hgt, e⟩ | ⟨⟨ha, hp⟩, hle, e⟩
  · rw [e]; exact h
  · rw [e]
    exact rrInv_update p0 mx s i _ _ _ _ hi h ha ⟨rfl, rfl, rfl, rfl⟩
      (by show 0 ≤ (rd s.p i).remaining_time - q; omega)
      (by show (rd s.p i).remaining_time - q < _; omega)
      (by show _ = s.current_time + ((rd s.p i).remaining_time -
            ((rd s.p i).remaining_time - q)); omega)
      (Or.inl ⟨by show (rd s.p i).remaining_time - q ≠ 0; omega, rfl⟩)
  · rw [e]
    exact rrInv_update p0 mx s i _ _ _ _ hi h ha ⟨rfl, rfl, rfl, rfl⟩
      (by show (0 : Int) ≤ 0; exact le_rfl)
      (by show (0 : Int) < _; omega)
      (by show _ = s.current_time + ((rd s.p i).remaining_time - 0); omega)
      (Or.inr ⟨rfl, rfl, rfl, rfl, rfl⟩)

theorem rrStep_effect_ideal (q : Int) (s : RRState) (i : Nat) (hq : 0 < q) (hi : i < s.p.length) :
    (¬ ((rd s.p i).arrival_time ≤ s.current_time ∧ (rd s.p i).remaining_time > 0) ∧
      rrStep q s i = s) ∨
    ((rrStep q s i).did_something = true ∧
      totalRemaining (rrStep q s i).p < totalRemaining s.p ∧
      (rrStep q s i).current_time + totalRemaining (rrStep q s i).p =
        s.current_time + totalRemaining s.p) := by
  rcases rrStep_cases_ideal q s i with ⟨hne, e⟩ | ⟨⟨ha, hp⟩, hgt, e⟩ | ⟨⟨ha, hp⟩, hle, e⟩
  · exact Or.inl ⟨hne, e⟩
  · right
    rw [e]
    have := sum_map_set Process.remaining_time s.p i
      { rd s.p i with remaining_time := (rd s.p i).remaining_time - q } hi
    simp only [totalRemaining]
    rw [this]
    simp only
    refine ⟨trivial, by omega, by omega⟩
  · right
    rw [e]
    have := sum_map_set Process.remaining_time s.p i
      { rd s.p i with
        remaining_time := 0
        completion_time := s.current_time + (rd s.p i).remaining_time
        turnaround_time :=
          s.current_time + (rd s.p i).remaining_time - (rd s.p i).arrival_time
        waiting_time :=
          s.current_time + (rd s.p i).remaining_time - (rd s.p i).arrival_time
            - (rd s.p i).burst_time } hi
    simp only [totalRemaining]
    rw [this]
    simp only
    refine ⟨trivial, by omega, by omega⟩

theorem rrScan_inv (p0 : List Process) (mx q : Int) (s : RRState) (hq : 0 < q)
    (h : RRInv p0 mx s) :
    RRInv p0 mx ((List.range p0.length).foldl (rrStep q) { s with did_something := false }) ∧
    (((List.range p0.length).foldl (rrStep q) { s with did_something := false }).did_something
        = false →
      (List.range p0.length).foldl (rrStep q) { s with did_something := false }
        = { s with did_something := false } ∧
      ∀ i, i < p0.length →
        ¬ ((rd s.p i).arrival_time ≤ s.current_time ∧ (rd s.p i).remaining_time > 0)) ∧
    (((List.range p0.length).foldl (rrStep q) { s with did_something := false }).did_something
        = true →
      rrMeasure mx ((List.range p0.length).foldl (rrStep q) { s with did_something := false })
        < rrMeasure mx s) := by
  have key := foldl_range_inv (rrStep q)
    (fun k t => RRInv p0 mx t ∧
      (t.did_something = false → t = { s with did_something := false } ∧
        ∀ i, i < k →
          ¬ ((rd s.p i).arrival_time ≤ s.current_time ∧ (rd s.p i).remaining_time > 0)) ∧
      (t.did_something = true → totalRemaining t.p < totalRemaining s.p) ∧
      t.current_time + totalRemaining t.p = s.current_time + totalRemaining s.p)
    p0.length { s with did_something := false }
    ⟨⟨h.len, h.same, h.rem, h.count, h.work, h.done, h.pot, h.tot⟩,
      fun _ => ⟨rfl, fun i hi => absurd hi (Nat.not_lt_zero i)⟩,
      fun hd => by simp at hd, rfl⟩
    (by
      rintro k t hk ⟨hinv, hfalse, htrue, hcons⟩
      have hkt : k < t.p.length := by rw [hinv.len]; exact hk
      refine ⟨rrInv_step p0 mx q t k hq hk hinv, ?_⟩
      rcases rrStep_effect_ideal q t k hq hkt with ⟨hne, e⟩ | ⟨hd, hlt, hc⟩
      · rw [e]
        refine ⟨fun hd => ?_, htrue, hcons⟩
        obtain ⟨ht, hall⟩ := hfalse hd
        refine ⟨ht, fun i hi => ?_⟩
        by_cases hik : i = k
        · subst hik
          rw [ht] at hne
          exact hne
        · exact hall i (by omega)
      · refine ⟨fun hf => by rw [hd] at hf; exact absurd hf (by simp), fun _ => ?_, by omega⟩
        cases hdt : t.did_something with
        | false =>
          have := (hfalse hdt).1
          rw [this] at hlt ⊢
          exact hlt
        | true =>
          have := htrue hdt
          omega)
  obtain ⟨hinv, hfalse, htrue, hcons⟩ := key
  refine ⟨hinv, hfalse, fun hd => ?_⟩
  have := htrue hd
  unfold rrMeasure
  omega

theorem rrInv_tick (p0 : List Process) (mx : Int) (s : RRState) (d : Bool)
    (h : RRInv p0 mx s) (hlt : s.current_time < mx) :
    RRInv p0 mx { s with current_time := s.current_time + 1, did_something := d } := by
  refine ⟨h.len, h.same, h.rem, h.count, ?_, ?_, ?_, h.tot⟩
  · intro j hj hw
    have := h.work j hj hw
    show (rd p0 j).arrival_time + ((rd p0 j).burst_time - (rd s.p j).remaining_time)
      ≤ s.current_time + 1
    omega
  · intro j hj hz
    obtain ⟨h1, h2, h3⟩ := h.done j hj hz
    exact ⟨h1, by show (rd s.p j).completion_time ≤ s.current_time + 1; omega, h3⟩
  · show s.current_time + 1 + totalRemaining s.p ≤ _
    have := h.tot
    omega

theorem rrMeasure_tick (mx : Int) (s : RRState) (d : Bool) (hlt : s.current_time < mx) :
    rrMeasure mx { s with current_time := s.current_time + 1, did_something := d }
      < rrMeasure mx s := by
  unfold rrMeasure
  show totalRemaining s.p + max (mx - (s.current_time + 1)) 0 <
    totalRemaining s.p + max (mx - s.current_time) 0
  omega

theorem rrPass_inv (p0 : List Process) (mx q : Int) (s : RRState) (hq : 0 < q)
    (hmx : ∀ i, i < p0.length → (rd p0 i).arrival_time ≤ mx)
    (h : RRInv p0 mx s) (hc : s.completed ≠ p0.length) :
    RRInv p0 mx (rrPass q p0.length s) ∧
      rrMeasure mx (rrPass q p0.length s) < rrMeasure mx s := by
  obtain ⟨hinv, hfalse, htrue⟩ := rrScan_inv p0 mx q s hq h
  unfold rrPass
  simp only
  cases hd : ((List.range p0.length).foldl (rrStep q)
      { s with did_something := false }).did_something with
  | true =>
    simp only [Bool.true_eq_false, if_false]
    exact ⟨hinv, htrue hd⟩
  | false =>
    simp only [if_true]
    obtain ⟨ht, hall⟩ := hfalse hd
    rw [ht]
    rw [h.count] at hc
    obtain ⟨i, hi, hri⟩ := finishedCount_not_full _ _ hc
    have hlt : s.current_time < mx := by
      have h1 := hall i hi
      have h2 := (h.rem i hi).1
      have h3 := hmx i hi
      have h4 := (h.same i hi).2.1
      have : ¬ (rd s.p i).arrival_time ≤ s.current_time := fun ha => h1 ⟨ha, by omega⟩
      omega
    exact ⟨rrInv_tick p0 mx s false h hlt, rrMeasure_tick mx s false hlt⟩

theorem rrInv_totalRemaining_nonneg (p0 : List Process) (mx : Int) (s : RRState)
    (h : RRInv p0 mx s) : 0 ≤ totalRemaining s.p :=
  sum_map_nonneg _ _ (fun i hi => (h.rem i (by rw [← h.len]; exact hi)).1)

theorem rrLoop_inv (p0 : List Process) (mx q : Int) (hq : 0 < q)
    (hmx : ∀ i, i < p0.length → (rd p0 i).arrival_time ≤ mx)
    (fuel : Nat) (s r : RRState) (h : RRInv p0 mx s)
    (hr : rrLoop q p0.length fuel s = some r) :
    RRInv p0 mx r ∧ r.completed = p0.length := by
  induction fuel generalizing s with
  | zero => simp [rrLoop] at hr
  | succ k ih =>
    simp only [rrLoop] at hr
    by_cases hc : s.completed = p0.length
    · simp only [hc, if_true, Option.some.injEq] at hr
      subst hr
      exact ⟨h, hc⟩
    · simp only [hc, if_false] at hr
      exact ih _ (rrPass_inv p0 mx q s hq hmx h hc).1 hr

theorem rrLoop_terminates_ideal (p0 : List Process) (mx q : Int) (hq : 0 < q)
    (hmx : ∀ i, i < p0.length → (rd p0 i).arrival_time ≤ mx)
    (fuel : Nat) (s : RRState) (h : RRInv p0 mx s) (hf : rrMeasure mx s < fuel) :
    ∃ r, rrLoop q p0.length fuel s = some r := by
  induction fuel generalizing s with
  | zero =>
    have := rrInv_totalRemaining_nonneg p0 mx s h
    unfold rrMeasure at hf
    simp only [Nat.cast_zero] at hf
    omega
  | succ k ih =>
    simp only [rrLoop]
    by_cases hc : s.completed = p0.length
    · exact ⟨s, by simp only [hc, if_true]⟩
    · simp only [hc, if_false]
      obtain ⟨hinv, hm⟩ := rrPass_inv p0 mx q s hq hmx h hc
      exact ih _ hinv (by push_cast at hf; omega)

theorem rrInv_init (p0 : List Process) (mx : Int) (hmx : 0 ≤ mx)
    (hb : ∀ i, i < p0.length → 0 < (rd p0 i).burst_time)
    (hrem : ∀ i, i < p0.length → (rd p0 i).remaining_time = (rd p0 i).burst_time) :
    RRInv p0 mx (rrInit p0) := by
  have hsum : totalRemaining p0 = totalBurst p0 := by
    unfold totalRemaining totalBurst
    rw [map_congr_rd _ _ p0 hrem]
  refine ⟨rfl, fun i _ => ⟨rfl, rfl, rfl, rfl⟩, ?_, ?_, ?_, ?_, ?_, ?_⟩
  · intro i hi
    show 0 ≤ (rd p0 i).remaining_time ∧ (rd p0 i).remaining_time ≤ _
    rw [hrem i hi]
    exact ⟨le_of_lt (hb i hi), le_rfl⟩
  · show 0 = finishedCount p0 p0.length
    unfold finishedCount
    symm
    rw [Finset.card_eq_zero, Finset.filter_eq_empty_iff]
    intro i hi
    have h1 := hb i (Finset.mem_range.mp hi)
    have h2 := hrem i (Finset.mem_range.mp hi)
    omega
  · intro i hi hlt
    have := hrem i hi
    exact absurd hlt (by show ¬ (rd p0 i).remaining_time < _; omega)
  · intro i hi hz
    have h1 := hb i hi
    have h2 := hrem i hi
    exact absurd hz (by show ¬ (rd p0 i).remaining_time = 0; omega)
  · show (0 : Int) + totalRemaining p0 ≤ _
    omega
  · show totalRemaining p0 ≤ _
    omega

theorem fcfs_fields_ideal (p : List Process) :
    (fcfs p).length = p.length ∧
    ∀ i, i < p.length →
      SameInput (rd (fcfs p) i) (rd (fcfsSort p.length p) i) ∧
      (rd (fcfs p) i).completion_time =
        max (if i = 0 then 0 else (rd (fcfs p) (i - 1)).completion_time)
          (rd (fcfs p) i).arrival_time + (rd (fcfs p) i).burst_time ∧
      Conserved (rd (fcfs p) i) := by
  have h := fcfsRun_fold_ideal (fcfsSort p.length p)
  rw [fcfsSort_length] at h
  refine ⟨h.1, fun i hi => ?_⟩
  have hd := h.2 i hi
  unfold FcfsDone at hd
  unfold fcfs
  rw [hd]
  refine ⟨⟨rfl, rfl, rfl, rfl, rfl⟩, rfl, ?_, rfl⟩
  show _ - _ = _ - _
  rfl

theorem sel_result (key : Process → Int) (p : List Process)
    (hkey : ∀ x y, SameInput x y → key x = key y) (hv : ValidInput p)
    (fuel : Nat) (r : SelState) (hr : selLoop key p.length fuel (selInit p) = some r) :
    SelInv key p r ∧ ∀ i, i < p.length → flag r.is_completed i = true := by
  obtain ⟨h1, h2⟩ := selLoop_inv key p hkey hv.2.1
    (fun i hi => le_of_lt (hv.2.2 i hi).2.1) fuel _ r (selInv_init key p) hr
  refine ⟨h1, ?_⟩
  have := h1.count
  rw [h2] at this
  exact doneCount_full _ _ this.symm

theorem rr_result_ideal (q : Int) (hq : 0 < q) (p : List Process) (hv : ValidProcesses p) (mx : Int)
    (hmx : ∀ i, i < p.length → (rd p i).arrival_time ≤ mx)
    (fuel : Nat) (r : RRState) (hr : rrLoop q p.length fuel (rrInit p) = some r) :
    RRInv p mx r ∧ ∀ i, i < p.length → (rd r.p i).remaining_time = 0 := by
  have h0 : 0 ≤ mx := le_trans (hv.2 0 hv.1).1 (hmx 0 hv.1)
  obtain ⟨h1, h2⟩ := rrLoop_inv p mx q hq hmx fuel _ r
    (rrInv_init p mx h0 (fun i hi => (hv.2 i hi).2.1) (fun i hi => (hv.2 i hi).2.2)) hr
  refine ⟨h1, ?_⟩
  have := h1.count
  rw [h2] at this
  exact finishedCount_full _ _ this.symm

theorem fcfs_record_ideal (p : List Process) (i : Nat) (hi : i < p.length) :
    NonNegWait (rd (fcfs p) i) ∧ Conserved (rd (fcfs p) i) := by
  obtain ⟨_, hc, hcons⟩ := (fcfs_fields_ideal p).2 i hi
  refine ⟨?_, hcons⟩
  obtain ⟨ht, hw⟩ := hcons
  unfold NonNegWait
  rw [hw, ht, hc]
  refine ⟨?_, ?_, ?_⟩ <;> omega

theorem sel_record_ideal (key : Process → Int) (p : List Process)
    (hkey : ∀ x y, SameInput x y → key x = key y) (hv : ValidInput p)
    (fuel : Nat) (r : SelState) (hr : selLoop key p.length fuel (selInit p) = some r)
    (i : Nat) (hi : i < p.length) :
    NonNegWait (rd r.p i) ∧ Conserved (rd r.p i) := by
  obtain ⟨hinv, hall⟩ := sel_result key p hkey hv fuel r hr
  obtain ⟨_, h2, h3, h4⟩ := hinv.done i hi (hall i hi)
  obtain ⟨_, sa, sb, _⟩ := hinv.same i hi
  unfold NonNegWait Conserved
  rw [sa, sb, h4, h3]
  refine ⟨⟨?_, ?_, ?_⟩, rfl, rfl⟩ <;> omega

theorem rr_record_ideal (q : Int) (hq : 0 < q) (p : List Process) (hv : ValidProcesses p)
    (fuel : Nat) (r : RRState) (hr : rrLoop q p.length fuel (rrInit p) = some r)
    (i : Nat) (hi : i < p.length) :
    NonNegWait (rd r.p i) ∧ Conserved (rd r.p i) := by
  obtain ⟨mx, hmx⟩ := exists_arrival_bound p
  obtain ⟨hinv, hall⟩ := rr_result_ideal q hq p hv mx hmx fuel r hr
  obtain ⟨h1, _, h3, h4⟩ := hinv.done i hi (hall i hi)
  obtain ⟨_, sa, sb, _⟩ := hinv.same i hi
  unfold NonNegWait Conserved
  rw [sa, sb, h4, h3]
  refine ⟨⟨?_, ?_, ?_⟩, rfl, rfl⟩ <;> omega

theorem fcfs_completion_mono_ideal (p : List Process)
    (hb : ∀ k, k < p.length → 0 < (rd p k).burst_time) (i j : Nat) (hij : i < j)
    (hj : j < p.length) :
    (rd (fcfs p) i).completion_time < (rd (fcfs p) j).completion_time := by
  -- every record of the sorted array has a positive burst
  have hpos : ∀ k, k < p.length → 0 < (rd (fcfs p) k).burst_time := by
    intro k hk
    have hperm := (fcfsSort_perm_filter p).2.1
    have hlen := fcfs_fields_ideal p
    have hs := ((hlen.2 k hk).1).2.2.1
    rw [hs]
    have hmem : rd (fcfsSort p.length p) k ∈ fcfsSort p.length p := by
      rw [rd_eq_getElem _ _ (by rw [fcfsSort_length]; exact hk)]
      exact List.getElem_mem _
    have hmem2 := hperm.subset hmem
    obtain ⟨m, hm, hme⟩ := List.getElem_of_mem hmem2
    rw [← hme, ← rd_eq_getElem _ _ hm]
    exact hb m hm
  induction j with
  | zero => omega
  | succ j ih =>
    have hstep : (rd (fcfs p) j).completion_time < (rd (fcfs p) (j + 1)).completion_time := by
      have := ((fcfs_fields_ideal p).2 (j + 1) hj).2.1
      simp only [Nat.succ_ne_zero, if_false, Nat.add_sub_cancel] at this
      have hp := hpos (j + 1) hj
      omega
    by_cases hij2 : i = j
    · subst hij2; exact hstep
    · exact lt_trans (ih (by omega) (by omega)) hstep

theorem sel_schedule_ideal (key : Process → Int) (p : List Process)
    (hkey : ∀ x y, SameInput x y → key x = key y) (hv : ValidInput p)
    (fuel : Nat) (r : SelState) (hr : selLoop key p.length fuel (selInit p) = some r)
    (i : Nat) (hi : i < p.length) :
    (rd r.p i).arrival_time ≤ (rd r.p i).completion_time - (rd r.p i).burst_time ∧
    ∀ j, j < p.length → j ≠ i →
      ((rd r.p j).completion_time ≤ (rd r.p i).completion_time - (rd r.p i).burst_time ∨
        (rd r.p i).completion_time ≤ (rd r.p j).completion_time - (rd r.p j).burst_time) ∧
      ((rd r.p j).arrival_time ≤ (rd r.p i).completion_time - (rd r.p i).burst_time →
        (rd r.p i).completion_time < (rd r.p j).completion_time →
        key (rd r.p i) ≤ key (rd r.p j) ∧ (key (rd r.p i) = key (rd r.p j) → i < j)) := by
  obtain ⟨hinv, hall⟩ := sel_result key p hkey hv fuel r hr
  have hsi := hinv.same i hi
  have sa := hsi.2.1
  have sb := hsi.2.2.1
  refine ⟨?_, fun j hj hji => ?_⟩
  · rw [sa, sb]
    exact (hinv.done i hi (hall i hi)).2.1
  · have hsj := hinv.same j hj
    have ja := hsj.2.1
    have jb := hsj.2.2.1
    obtain ⟨h1, h2⟩ := hinv.pair i j hi hj (fun e => hji e.symm) (hall i hi) (hall j hj)
    rw [sb, jb, ja, hkey _ _ hsi, hkey _ _ hsj]
    exact ⟨h1.symm, h2⟩

theorem rr_terminates_ideal (q : Int) (hq : 0 < q) (p : List Process) (hv : ValidProcesses p)
    (mx : Int) (hmx : ∀ i, i < p.length → (rd p i).arrival_time ≤ mx) (fuel : Nat)
    (hf : mx + totalBurst p < fuel) : ∃ r, rrLoop q p.length fuel (rrInit p) = some r := by
  have h0 : 0 ≤ mx := le_trans (hv.2 0 hv.1).1 (hmx 0 hv.1)
  have hinv := rrInv_init p mx h0 (fun i hi => (hv.2 i hi).2.1)
    (fun i hi => (hv.2 i hi).2.2)
  have hm : rrMeasure mx (rrInit p) < fuel := by
    unfold rrMeasure
    show totalRemaining p + max (mx - 0) 0 < fuel
    rw [totalRemaining_eq_totalBurst p (fun i hi => (hv.2 i hi).2.2)]
    omega
  exact rrLoop_terminates_ideal p mx q hq hmx fuel _ hinv hm

theorem rr_completion_bound_ideal (q : Int) (hq : 0 < q) (p : List Process)
    (hv : ValidProcesses p)
    (mx : Int) (hmx : ∀ i, i < p.length → (rd p i).arrival_time ≤ mx)
    (fuel : Nat) (r : RRState) (hr : rrLoop q p.length fuel (rrInit p) = some r)
    (i : Nat) (hi : i < p.length) :
    (rd p i).arrival_time + (rd p i).burst_time ≤ (rd r.p i).completion_time ∧
    (rd r.p i).completion_time ≤ mx + totalBurst p := by
  obtain ⟨hinv, hall⟩ := rr_result_ideal q hq p hv mx hmx fuel r hr
  obtain ⟨h1, h2, _⟩ := hinv.done i hi (hall i hi)
  have h3 := hinv.pot
  have h4 := rrInv_totalRemaining_nonneg p mx r hinv
  exact ⟨h1, by omega⟩

theorem fcfs_single (x : Process) :
    (rd (fcfs [x]) 0).completion_time = max 0 x.arrival_time + x.burst_time := by
  obtain ⟨hs, hc, _⟩ := (fcfs_fields_ideal [x]).2 0 (by simp)
  have e : rd (fcfsSort [x].length [x]) 0 = x := rfl
  rw [e] at hs
  rw [hc, hs.2.1, hs.2.2.1]
  rfl

theorem selBase_tick (p0 : List Process) (s : SelState) (h : SelBase p0 s) :
    SelBase p0 { s with current_time := s.current_time + 1 } :=
  ⟨h.len, h.flen, h.count, h.same⟩

theorem selBase_exec_ideal (p0 : List Process) (s : SelState) (idx : Nat)
    (hn : p0.length ≤ MAX_PROCESSES) (h : SelBase p0 s) (hidx : idx < p0.length)
    (hnot : flag s.is_completed idx = false) : SelBase p0 (selExec s idx) := by
  have hidxp : idx < s.p.length := by rw [h.len]; exact hidx
  have hidxf : idx < s.is_completed.length := by rw [h.flen]; omega
  refine ⟨?_, ?_, ?_, ?_⟩
  · simp [selExec, h.len]
  · simp [selExec, h.flen]
  · show s.completed + 1 = doneCount (s.is_completed.set idx true) p0.length
    rw [doneCount_set _ _ _ hidx hidxf hnot, h.count]
  · intro i hi
    by_cases hii : i = idx
    · rw [hii]
      have e : rd (selExec s idx).p idx = _ := rd_set_eq _ _ _ hidxp
      rw [e]
      exact h.same idx hidx
    · have e : rd (selExec s idx).p i = rd s.p i := rd_set_ne _ _ _ _ (fun e => hii e.symm)
      rw [e]
      exact h.same i hi

/-- A process whose compared field is at least the sentinel 99999 is never selected, so
the loop never reaches `completed = n`. -/
theorem selLoop_never_ideal (key : Process → Int) (hkey : ∀ x y, SameInput x y → key x = key y)
    (p0 : List Process) (hn : p0.length ≤ MAX_PROCESSES) (k : Nat) (hk : k < p0.length)
    (hbig : 99999 ≤ key (rd p0 k)) (fuel : Nat) (s : SelState) (h : SelBase p0 s)
    (hf : flag s.is_completed k = false) : selLoop key p0.length fuel s = none := by
  induction fuel generalizing s with
  | zero => rfl
  | succ m ih =>
    simp only [selLoop]
    have hc : s.completed ≠ p0.length := by
      rw [h.count]
      exact Nat.ne_of_lt (doneCount_lt _ _ k hk hf)
    simp only [hc, if_false]
    cases hs : selScan key p0.length s.p s.current_time s.is_completed with
    | none =>
      exact ih _ (selBase_tick p0 s h) hf
    | some idx =>
      obtain ⟨hidx, ⟨_, hnot⟩, hlt, _⟩ := (selScan_spec key _ _ _ _).2 idx hs
      have hne : k ≠ idx := by
        intro e
        rw [← e, hkey _ _ (h.same k hk)] at hlt
        omega
      refine ih _ (selBase_exec_ideal p0 s idx hn h hidx hnot) ?_
      have e : flag (selExec s idx).is_completed k = flag s.is_completed k :=
        flag_set_ne _ _ _ _ (fun e => hne e.symm)
      rw [e]
      exact hf

theorem selLoop_time (key : Process → Int)
    (hkey : ∀ x y, SameInput x y → key x = key y) (p0 : List Process)
    (hn : p0.length ≤ MAX_PROCESSES)
    (hb : ∀ i, i < p0.length → 0 ≤ (rd p0 i).burst_time)
    (hlt : ∀ i, i < p0.length → key (rd p0 i) < 99999) (mx : Int)
    (hmx : ∀ i, i < p0.length → (rd p0 i).arrival_time ≤ mx)
    (fuel : Nat) (s r : SelState) (h : SelBase p0 s)
    (ht : s.current_time ≤ mx + doneBurst s.is_completed p0)
    (hr : selLoop key p0.length fuel s = some r) :
    r.current_time ≤ mx + totalBurst p0 := by
  induction fuel generalizing s with
  | zero => simp [selLoop] at hr
  | succ m ih =>
    simp only [selLoop] at hr
    by_cases hc : s.completed = p0.length
    · simp only [hc, if_true, Option.some.injEq] at hr
      subst hr
      have := (doneBurst_le_total s.is_completed p0 hb).2
      omega
    · simp only [hc, if_false] at hr
      cases hs : selScan key p0.length s.p s.current_time s.is_completed with
      | none =>
        rw [hs] at hr
        refine ih _ (selBase_tick p0 s h) ?_ hr
        have hc' := hc
        rw [h.count] at hc'
        obtain ⟨i, hi, hfi⟩ := doneCount_not_full _ _ hc'
        have hnone := (selScan_spec key _ _ _ _).1 hs i hi
        have hsi := h.same i hi
        have hki := hlt i hi
        rw [← hkey _ _ hsi] at hki
        have harr : ¬ (rd s.p i).arrival_time ≤ s.current_time := by
          intro ha
          have := hnone ⟨ha, hfi⟩
          omega
        rw [hsi.2.1] at harr
        have := hmx i hi
        have := (doneBurst_le_total s.is_completed p0 hb).1
        show s.current_time + 1 ≤ mx + doneBurst s.is_completed p0
        omega
      | some idx =>
        rw [hs] at hr
        obtain ⟨hidx, ⟨_, hnot⟩, _⟩ := (selScan_spec key _ _ _ _).2 idx hs
        refine ih _ (selBase_exec_ideal p0 s idx hn h hidx hnot) ?_ hr
        show s.current_time + (rd s.p idx).burst_time ≤
          mx + doneBurst (s.is_completed.set idx true) p0
        rw [doneBurst_set _ _ _ hidx (by rw [h.flen]; omega) hnot, (h.same idx hidx).2.2.1]
        omega

theorem sel_completion_bound_ideal (key : Process → Int)
    (hkey : ∀ x y, SameInput x y → key x = key y) (p : List Process) (hv : ValidInput p)
    (hlt : ∀ i, i < p.length → key (rd p i) < 99999) (mx : Int)
    (hmx : ∀ i, i < p.length → (rd p i).arrival_time ≤ mx) (fuel : Nat) (r : SelState)
    (hr : selLoop key p.length fuel (selInit p) = some r) (i : Nat) (hi : i < p.length) :
    (rd r.p i).completion_time ≤ mx + totalBurst p := by
  have hb : ∀ i, i < p.length → 0 ≤ (rd p i).burst_time :=
    fun i hi => le_of_lt (hv.2.2 i hi).2.1
  have h0 : 0 ≤ mx := le_trans (hv.2.2 0 hv.1).1 (hmx 0 hv.1)
  have ht := selLoop_time key hkey p hv.2.1 hb hlt mx hmx fuel _ r (selBase_init p)
    (by
      show (0 : Int) ≤ mx + doneBurst (List.replicate MAX_PROCESSES false) p
      rw [doneBurst_replicate]
      omega) hr
  obtain ⟨hinv, hall⟩ := sel_result key p hkey hv fuel r hr
  have := (hinv.done i hi (hall i hi)).1
  omega

theorem fcfs_no_overlap_ideal (p : List Process)
    (hb : ∀ k, k < p.length → 0 < (rd p k).burst_time) (i j : Nat) (hij : i < j)
    (hj : j < p.length) :
    (rd (fcfs p) i).completion_time ≤
      (rd (fcfs p) j).completion_time - (rd (fcfs p) j).burst_time := by
  have hc := ((fcfs_fields_ideal p).2 j hj).2.1
  rw [if_neg (by omega)] at hc
  have hprev : (rd (fcfs p) i).completion_time ≤ (rd (fcfs p) (j - 1)).completion_time := by
    by_cases e : i = j - 1
    · rw [e]
    · exact le_of_lt (fcfs_completion_mono_ideal p hb i (j - 1) (by omega) (by omega))
  omega

end Ideal

/-! ## Wraparound arithmetic -/

theorem wrap_eq (x : Int) (h1 : INT_MIN ≤ x) (h2 : x ≤ INT_MAX) : wrap x = x := by
  unfold INT_MIN at h1
  unfold INT_MAX at h2
  unfold wrap
  omega

theorem wrap_range (x : Int) : INT_MIN ≤ wrap x ∧ wrap x ≤ INT_MAX := by
  unfold INT_MIN INT_MAX wrap
  omega

theorem wrap_add_wrap (a b : Int) : wrap (wrap a + b) = wrap (a + b) := by
  unfold wrap
  omega

/-! ## The input contract -/

theorem validInput_ideal {p : List Process} (h : ValidInput p) : Ideal.ValidInput p :=
  ⟨h.1, h.2.1, fun i hi => ⟨(h.2.2 i hi).1.1, (h.2.2 i hi).2.1.1, (h.2.2 i hi).2.2⟩⟩

theorem validProcesses_ideal {p : List Process} (h : ValidProcesses p) :
    Ideal.ValidProcesses p :=
  ⟨h.1, fun i hi => ⟨(h.2 i hi).1.1, (h.2 i hi).2.1.1, (h.2 i hi).2.2⟩⟩

/-! ## FCFS: the execution phase -/

theorem fcfsRun_fold (q : List Process) :
    ((List.range q.length).foldl fcfsRun (q, 0)).1.length = q.length ∧
    ∀ i, i < q.length → FcfsDone ((List.range q.length).foldl fcfsRun (q, 0)).1 q i := by
  have key := foldl_range_inv fcfsRun
    (fun k s => s.1.length = q.length ∧ (∀ i, k ≤ i → rd s.1 i = rd q i) ∧
      (∀ i, i < k → FcfsDone s.1 q i) ∧
      s.2 = if k = 0 then 0 else (rd s.1 (k - 1)).completion_time)
    q.length (q, 0) ⟨rfl, fun _ _ => rfl, fun i hi => absurd hi (Nat.not_lt_zero i), rfl⟩
    (by
      rintro k ⟨l, ct⟩ hk ⟨hlen, hrest, hdone, hct⟩
      have hkl : k < l.length := by rw [hlen]; exact hk
      simp only at hlen hrest hdone hct
      refine ⟨by simp [fcfsRun, hlen], ?_, ?_, ?_⟩
      · intro i hi
        simp only [fcfsRun]
        rw [rd_set_ne _ _ _ _ (by omega)]
        exact hrest i (by omega)
      · intro i hi
        simp only [FcfsDone, fcfsRun]
        by_cases hik : i = k
        · subst hik
          rw [rd_set_eq _ _ _ hkl, hrest i le_rfl]
          have hmax : (if ct < (rd q i).arrival_time then (rd q i).arrival_time else ct)
              = max ct (rd q i).arrival_time := by omega
          rw [hmax]
          by_cases h0 : i = 0
          · subst h0
            simp only [if_true] at hct ⊢
            rw [hct]
          · simp only [h0, if_false] at hct ⊢
            rw [rd_set_ne _ _ _ _ (by omega), ← hct]
        · have hlt : i < k := by omega
          have := hdone i hlt
          simp only [FcfsDone] at this
          rw [rd_set_ne _ _ _ _ (by omega)]
          by_cases h0 : i = 0
          · simpa [h0] using this
          · simp only [h0, if_false] at this ⊢
            rw [rd_set_ne _ _ _ _ (by omega)]
            exact this
      · simp only [fcfsRun]
        simp only [Nat.add_sub_cancel, Nat.succ_ne_zero, if_false]
        rw [rd_set_eq _ _ _ hkl])
  exact ⟨key.1, key.2.2.1⟩

/-- The records of the array returned by `fcfs`: the input fields of the sorted array, and
the timing fields computed from the completion time of the previous position. -/
theorem fcfs_fields (p : List Process) :
    (fcfs p).length = p.length ∧
    ∀ i, i < p.length →
      SameInput (rd (fcfs p) i) (rd (fcfsSort p.length p) i) ∧
      (rd (fcfs p) i).completion_time =
        wrap (max (if i = 0 then 0 else (rd (fcfs p) (i - 1)).completion_time)
          (rd (fcfs p) i).arrival_time + (rd (fcfs p) i).burst_time) ∧
      (rd (fcfs p) i).turnaround_time =
        wrap ((rd (fcfs p) i).completion_time - (rd (fcfs p) i).arrival_time) ∧
      (rd (fcfs p) i).waiting_time =
        wrap ((rd (fcfs p) i).turnaround_time - (rd (fcfs p) i).burst_time) := by
  have h := fcfsRun_fold (fcfsSort p.length p)
  rw [fcfsSort_length] at h
  refine ⟨h.1, fun i hi => ?_⟩
  have hd := h.2 i hi
  unfold FcfsDone at hd
  unfold fcfs
  rw [hd]
  exact ⟨⟨rfl, rfl, rfl, rfl, rfl⟩, rfl, rfl, rfl⟩

theorem fcfs_map_descr (p : List Process) :
    (fcfs p).map Process.descr = (fcfsSort p.length p).map Process.descr := by
  obtain ⟨hlen, hf⟩ := fcfs_fields p
  apply map_eq_of_rd _ _ _ (by rw [hlen, fcfsSort_length])
  intro i hi
  rw [hlen] at hi
  exact (hf i hi).1.descr_eq

theorem fcfs_arrival_sorted (p : List Process) (i j : Nat) (hij : i ≤ j) (hj : j < p.length) :
    (rd (fcfs p) i).arrival_time ≤ (rd (fcfs p) j).arrival_time := by
  have hf := (fcfs_fields p).2
  rw [(hf i (by omega)).1.2.1, (hf j hj).1.2.1]
  exact fcfsSort_sorted p i j hij hj

theorem fcfs_independent (p q : List Process) (h : SameInputs p q) : fcfs q = fcfs p := by
  obtain ⟨hlp, hfp⟩ := fcfs_fields p
  obtain ⟨hlq, hfq⟩ := fcfs_fields q
  have hs := fcfsSort_sameInputs p q h
  have hpq := h.1
  apply list_ext_rd _ _ (by rw [hlq, hlp, hpq])
  intro i hi
  rw [hlq] at hi
  induction i using Nat.strong_induction_on with
  | _ i ih =>
    have hip : i < p.length := by rw [hpq]; exact hi
    obtain ⟨sP, cP, tP, wP⟩ := hfp i hip
    obtain ⟨sQ, cQ, tQ, wQ⟩ := hfq i hi
    have hsi := hs.2 i (by rw [fcfsSort_length]; exact hip)
    have hsame : SameInput (rd (fcfs q) i) (rd (fcfs p) i) :=
      sQ.trans (hsi.symm.trans sP.symm)
    have hprev : (if i = 0 then (0 : Int) else (rd (fcfs q) (i - 1)).completion_time) =
        (if i = 0 then (0 : Int) else (rd (fcfs p) (i - 1)).completion_time) := by
      by_cases h0 : i = 0
      · simp [h0]
      · simp only [h0, if_false]
        rw [ih (i - 1) (by omega) (by omega)]
    have hc : (rd (fcfs q) i).completion_time = (rd (fcfs p) i).completion_time := by
      rw [cQ, cP, hprev, hsame.2.1, hsame.2.2.1]
    have ht : (rd (fcfs q) i).turnaround_time = (rd (fcfs p) i).turnaround_time := by
      rw [tQ, tP, hc, hsame.2.1]
    have hw : (rd (fcfs q) i).waiting_time = (rd (fcfs p) i).waiting_time := by
      rw [wQ, wP, ht, hsame.2.2.1]
    exact Process.eq_of_same hsame hc ht hw

/-- A non-empty array has a record with the largest arrival time. -/
theorem exists_max_arrival (p : List Process) (hn : 1 ≤ p.length) :
    ∃ k, k < p.length ∧ ∀ j, j < p.length → (rd p j).arrival_time ≤ (rd p k).arrival_time := by
  induction p with
  | nil => simp at hn
  | cons a l ih =>
    cases l with
    | nil =>
      refine ⟨0, by simp, fun j hj => ?_⟩
      have : j = 0 := by simpa using hj
      rw [this]
    | cons b l =>
      obtain ⟨k, hk, hmax⟩ := ih (by simp)
      by_cases hc : (rd (b :: l) k).arrival_time ≤ a.arrival_time
      · refine ⟨0, by simp, fun j hj => ?_⟩
        rw [rd_cons_zero]
        cases j with
        | zero => rw [rd_cons_zero]
        | succ j =>
          rw [rd_cons_succ]
          exact le_trans (hmax j (by simpa using hj)) hc
      · refine ⟨k + 1, by simpa using hk, fun j hj => ?_⟩
        rw [rd_cons_succ]
        cases j with
        | zero => rw [rd_cons_zero]; omega
        | succ j =>
          rw [rd_cons_succ]
          exact hmax j (by simpa using hj)

/-- A property of all the records of an array holds for all the records of the sorted
array. -/
theorem fcfsSort_forall (p : List Process) (P : Process → Prop)
    (h : ∀ i, i < p.length → P (rd p i)) :
    ∀ i, i < p.length → P (rd (fcfsSort p.length p) i) := by
  intro k hk
  have hperm := (fcfsSort_perm_filter p).2.1
  have hmem : rd (fcfsSort p.length p) k ∈ fcfsSort p.length p := by
    rw [rd_eq_getElem _ _ (by rw [fcfsSort_length]; exact hk)]
    exact List.getElem_mem _
  obtain ⟨m, hm, hme⟩ := List.getElem_of_mem (hperm.subset hmem)
  rw [← hme, ← rd_eq_getElem _ _ hm]
  exact h m hm

theorem fcfsSort_totalBurst (p : List Process) :
    totalBurst (fcfsSort p.length p) = totalBurst p := by
  unfold totalBurst
  exact ((fcfsSort_perm_filter p).2.1.map _).sum_eq

/-- Partial sums of non-negative burst times stay below the total. -/
theorem prefix_burst_le (q : List Process)
    (hb : ∀ i, i < q.length → 0 ≤ (rd q i).burst_time) (k : Nat) (hk : k ≤ q.length) :
    0 ≤ ∑ j in Finset.range k, (rd q j).burst_time ∧
    ∑ j in Finset.range k, (rd q j).burst_time ≤ totalBurst q := by
  unfold totalBurst
  rw [← sum_range_rd]
  refine ⟨Finset.sum_nonneg (fun i hi => hb i (by have := Finset.mem_range.mp hi; omega)),
    Finset.sum_le_sum_of_subset_of_nonneg
      (fun i hi => Finset.mem_range.mpr (by have := Finset.mem_range.mp hi; omega))
      (fun i hi _ => hb i (Finset.mem_range.mp hi))⟩

namespace Ideal

/-- Over `ℤ` the completion time of position `i` is at most a bound on the arrival times
plus the bursts of the positions up to `i`. -/
theorem fcfs_completion_le (p : List Process) (mx : Int)
    (ha : ∀ i, i < p.length → 0 ≤ (rd p i).arrival_time ∧ (rd p i).arrival_time ≤ mx)
    (hb : ∀ i, i < p.length → 0 ≤ (rd p i).burst_time) (i : Nat) (hi : i < p.length) :
    (rd (fcfs p) i).arrival_time + (rd (fcfs p) i).burst_time ≤
      (rd (fcfs p) i).completion_time ∧
    (rd (fcfs p) i).completion_time ≤
      mx + ∑ j in Finset.range (i + 1), (rd (fcfsSort p.length p) j).burst_time := by
  have hf := (fcfs_fields_ideal p).2
  have hqa := fcfsSort_forall p (fun x => 0 ≤ x.arrival_time ∧ x.arrival_time ≤ mx) ha
  have hqb := fcfsSort_forall p (fun x => 0 ≤ x.burst_time) hb
  induction i with
  | zero =>
    obtain ⟨hs, hc, _⟩ := hf 0 hi
    rw [hc, hs.2.1, hs.2.2.1, Finset.sum_range_succ, Finset.sum_range_zero]
    have h1 := hqa 0 hi
    have h2 := hqb 0 hi
    simp only [if_true]
    simp only at h1 h2
    omega
  | succ i ih =>
    obtain ⟨hs, hc, _⟩ := hf (i + 1) hi
    have hprev := (ih (by omega)).2
    have hlow := (ih (by omega)).1
    have h0 := hqa i (by omega)
    have h0b := hqb i (by omega)
    have hsi := (hf i (by omega)).1
    rw [hsi.2.1, hsi.2.2.1] at hlow
    rw [hc, hs.2.1, hs.2.2.1, Finset.sum_range_succ]
    have h1 := hqa (i + 1) hi
    have h2 := hqb (i + 1) hi
    have h3 := (prefix_burst_le (fcfsSort p.length p)
      (by rw [fcfsSort_length]; exact hqb) (i + 1) (by rw [fcfsSort_length]; omega)).1
    simp only [Nat.succ_ne_zero, if_false, Nat.add_sub_cancel]
    simp only at h1 h2 h0 h0b
    omega

end Ideal

/-- When the largest arrival time plus the sum of the bursts fits in an `int`, `fcfs`
computes what it computes over `ℤ`. -/
theorem fcfs_eq_ideal (p : List Process)
    (ha : ∀ i, i < p.length → 0 ≤ (rd p i).arrival_time)
    (hb : ∀ i, i < p.length → 0 ≤ (rd p i).burst_time) (hno : NoOverflow p) :
    fcfs p = Ideal.fcfs p := by
  obtain ⟨hlm, hfm⟩ := fcfs_fields p
  obtain ⟨hlz, hfz⟩ := Ideal.fcfs_fields_ideal p
  apply list_ext_rd _ _ (by rw [hlm, hlz])
  intro i hi
  rw [hlm] at hi
  have hn : 1 ≤ p.length := by omega
  obtain ⟨k, hk, hmx⟩ := exists_max_arrival p hn
  have hnok := hno k hk
  have hqa := fcfsSort_forall p (fun x => 0 ≤ x.arrival_time ∧
    x.arrival_time ≤ (rd p k).arrival_time) (fun j hj => ⟨ha j hj, hmx j hj⟩)
  have hqb := fcfsSort_forall p (fun x => 0 ≤ x.burst_time) hb
  induction i using Nat.strong_induction_on with
  | _ i ih =>
    obtain ⟨sM, cM, tM, wM⟩ := hfm i hi
    obtain ⟨sZ, cZ, tZ, wZ⟩ := hfz i hi
    have hsame : SameInput (rd (fcfs p) i) (rd (Ideal.fcfs p) i) := sM.trans sZ.symm
    have hprev : (if i = 0 then (0 : Int) else (rd (fcfs p) (i - 1)).completion_time) =
        (if i = 0 then (0 : Int) else (rd (Ideal.fcfs p) (i - 1)).completion_time) := by
      by_cases h0 : i = 0
      · simp [h0]
      · simp only [h0, if_false]
        rw [ih (i - 1) (by omega) (by omega)]
    obtain ⟨hlo, hhi⟩ := Ideal.fcfs_completion_le p (rd p k).arrival_time
      (fun j hj => ⟨ha j hj, hmx j hj⟩) hb i hi
    have hsum := (prefix_burst_le (fcfsSort p.length p)
      (by rw [fcfsSort_length]; exact hqb) (i + 1) (by rw [fcfsSort_length]; omega)).2
    rw [fcfsSort_totalBurst] at hsum
    have h1 := hqa i hi
    have h2 := hqb i hi
    simp only at h1 h2
    rw [sZ.2.1, sZ.2.2.1] at hlo
    unfold INT_MAX at hnok
    have hc : (rd (fcfs p) i).completion_time = (rd (Ideal.fcfs p) i).completion_time := by
      rw [cM, hprev, hsame.2.1, hsame.2.2.1, ← cZ]
      exact wrap_eq _ (by unfold INT_MIN; omega) (by unfold INT_MAX; omega)
    have ht : (rd (fcfs p) i).turnaround_time = (rd (Ideal.fcfs p) i).turnaround_time := by
      rw [tM, hc, hsame.2.1, tZ]
      rw [sZ.2.1]
      exact wrap_eq _ (by unfold INT_MIN; omega) (by unfold INT_MAX; omega)
    have hw : (rd (fcfs p) i).waiting_time = (rd (Ideal.fcfs p) i).waiting_time := by
      rw [wM, ht, hsame.2.2.1, wZ, tZ]
      rw [sZ.2.1, sZ.2.2.1]
      exact wrap_eq _ (by unfold INT_MIN; omega) (by unfold INT_MAX; omega)
    exact Process.eq_of_same hsame hc ht hw

/-! ## SJF and Priority: instances of the common loop -/

theorem sjfLoop_eq (n fuel : Nat) (s : SelState) :
    sjfLoop n fuel s = selLoop Process.burst_time n fuel s := by
  induction fuel generalizing s with
  | zero => rfl
  | succ k ih =>
    simp only [sjfLoop, selLoop, sjfScan_eq]
    by_cases hc : s.completed = n
    · simp only [hc, if_true]
    · simp only [hc, if_false]
      cases selScan Process.burst_time n s.p s.current_time s.is_completed with
      | none => exact ih _
      | some idx => exact ih _

theorem priorityLoop_eq (n fuel : Nat) (s : SelState) :
    priorityLoop n fuel s = selLoop Process.priority n fuel s := by
  induction fuel generalizing s with
  | zero => rfl
  | succ k ih =>
    simp only [priorityLoop, selLoop, priorityScan_eq]
    by_cases hc : s.completed = n
    · simp only [hc, if_true]
    · simp only [hc, if_false]
      cases selScan Process.priority n s.p s.current_time s.is_completed with
      | none => exact ih _
      | some idx => exact ih _

theorem sjf_eq (fuel : Nat) (p : List Process) :
    sjf fuel p = (selLoop Process.burst_time p.length fuel (selInit p)).map SelState.p := by
  simp only [sjf, sjfLoop_eq, selInit]

theorem priority_scheduling_eq (fuel : Nat) (p : List Process) :
    priority_scheduling fuel p =
      (selLoop Process.priority p.length fuel (selInit p)).map SelState.p := by
  simp only [priority_scheduling, priorityLoop_eq, selInit]

theorem sjf_some (fuel : Nat) (p r : List Process) (h : sjf fuel p = some r) :
    ∃ s, selLoop Process.burst_time p.length fuel (selInit p) = some s ∧ s.p = r := by
  rw [sjf_eq] at h
  exact Option.map_eq_some'.mp h

theorem priority_some (fuel : Nat) (p r : List Process)
    (h : priority_scheduling fuel p = some r) :
    ∃ s, selLoop Process.priority p.length fuel (selInit p) = some s ∧ s.p = r := by
  rw [priority_scheduling_eq] at h
  exact Option.map_eq_some'.mp h

/-! ## SJF and Priority: bookkeeping, the sentinel and termination -/

theorem selBase_clock (p0 : List Process) (s : SelState) (h : SelBase p0 s) (t : Int) :
    SelBase p0 { s with current_time := t } :=
  ⟨h.len, h.flen, h.count, h.same⟩

theorem selBase_exec (p0 : List Process) (s : SelState) (idx : Nat)
    (hn : p0.length ≤ MAX_PROCESSES) (h : SelBase p0 s) (hidx : idx < p0.length)
    (hnot : flag s.is_completed idx = false) : SelBase p0 (selExec s idx) := by
  have hidxp : idx < s.p.length := by rw [h.len]; exact hidx
  have hidxf : idx < s.is_completed.length := by rw [h.flen]; omega
  refine ⟨?_, ?_, ?_, ?_⟩
  · simp [selExec, h.len]
  · simp [selExec, h.flen]
  · show s.completed + 1 = doneCount (s.is_completed.set idx true) p0.length
    rw [doneCount_set _ _ _ hidx hidxf hnot, h.count]
  · intro i hi
    by_cases hii : i = idx
    · rw [hii]
      have e : rd (selExec s idx).p idx = _ := rd_set_eq _ _ _ hidxp
      rw [e]
      exact h.same idx hidx
    · have e : rd (selExec s idx).p i = rd s.p i := rd_set_ne _ _ _ _ (fun e => hii e.symm)
      rw [e]
      exact h.same i hi

theorem selLoop_base (key : Process → Int) (p0 : List Process)
    (hn : p0.length ≤ MAX_PROCESSES) (fuel : Nat) (s r : SelState) (h : SelBase p0 s)
    (hr : selLoop key p0.length fuel s = some r) :
    SelBase p0 r ∧ ∀ i, i < p0.length → flag r.is_completed i = true := by
  induction fuel generalizing s with
  | zero => simp [selLoop] at hr
  | succ k ih =>
    simp only [selLoop] at hr
    by_cases hc : s.completed = p0.length
    · simp only [hc, if_true, Option.some.injEq] at hr
      subst hr
      refine ⟨h, ?_⟩
      have := h.count
      rw [hc] at this
      exact doneCount_full _ _ this.symm
    · simp only [hc, if_false] at hr
      cases hs : selScan key p0.length s.p s.current_time s.is_completed with
      | none =>
        rw [hs] at hr
        exact ih _ (selBase_clock p0 s h _) hr
      | some idx =>
        rw [hs] at hr
        obtain ⟨hidx, ⟨_, hnot⟩, _⟩ := (selScan_spec key _ _ _ _).2 idx hs
        exact ih _ (selBase_exec p0 s idx hn h hidx hnot) hr

/-- A process whose compared field is at least the sentinel 99999 is never selected, so
the loop never reaches `completed = n`. -/
theorem selLoop_never (key : Process → Int) (hkey : ∀ x y, SameInput x y → key x = key y)
    (p0 : List Process) (hn : p0.length ≤ MAX_PROCESSES) (k : Nat) (hk : k < p0.length)
    (hbig : 99999 ≤ key (rd p0 k)) (fuel : Nat) (s : SelState) (h : SelBase p0 s)
    (hf : flag s.is_completed k = false) : selLoop key p0.length fuel s = none := by
  induction fuel generalizing s with
  | zero => rfl
  | succ m ih =>
    simp only [selLoop]
    have hc : s.completed ≠ p0.length := by
      rw [h.count]
      exact Nat.ne_of_lt (doneCount_lt _ _ k hk hf)
    simp only [hc, if_false]
    cases hs : selScan key p0.length s.p s.current_time s.is_completed with
    | none =>
      exact ih _ (selBase_clock p0 s h _) hf
    | some idx =>
      obtain ⟨hidx, ⟨_, hnot⟩, hlt, _⟩ := (selScan_spec key _ _ _ _).2 idx hs
      have hne : k ≠ idx := by
        intro e
        rw [← e, hkey _ _ (h.same k hk)] at hlt
        omega
      refine ih _ (selBase_exec p0 s idx hn h hidx hnot) ?_
      have e : flag (selExec s idx).is_completed k = flag s.is_completed k :=
        flag_set_ne _ _ _ _ (fun e => hne e.symm)
      rw [e]
      exact hf

theorem sel_never_returns (key : Process → Int)
    (hkey : ∀ x y, SameInput x y → key x = key y) (p : List Process)
    (hn : p.length ≤ MAX_PROCESSES) (k : Nat) (hk : k < p.length)
    (hbig : 99999 ≤ key (rd p k)) (fuel : Nat) :
    selLoop key p.length fuel (selInit p) = none :=
  selLoop_never key hkey p hn k hk hbig fuel _ (selBase_init p) (flag_replicate k)

/-- Termination of the selection loop of the program, wraparound included: when every
compared field is below the sentinel and every arrival time is an `int`, an idle tick
only happens while a process has not arrived, so the clock does not wrap in a tick. -/
theorem selLoop_terminates (key : Process → Int)
    (hkey : ∀ x y, SameInput x y → key x = key y) (p0 : List Process)
    (hn : p0.length ≤ MAX_PROCESSES)
    (hlt : ∀ i, i < p0.length → key (rd p0 i) < 99999)
    (ha : ∀ i, i < p0.length → (rd p0 i).arrival_time ≤ INT_MAX)
    (fuel : Nat) (s : SelState) (h : SelBase p0 s)
    (hct : INT_MIN ≤ s.current_time ∧ s.current_time ≤ INT_MAX)
    (hf : selClockMeasure p0.length s < fuel) :
    ∃ r, selLoop key p0.length fuel s = some r := by
  induction fuel generalizing s with
  | zero =>
    have := doneCount_le s.is_completed p0.length
    rw [← h.count] at this
    unfold selClockMeasure at hf
    have h2 := hct.2
    simp only [Nat.cast_zero] at hf
    omega
  | succ m ih =>
    simp only [selLoop]
    by_cases hc : s.completed = p0.length
    · exact ⟨s, by simp only [hc, if_true]⟩
    · simp only [hc, if_false]
      have hle := doneCount_le s.is_completed p0.length
      rw [← h.count] at hle
      cases hs : selScan key p0.length s.p s.current_time s.is_completed with
      | none =>
        simp only
        have hc' := hc
        rw [h.count] at hc'
        obtain ⟨i, hi, hfi⟩ := doneCount_not_full _ _ hc'
        have hnone := (selScan_spec key _ _ _ _).1 hs i hi
        have hsi := h.same i hi
        have hki := hlt i hi
        rw [← hkey _ _ hsi] at hki
        have harr : ¬ (rd s.p i).arrival_time ≤ s.current_time := by
          intro ha
          have := hnone ⟨ha, hfi⟩
          omega
        rw [hsi.2.1] at harr
        have hai := ha i hi
        have hw : wrap (s.current_time + 1) = s.current_time + 1 :=
          wrap_eq _ (by have := hct.1; omega) (by omega)
        rw [hw]
        refine ih _ (selBase_clock p0 s h _) ⟨by have := hct.1; show INT_MIN ≤ s.current_time + 1; omega,
          by show s.current_time + 1 ≤ INT_MAX; omega⟩ ?_
        unfold selClockMeasure at hf ⊢
        show ((p0.length : Int) - s.completed) * 4294967296
          + (INT_MAX - (s.current_time + 1)) < m
        push_cast at hf
        omega
      | some idx =>
        simp only
        obtain ⟨hidx, ⟨_, hnot⟩, _⟩ := (selScan_spec key _ _ _ _).2 idx hs
        have hr := wrap_range (s.current_time + (rd s.p idx).burst_time)
        refine ih _ (selBase_exec p0 s idx hn h hidx hnot) hr ?_
        unfold selClockMeasure at hf ⊢
        show ((p0.length : Int) - ((s.completed + 1 : Nat) : Int)) * 4294967296
          + (INT_MAX - wrap (s.current_time + (rd s.p idx).burst_time)) < m
        have h1 := hct.1
        have h2 := hct.2
        unfold INT_MIN INT_MAX at *
        push_cast at hf ⊢
        omega

theorem sel_terminates (key : Process → Int)
    (hkey : ∀ x y, SameInput x y → key x = key y) (p : List Process)
    (hn : p.length ≤ MAX_PROCESSES)
    (hlt : ∀ i, i < p.length → key (rd p i) < 99999)
    (ha : ∀ i, i < p.length → (rd p i).arrival_time ≤ INT_MAX) :
    ∃ fuel r, selLoop key p.length fuel (selInit p) = some r := by
  obtain ⟨r, hr⟩ := selLoop_terminates key hkey p hn hlt ha
    ((selClockMeasure p.length (selInit p)).toNat + 1) _ (selBase_init p)
    ⟨by show INT_MIN ≤ 0; decide, by show (0 : Int) ≤ INT_MAX; decide⟩
    (by push_cast; omega)
  exact ⟨_, r, hr⟩

/-! ## SJF and Priority: the result does not depend on stale timing fields -/

theorem selExec_rel (n : Nat) (s t : SelState) (idx : Nat)
    (hidx : idx < n) (h : SelRel n s t) : SelRel n (selExec s idx) (selExec t idx) := by
  obtain ⟨hct, hcomp, hfl, hls, hlt, hfln, hrec⟩ := h
  obtain ⟨sp, sa, sb, sr, spr⟩ := (hrec idx hidx).1
  refine ⟨?_, ?_, ?_, ?_, ?_, ?_, ?_⟩
  · show wrap (s.current_time + (rd s.p idx).burst_time) =
      wrap (t.current_time + (rd t.p idx).burst_time)
    rw [hct, sb]
  · show s.completed + 1 = t.completed + 1
    rw [hcomp]
  · show s.is_completed.set idx true = t.is_completed.set idx true
    rw [hfl]
  · simp [selExec, hls]
  · simp [selExec, hlt]
  · simp [selExec, hfln]
  · intro i hi
    by_cases hii : i = idx
    · have e : rd (selExec s idx).p i = rd (selExec t idx).p i := by
        rw [hii]
        show rd (s.p.set idx _) idx = rd (t.p.set idx _) idx
        rw [rd_set_eq _ _ _ (by omega), rd_set_eq _ _ _ (by omega)]
        refine Process.eq_of_same ?_ ?_ ?_ ?_
        · exact ⟨sp, sa, sb, sr, spr⟩
        · show wrap (s.current_time + (rd s.p idx).burst_time) =
            wrap (t.current_time + (rd t.p idx).burst_time)
          rw [hct, sb]
        · show wrap (wrap (s.current_time + (rd s.p idx).burst_time)
              - (rd s.p idx).arrival_time) =
            wrap (wrap (t.current_time + (rd t.p idx).burst_time) - (rd t.p idx).arrival_time)
          rw [hct, sb, sa]
        · show wrap (wrap (wrap (s.current_time + (rd s.p idx).burst_time)
              - (rd s.p idx).arrival_time) - (rd s.p idx).burst_time) =
            wrap (wrap (wrap (t.current_time + (rd t.p idx).burst_time)
              - (rd t.p idx).arrival_time) - (rd t.p idx).burst_time)
          rw [hct, sb, sa]
      exact ⟨by rw [e]; exact SameInput.refl _, fun _ => e⟩
    · have e1 : rd (selExec s idx).p i = rd s.p i := rd_set_ne _ _ _ _ (fun e => hii e.symm)
      have e2 : rd (selExec t idx).p i = rd t.p i := rd_set_ne _ _ _ _ (fun e => hii e.symm)
      have e3 : flag (selExec s idx).is_completed i = flag s.is_completed i :=
        flag_set_ne _ _ _ _ (fun e => hii e.symm)
      rw [e1, e2, e3]
      exact hrec i hi

theorem selLoop_rel (key : Process → Int) (hkey : ∀ x y, SameInput x y → key x = key y)
    (n : Nat) (fuel : Nat) (s t r : SelState) (h : SelRel n s t)
    (hr : selLoop key n fuel s = some r) :
    ∃ u, selLoop key n fuel t = some u ∧ SelRel n r u := by
  induction fuel generalizing s t with
  | zero => simp [selLoop] at hr
  | succ k ih =>
    have hscan : selScan key n t.p t.current_time t.is_completed =
        selScan key n s.p s.current_time s.is_completed := by
      rw [← h.1, ← h.2.2.1]
      exact (selScan_congr key hkey n s.p t.p _ _ (fun i hi => (h.2.2.2.2.2.2 i hi).1)).symm
    simp only [selLoop] at hr ⊢
    rw [← h.2.1, hscan]
    by_cases hc : s.completed = n
    · simp only [hc, if_true, Option.some.injEq] at hr ⊢
      subst hr
      exact ⟨t, rfl, h⟩
    · simp only [hc, if_false] at hr ⊢
      cases hs : selScan key n s.p s.current_time s.is_completed with
      | none =>
        rw [hs] at hr
        simp only
        refine ih _ _ ?_ hr
        obtain ⟨hct, h2, h3, h4, h5, h6, h7⟩ := h
        exact ⟨by show wrap (s.current_time + 1) = wrap (t.current_time + 1); rw [hct],
          rfl, h3, h4, h5, h6, h7⟩
      | some idx =>
        rw [hs] at hr
        simp only
        have hidx := ((selScan_spec key n s.p s.current_time s.is_completed).2 idx hs).1
        exact ih _ _ (selExec_rel n s t idx hidx h) hr

theorem sel_independent_gen (key : Process → Int)
    (hkey : ∀ x y, SameInput x y → key x = key y) (p q : List Process)
    (hn : p.length ≤ MAX_PROCESSES) (h : SameInputs p q) (fuel : Nat) (r : SelState)
    (hr : selLoop key p.length fuel (selInit p) = some r) :
    (selLoop key q.length fuel (selInit q)).map SelState.p = some r.p := by
  obtain ⟨u, hu, hrel⟩ := selLoop_rel key hkey p.length fuel _ _ r (selInit_rel p q h) hr
  rw [← h.1, hu]
  simp only [Option.map_some', Option.some.injEq]
  obtain ⟨_, hall⟩ := selLoop_base key p hn fuel _ r (selBase_init p) hr
  obtain ⟨_, _, _, hlr, hlu, _, hrec⟩ := hrel
  symm
  apply list_ext_rd _ _ (by rw [hlr, hlu])
  intro i hi
  rw [hlr] at hi
  exact (hrec i hi).2 (hall i hi)

theorem selLoop_priority_eq_burst (n : Nat) (fuel : Nat) (s : SelState)
    (hl : s.p.length = n)
    (h : ∀ i, i < n → (rd s.p i).priority = (rd s.p i).burst_time) :
    selLoop Process.priority n fuel s = selLoop Process.burst_time n fuel s := by
  induction fuel generalizing s with
  | zero => rfl
  | succ m ih =>
    have hscan : selScan Process.priority n s.p s.current_time s.is_completed =
        selScan Process.burst_time n s.p s.current_time s.is_completed := by
      unfold selScan
      rw [foldl_range_congr _ (selScanStep Process.burst_time s.p s.current_time
        s.is_completed) n _ (fun acc k hk => by
          unfold selScanStep
          rw [h k hk])]
    simp only [selLoop, hscan]
    by_cases hc : s.completed = n
    · simp only [hc, if_true]
    · simp only [hc, if_false]
      cases hs : selScan Process.burst_time n s.p s.current_time s.is_completed with
      | none => exact ih _ hl h
      | some idx =>
        have hidx := ((selScan_spec _ n s.p s.current_time s.is_completed).2 idx hs).1
        refine ih _ (by simp [selExec, hl]) (fun i hi => ?_)
        by_cases hii : i = idx
        · rw [hii]
          have e : rd (selExec s idx).p idx = _ := rd_set_eq _ _ _ (by rw [hl]; exact hidx)
          rw [e]
          exact h idx hidx
        · have e : rd (selExec s idx).p i = rd s.p i :=
            rd_set_ne _ _ _ _ (fun e => hii e.symm)
          rw [e]
          exact h i hi

theorem sjf_independent_gen (p q : List Process) (hn : p.length ≤ MAX_PROCESSES)
    (h : SameInputs p q) (fuel : Nat) : sjf fuel p = sjf fuel q := by
  apply option_eq_of_imp
  · intro r hr
    obtain ⟨s, hs, rfl⟩ := sjf_some fuel p r hr
    rw [sjf_eq]
    exact sel_independent_gen _ hkey_burst p q hn h fuel s hs
  · intro r hr
    obtain ⟨s, hs, rfl⟩ := sjf_some fuel q r hr
    rw [sjf_eq]
    exact sel_independent_gen _ hkey_burst q p (by rw [← h.1]; exact hn) (sameInputs_swap h)
      fuel s hs

theorem priority_independent_gen (p q : List Process) (hn : p.length ≤ MAX_PROCESSES)
    (h : SameInputs p q) (fuel : Nat) :
    priority_scheduling fuel p = priority_scheduling fuel q := by
  apply option_eq_of_imp
  · intro r hr
    obtain ⟨s, hs, rfl⟩ := priority_some fuel p r hr
    rw [priority_scheduling_eq]
    exact sel_independent_gen _ hkey_priority p q hn h fuel s hs
  · intro r hr
    obtain ⟨s, hs, rfl⟩ := priority_some fuel q r hr
    rw [priority_scheduling_eq]
    exact sel_independent_gen _ hkey_priority q p (by rw [← h.1]; exact hn) (sameInputs_swap h)
      fuel s hs

/-! ## SJF and Priority: agreement with the loop over the mathematical integers -/

theorem selExec_eq_ideal (s : SelState) (idx : Nat)
    (ha : 0 ≤ (rd s.p idx).arrival_time) (harr : (rd s.p idx).arrival_time ≤ s.current_time)
    (hb : 0 ≤ (rd s.p idx).burst_time)
    (hle : s.current_time + (rd s.p idx).burst_time ≤ INT_MAX) :
    selExec s idx = Ideal.selExec s idx := by
  have e1 : wrap (s.current_time + (rd s.p idx).burst_time) =
      s.current_time + (rd s.p idx).burst_time :=
    wrap_eq _ (by unfold INT_MIN; omega) hle
  have e2 : wrap (s.current_time + (rd s.p idx).burst_time - (rd s.p idx).arrival_time) =
      s.current_time + (rd s.p idx).burst_time - (rd s.p idx).arrival_time :=
    wrap_eq _ (by unfold INT_MIN; omega) (by omega)
  have e3 : wrap (s.current_time + (rd s.p idx).burst_time - (rd s.p idx).arrival_time
        - (rd s.p idx).burst_time) =
      s.current_time + (rd s.p idx).burst_time - (rd s.p idx).arrival_time
        - (rd s.p idx).burst_time :=
    wrap_eq _ (by unfold INT_MIN; omega) (by omega)
  simp only [selExec, Ideal.selExec, e1, e2, e3]

/-- The lockstep of the program with the loop over `ℤ`: while the clock stays at or below
a bound `mx` on the arrival times plus the bursts of the completed processes, and that
sum fits in an `int`, no computation wraps and the two loops take the same steps. -/
theorem selLoop_eq_ideal (key : Process → Int)
    (hkey : ∀ x y, SameInput x y → key x = key y) (p0 : List Process)
    (hn : p0.length ≤ MAX_PROCESSES) (mx : Int)
    (ha : ∀ i, i < p0.length → 0 ≤ (rd p0 i).arrival_time ∧ (rd p0 i).arrival_time ≤ mx)
    (hb : ∀ i, i < p0.length → 0 ≤ (rd p0 i).burst_time)
    (hno : mx + totalBurst p0 ≤ INT_MAX)
    (fuel : Nat) (s : SelState) (h : SelBase p0 s) (h0 : 0 ≤ s.current_time)
    (ht : s.current_time ≤ mx + doneBurst s.is_completed p0) :
    selLoop key p0.length fuel s = Ideal.selLoop key p0.length fuel s := by
  induction fuel generalizing s with
  | zero => rfl
  | succ m ih =>
    simp only [selLoop, Ideal.selLoop]
    by_cases hc : s.completed = p0.length
    · simp only [hc, if_true]
    · simp only [hc, if_false]
      have hdb := doneBurst_le_total s.is_completed p0 hb
      cases hs : selScan key p0.length s.p s.current_time s.is_completed with
      | none =>
        simp only
        by_cases hlt : s.current_time < mx
        · have hw : wrap (s.current_time + 1) = s.current_time + 1 :=
            wrap_eq _ (by unfold INT_MIN; omega) (by omega)
          rw [hw]
          refine ih _ (selBase_clock p0 s h _) ?_ ?_
          · show 0 ≤ s.current_time + 1
            omega
          · show s.current_time + 1 ≤ mx + doneBurst s.is_completed p0
            omega
        · have hc' := hc
          rw [h.count] at hc'
          obtain ⟨j, hj, hfj⟩ := doneCount_not_full _ _ hc'
          have hsj := h.same j hj
          have haj := (ha j hj).2
          have hbig := (selScan_spec key _ _ _ _).1 hs j hj
            ⟨by rw [hsj.2.1]; omega, hfj⟩
          rw [hkey _ _ hsj] at hbig
          have e1 := selLoop_never key hkey p0 hn j hj hbig m
            { s with current_time := wrap (s.current_time + 1) } (selBase_clock p0 s h _) hfj
          have e2 := Ideal.selLoop_never_ideal key hkey p0 hn j hj hbig m
            { s with current_time := s.current_time + 1 } (Ideal.selBase_tick p0 s h) hfj
          exact e1.trans e2.symm
      | some idx =>
        simp only
        obtain ⟨hidx, ⟨harr, hnot⟩, _⟩ := (selScan_spec key _ _ _ _).2 idx hs
        have hsi := h.same idx hidx
        have hset := doneBurst_set s.is_completed p0 idx hidx (by rw [h.flen]; omega) hnot
        have hdb' := doneBurst_le_total (s.is_completed.set idx true) p0 hb
        have hai := (ha idx hidx).1
        have hbi := hb idx hidx
        rw [← hsi.2.1] at hai
        rw [← hsi.2.2.1] at hbi hset
        rw [selExec_eq_ideal s idx hai harr hbi (by omega)]
        refine ih _ (Ideal.selBase_exec_ideal p0 s idx hn h hidx hnot) ?_ ?_
        · show 0 ≤ s.current_time + (rd s.p idx).burst_time
          omega
        · show s.current_time + (rd s.p idx).burst_time ≤
            mx + doneBurst (s.is_completed.set idx true) p0
          omega

/-- From the initial state: when the largest arrival time plus the sum of the bursts
fits in an `int`, the selection loop of the program is the loop over `ℤ`. -/
theorem sel_eq_ideal (key : Process → Int)
    (hkey : ∀ x y, SameInput x y → key x = key y) (p : List Process)
    (hn : p.length ≤ MAX_PROCESSES)
    (ha : ∀ i, i < p.length → 0 ≤ (rd p i).arrival_time)
    (hb : ∀ i, i < p.length → 0 ≤ (rd p i).burst_time) (hno : NoOverflow p) (fuel : Nat) :
    selLoop key p.length fuel (selInit p) = Ideal.selLoop key p.length fuel (selInit p) := by
  rcases Nat.eq_zero_or_pos p.length with h0 | hpos
  · cases fuel with
    | zero => rfl
    | succ m =>
      simp only [selLoop, Ideal.selLoop]
      have : (selInit p).completed = p.length := by rw [h0]; rfl
      simp only [this, if_true]
  · obtain ⟨k, hk, hmx⟩ := exists_max_arrival p hpos
    refine selLoop_eq_ideal key hkey p hn (rd p k).arrival_time
      (fun i hi => ⟨ha i hi, hmx i hi⟩) hb (hno k hk) fuel _ (selBase_init p) le_rfl ?_
    show (0 : Int) ≤ (rd p k).arrival_time + doneBurst (List.replicate MAX_PROCESSES false) p
    rw [doneBurst_replicate]
    have := ha k hk
    omega

/-! ## Round Robin: bookkeeping and independence from stale timing fields -/

theorem rr_some (q : Int) (fuel : Nat) (p r : List Process)
    (h : round_robin_q q fuel p = some r) :
    ∃ s, rrLoop q p.length fuel (rrInit p) = some s ∧ s.p = r :=
  Option.map_eq_some'.mp h

theorem rrStep_cases (q : Int) (s : RRState) (i : Nat) :
    (¬ ((rd s.p i).arrival_time ≤ s.current_time ∧ (rd s.p i).remaining_time > 0) ∧
      rrStep q s i = s) ∨
    (((rd s.p i).arrival_time ≤ s.current_time ∧ (rd s.p i).remaining_time > 0) ∧
      (rd s.p i).remaining_time > q ∧
      rrStep q s i =
        { p := s.p.set i { rd s.p i with remaining_time := (rd s.p i).remaining_time - q }
          current_time := wrap (s.current_time + q)
          completed := s.completed
          did_something := true }) ∨
    (((rd s.p i).arrival_time ≤ s.current_time ∧ (rd s.p i).remaining_time > 0) ∧
      ¬ (rd s.p i).remaining_time > q ∧
      rrStep q s i =
        { p := s.p.set i { rd s.p i with
            remaining_time := 0
            completion_time := wrap (s.current_time + (rd s.p i).remaining_time)
            turnaround_time :=
              wrap (wrap (s.current_time + (rd s.p i).remaining_time)
                - (rd s.p i).arrival_time)
            waiting_time :=
              wrap (wrap (wrap (s.current_time + (rd s.p i).remaining_time)
                - (rd s.p i).arrival_time) - (rd s.p i).burst_time) }
          current_time := wrap (s.current_time + (rd s.p i).remaining_time)
          completed := s.completed + 1
          did_something := true }) := by
  unfold rrStep
  by_cases he : (rd s.p i).arrival_time ≤ s.current_time ∧ (rd s.p i).remaining_time > 0
  · by_cases hq : (rd s.p i).remaining_time > q
    · right; left
      exact ⟨he, hq, by rw [if_pos he, if_pos hq]⟩
    · right; right
      exact ⟨he, hq, by rw [if_pos he, if_neg hq]⟩
  · left
    exact ⟨he, by rw [if_neg he]⟩

theorem rrCount_step (q : Int) (n z : Nat) (s : RRState) (i : Nat) (hi : i < n)
    (h : RRCount n z s) : RRCount n z (rrStep q s i) := by
  have hip : i < s.p.length := by rw [h.len]; exact hi
  rcases rrStep_cases q s i with ⟨_, e⟩ | ⟨⟨ha, hp⟩, hgt, e⟩ | ⟨⟨ha, hp⟩, hle, e⟩
  · rw [e]; exact h
  · rw [e]
    refine ⟨by simp [h.len], ?_⟩
    show s.completed + z = finishedCount (s.p.set i _) n
    rw [finishedCount_set_slice _ _ _ _ hip (by omega)
      (by show (rd s.p i).remaining_time - q ≠ 0; omega)]
    exact h.count
  · rw [e]
    refine ⟨by simp [h.len], ?_⟩
    show s.completed + 1 + z = finishedCount (s.p.set i _) n
    rw [finishedCount_set_finish _ _ _ _ hi hip (by omega) rfl, ← h.count]
    omega

theorem rrCount_pass (q : Int) (n z : Nat) (s : RRState) (h : RRCount n z s) :
    RRCount n z (rrPass q n s) := by
  have key := foldl_range_inv (rrStep q) (fun _ t => RRCount n z t) n
    { s with did_something := false } ⟨h.len, h.count⟩
    (fun k t hk ht => rrCount_step q n z t k hk ht)
  unfold rrPass
  simp only
  split
  · exact ⟨key.len, key.count⟩
  · exact key

theorem rrLoop_count (q : Int) (n z : Nat) (fuel : Nat) (s r : RRState)
    (h : RRCount n z s) (hr : rrLoop q n fuel s = some r) :
    z = 0 ∧ r.p.length = n ∧ ∀ i, i < n → (rd r.p i).remaining_time = 0 := by
  induction fuel generalizing s with
  | zero => simp [rrLoop] at hr
  | succ k ih =>
    simp only [rrLoop] at hr
    by_cases hc : s.completed = n
    · simp only [hc, if_true, Option.some.injEq] at hr
      subst hr
      have h1 := h.count
      have h2 := finishedCount_le s.p n
      have hz : z = 0 := by omega
      refine ⟨hz, h.len, finishedCount_full _ _ (by omega)⟩
    · simp only [hc, if_false] at hr
      exact ih _ (rrCount_pass q n z s h) hr

/-- A record whose `remaining_time` is 0 on entry is never counted in `completed`, so
`round_robin` never returns, whatever the quantum. -/
theorem rr_never_returns (q : Int) (p : List Process) (k : Nat) (hk : k < p.length)
    (hz : (rd p k).remaining_time = 0) (fuel : Nat) : round_robin_q q fuel p = none := by
  cases hr : round_robin_q q fuel p with
  | none => rfl
  | some r =>
    obtain ⟨s, hs, _⟩ := rr_some q fuel p r hr
    have := (rrLoop_count q p.length _ fuel _ s (rrInit_count p) hs).1
    have := finishedCount_pos p p.length k hk hz
    omega

theorem rrStep_rel (q : Int) (n : Nat) (s t : RRState) (i : Nat) (hi : i < n)
    (h : RRRel n s t) : RRRel n (rrStep q s i) (rrStep q t i) := by
  obtain ⟨hct, hcomp, hdid, hls, hlt, hrec⟩ := h
  obtain ⟨sp, sa, sb, sr, spr⟩ := (hrec i hi).1
  have his : i < s.p.length := by omega
  have hit : i < t.p.length := by omega
  unfold rrStep
  rw [← sa, ← sr, ← hct]
  by_cases he : (rd s.p i).arrival_time ≤ s.current_time ∧ (rd s.p i).remaining_time > 0
  · rw [if_pos he, if_pos he]
    by_cases hq : (rd s.p i).remaining_time > q
    · rw [if_pos hq, if_pos hq]
      refine ⟨rfl, hcomp, rfl, by simp [hls], by simp [hlt], fun j hj => ?_⟩
      show SameInput (rd (s.p.set i _) j) (rd (t.p.set i _) j) ∧
        ((rd (s.p.set i _) j).remaining_time = 0 → rd (s.p.set i _) j = rd (t.p.set i _) j)
      by_cases hji : j = i
      · rw [hji, rd_set_eq _ _ _ his, rd_set_eq _ _ _ hit]
        refine ⟨⟨sp, sa, sb, rfl, spr⟩, fun hz => ?_⟩
        have : (rd s.p i).remaining_time - q = 0 := hz
        omega
      · rw [rd_set_ne _ _ _ _ (fun e => hji e.symm), rd_set_ne _ _ _ _ (fun e => hji e.symm)]
        exact hrec j hj
    · rw [if_neg hq, if_neg hq]
      refine ⟨rfl, by show s.completed + 1 = t.completed + 1; rw [hcomp], rfl,
        by simp [hls], by simp [hlt], fun j hj => ?_⟩
      show SameInput (rd (s.p.set i _) j) (rd (t.p.set i _) j) ∧
        ((rd (s.p.set i _) j).remaining_time = 0 → rd (s.p.set i _) j = rd (t.p.set i _) j)
      by_cases hji : j = i
      · rw [hji, rd_set_eq _ _ _ his, rd_set_eq _ _ _ hit]
        have key : ∀ A B : Process, SameInput A B →
            A.completion_time = B.completion_time → A.turnaround_time = B.turnaround_time →
            A.waiting_time = B.waiting_time →
            SameInput A B ∧ (A.remaining_time = 0 → A = B) :=
          fun A B h1 h2 h3 h4 => ⟨h1, fun _ => Process.eq_of_same h1 h2 h3 h4⟩
        refine key _ _ ⟨sp, sa, sb, rfl, spr⟩ ?_ ?_ ?_
        · simp only
        · simp only [sa]
        · simp only [sa, sb]
      · rw [rd_set_ne _ _ _ _ (fun e => hji e.symm), rd_set_ne _ _ _ _ (fun e => hji e.symm)]
        exact hrec j hj
  · rw [if_neg he, if_neg he]
    exact ⟨hct, hcomp, hdid, hls, hlt, hrec⟩

theorem rrPass_rel (q : Int) (n : Nat) (s t : RRState) (h : RRRel n s t) :
    RRRel n (rrPass q n s) (rrPass q n t) := by
  have h0 : RRRel n { s with did_something := false } { t with did_something := false } := by
    obtain ⟨h1, h2, _, h4, h5, h6⟩ := h
    exact ⟨h1, h2, rfl, h4, h5, h6⟩
  have key := foldl_range_rel (rrStep q) (rrStep q) (RRRel n) n _ _ h0
    (fun k a b hk hab => rrStep_rel q n a b k hk hab)
  unfold rrPass
  simp only
  cases hd : ((List.range n).foldl (rrStep q) { s with did_something := false }).did_something with
  | false =>
    have hd' := key.2.2.1
    rw [hd] at hd'
    rw [← hd']
    simp only [if_true]
    obtain ⟨h1, h2, h3, h4, h5, h6⟩ := key
    exact ⟨by show wrap (_ + 1) = wrap (_ + 1); rw [h1], h2, rfl, h4, h5, h6⟩
  | true =>
    have hd' := key.2.2.1
    rw [hd] at hd'
    rw [← hd']
    simp only [Bool.true_eq_false, if_false]
    exact key

theorem rrLoop_rel (q : Int) (n : Nat) (fuel : Nat) (s t r : RRState) (h : RRRel n s t)
    (hr : rrLoop q n fuel s = some r) :
    ∃ u, rrLoop q n fuel t = some u ∧ RRRel n r u := by
  induction fuel generalizing s t with
  | zero => simp [rrLoop] at hr
  | succ k ih =>
    simp only [rrLoop] at hr ⊢
    have hc' : t.completed = s.completed := h.2.1.symm
    by_cases hc : s.completed = n
    · simp only [hc', hc, if_true, Option.some.injEq] at hr ⊢
      subst hr
      exact ⟨t, rfl, h⟩
    · simp only [hc', hc, if_false] at hr ⊢
      exact ih _ _ (rrPass_rel q n s t h) hr

theorem rr_independent_gen (q : Int) (p m : List Process) (h : SameInputs p m) (fuel : Nat)
    (r : RRState) (hr : rrLoop q p.length fuel (rrInit p) = some r) :
    round_robin_q q fuel m = some r.p := by
  obtain ⟨hz, _, hall⟩ := rrLoop_count q p.length _ fuel _ r (rrInit_count p) hr
  have h0 : RRRel p.length (rrInit p) (rrInit m) :=
    ⟨rfl, rfl, rfl, rfl, h.1.symm, fun i hi =>
      ⟨h.2 i hi, fun e => absurd e (finishedCount_zero p p.length hz i hi)⟩⟩
  obtain ⟨u, hu, hrel⟩ := rrLoop_rel q p.length fuel _ _ r h0 hr
  unfold round_robin_q
  rw [← h.1]
  have hu' : rrLoop q p.length fuel
      { p := m, current_time := 0, completed := 0, did_something := false } = some u := hu
  rw [hu']
  simp only [Option.map_some', Option.some.injEq]
  obtain ⟨_, _, _, hlr, hlu, hrec⟩ := hrel
  symm
  apply list_ext_rd _ _ (by rw [hlr, hlu])
  intro i hi
  rw [hlr] at hi
  exact (hrec i hi).2 (hall i hi)

theorem round_robin_independent_gen (q : Int) (p m : List Process) (h : SameInputs p m)
    (fuel : Nat) : round_robin_q q fuel p = round_robin_q q fuel m := by
  apply option_eq_of_imp
  · intro r hr
    obtain ⟨s, hs, rfl⟩ := rr_some q fuel p r hr
    exact rr_independent_gen q p m h fuel s hs
  · intro r hr
    obtain ⟨s, hs, rfl⟩ := rr_some q fuel m r hr
    exact rr_independent_gen q m p (sameInputs_swap h) fuel s hs

/-! ## Round Robin: the loop invariant and termination -/

theorem rrBase_step (p0 : List Process) (q : Int) (s : RRState) (i : Nat) (hq : 0 < q)
    (hi : i < p0.length) (h : RRBase p0 s) : RRBase p0 (rrStep q s i) := by
  have hip : i < s.p.length := by rw [h.len]; exact hi
  obtain ⟨sp, sa, sb, spr⟩ := h.same i hi
  obtain ⟨r0, r1⟩ := h.rem i hi
  rcases rrStep_cases q s i with ⟨_, e⟩ | ⟨⟨ha, hp⟩, hgt, e⟩ | ⟨⟨ha, hp⟩, hle, e⟩
  · rw [e]; exact h
  · rw [e]
    refine ⟨by simp [h.len], fun j hj => ?_, fun j hj => ?_, ?_, wrap_range _, fun j hj => ?_⟩
    · show (rd (s.p.set i _) j).pid = _ ∧ _
      by_cases hji : j = i
      · subst hji
        rw [rd_set_eq _ _ _ hip]
        exact ⟨sp, sa, sb, spr⟩
      · rw [rd_set_ne _ _ _ _ (fun e => hji e.symm)]
        exact h.same j hj
    · show 0 ≤ (rd (s.p.set i _) j).remaining_time ∧ _
      by_cases hji : j = i
      · subst hji
        rw [rd_set_eq _ _ _ hip]
        show 0 ≤ (rd s.p j).remaining_time - q ∧ (rd s.p j).remaining_time - q ≤ _
        omega
      · rw [rd_set_ne _ _ _ _ (fun e => hji e.symm)]
        exact h.rem j hj
    · show s.completed = finishedCount (s.p.set i _) p0.length
      rw [finishedCount_set_slice _ _ _ _ hip (by omega)
        (by show (rd s.p i).remaining_time - q ≠ 0; omega)]
      exact h.count
    · show (rd (s.p.set i _) j).remaining_time = 0 → _
      by_cases hji : j = i
      · subst hji
        rw [rd_set_eq _ _ _ hip]
        intro hz
        have : (rd s.p j).remaining_time - q = 0 := hz
        omega
      · rw [rd_set_ne _ _ _ _ (fun e => hji e.symm)]
        exact h.done j hj
  · rw [e]
    refine ⟨by simp [h.len], fun j hj => ?_, fun j hj => ?_, ?_, wrap_range _, fun j hj => ?_⟩
    · show (rd (s.p.set i _) j).pid = _ ∧ _
      by_cases hji : j = i
      · subst hji
        rw [rd_set_eq _ _ _ hip]
        exact ⟨sp, sa, sb, spr⟩
      · rw [rd_set_ne _ _ _ _ (fun e => hji e.symm)]
        exact h.same j hj
    · show 0 ≤ (rd (s.p.set i _) j).remaining_time ∧ _
      by_cases hji : j = i
      · subst hji
        rw [rd_set_eq _ _ _ hip]
        show (0 : Int) ≤ 0 ∧ (0 : Int) ≤ _
        omega
      · rw [rd_set_ne _ _ _ _ (fun e => hji e.symm)]
        exact h.rem j hj
    · show s.completed + 1 = finishedCount (s.p.set i _) p0.length
      rw [finishedCount_set_finish _ _ _ _ hi hip (by omega) rfl, h.count]
    · show (rd (s.p.set i _) j).remaining_time = 0 → _
      by_cases hji : j = i
      · subst hji
        rw [rd_set_eq _ _ _ hip]
        intro _
        refine ⟨wrap_range _, ?_, ?_⟩
        · show wrap (_ - (rd s.p j).arrival_time) = _
          rw [sa]
        · show wrap (_ - (rd s.p j).burst_time) = _
          rw [sb]
      · rw [rd_set_ne _ _ _ _ (fun e => hji e.symm)]
        exact h.done j hj

theorem rrStep_effect (q : Int) (s : RRState) (i : Nat) (hq : 0 < q) (hi : i < s.p.length) :
    (¬ ((rd s.p i).arrival_time ≤ s.current_time ∧ (rd s.p i).remaining_time > 0) ∧
      rrStep q s i = s) ∨
    ((rrStep q s i).did_something = true ∧
      totalRemaining (rrStep q s i).p < totalRemaining s.p) := by
  rcases rrStep_cases q s i with ⟨hne, e⟩ | ⟨⟨ha, hp⟩, hgt, e⟩ | ⟨⟨ha, hp⟩, hle, e⟩
  · exact Or.inl ⟨hne, e⟩
  · right
    rw [e]
    have := sum_map_set Process.remaining_time s.p i
      { rd s.p i with remaining_time := (rd s.p i).remaining_time - q } hi
    simp only [totalRemaining]
    rw [this]
    simp only
    refine ⟨trivial, by omega⟩
  · right
    rw [e]
    simp only [totalRemaining]
    rw [sum_map_set Process.remaining_time s.p i _ hi]
    simp only
    refine ⟨trivial, by omega⟩

theorem rrBase_scan (p0 : List Process) (q : Int) (s : RRState) (hq : 0 < q)
    (h : RRBase p0 s) :
    RRBase p0 ((List.range p0.length).foldl (rrStep q) { s with did_something := false }) ∧
    (((List.range p0.length).foldl (rrStep q) { s with did_something := false }).did_something
        = false →
      (List.range p0.length).foldl (rrStep q) { s with did_something := false }
        = { s with did_something := false } ∧
      ∀ i, i < p0.length →
        ¬ ((rd s.p i).arrival_time ≤ s.current_time ∧ (rd s.p i).remaining_time > 0)) ∧
    (((List.range p0.length).foldl (rrStep q) { s with did_something := false }).did_something
        = true →
      totalRemaining ((List.range p0.length).foldl (rrStep q)
        { s with did_something := false }).p < totalRemaining s.p) := by
  have key := foldl_range_inv (rrStep q)
    (fun k t => RRBase p0 t ∧
      (t.did_something = false → t = { s with did_something := false } ∧
        ∀ i, i < k →
          ¬ ((rd s.p i).arrival_time ≤ s.current_time ∧ (rd s.p i).remaining_time > 0)) ∧
      (t.did_something = true → totalRemaining t.p < totalRemaining s.p))
    p0.length { s with did_something := false }
    ⟨⟨h.len, h.same, h.rem, h.count, h.clock, h.done⟩,
      fun _ => ⟨rfl, fun i hi => absurd hi (Nat.not_lt_zero i)⟩,
      fun hd => by simp at hd⟩
    (by
      rintro k t hk ⟨hinv, hfalse, htrue⟩
      have hkt : k < t.p.length := by rw [hinv.len]; exact hk
      refine ⟨rrBase_step p0 q t k hq hk hinv, ?_⟩
      rcases rrStep_effect q t k hq hkt with ⟨hne, e⟩ | ⟨hd, hlt⟩
      · rw [e]
        refine ⟨fun hd => ?_, htrue⟩
        obtain ⟨ht, hall⟩ := hfalse hd
        refine ⟨ht, fun i hi => ?_⟩
        by_cases hik : i = k
        · subst hik
          rw [ht] at hne
          exact hne
        · exact hall i (by omega)
      · refine ⟨fun hf => by rw [hd] at hf; exact absurd hf (by simp), fun _ => ?_⟩
        cases hdt : t.did_something with
        | false =>
          have := (hfalse hdt).1
          rw [this] at hlt ⊢
          exact hlt
        | true =>
          have := htrue hdt
          omega)
  exact key

theorem rrBase_totalRemaining_nonneg (p0 : List Process) (s : RRState) (h : RRBase p0 s) :
    0 ≤ totalRemaining s.p :=
  sum_map_nonneg _ _ (fun i hi => (h.rem i (by rw [← h.len]; exact hi)).1)

theorem rrBase_pass (p0 : List Process) (q : Int) (s : RRState) (hq : 0 < q)
    (ha : ∀ i, i < p0.length → (rd p0 i).arrival_time ≤ INT_MAX)
    (h : RRBase p0 s) :
    RRBase p0 (rrPass q p0.length s) ∧
    (s.completed ≠ p0.length → rrClockMeasure (rrPass q p0.length s) < rrClockMeasure s) := by
  obtain ⟨hinv, hfalse, htrue⟩ := rrBase_scan p0 q s hq h
  unfold rrPass
  simp only
  cases hd : ((List.range p0.length).foldl (rrStep q)
      { s with did_something := false }).did_something with
  | true =>
    simp only [Bool.true_eq_false, if_false]
    refine ⟨hinv, fun _ => ?_⟩
    have h1 := htrue hd
    have h2 := hinv.clock
    have h3 := h.clock
    unfold rrClockMeasure
    unfold INT_MIN INT_MAX at *
    omega
  | false =>
    simp only [if_true]
    obtain ⟨ht, hall⟩ := hfalse hd
    rw [ht]
    refine ⟨⟨h.len, h.same, h.rem, h.count, wrap_range _, h.done⟩, fun hc => ?_⟩
    rw [h.count] at hc
    obtain ⟨i, hi, hri⟩ := finishedCount_not_full _ _ hc
    have h1 := hall i hi
    have h2 := (h.rem i hi).1
    have h3 := ha i hi
    have h4 := (h.same i hi).2.1
    have hlt : ¬ (rd s.p i).arrival_time ≤ s.current_time := fun hle => h1 ⟨hle, by omega⟩
    have hw : wrap (s.current_time + 1) = s.current_time + 1 :=
      wrap_eq _ (by have := h.clock.1; omega) (by omega)
    unfold rrClockMeasure
    show totalRemaining s.p * 4294967296 + (INT_MAX - wrap (s.current_time + 1)) <
      totalRemaining s.p * 4294967296 + (INT_MAX - s.current_time)
    rw [hw]
    omega

theorem rrLoop_base (p0 : List Process) (q : Int) (hq : 0 < q)
    (ha : ∀ i, i < p0.length → (rd p0 i).arrival_time ≤ INT_MAX)
    (fuel : Nat) (s r : RRState) (h : RRBase p0 s)
    (hr : rrLoop q p0.length fuel s = some r) :
    RRBase p0 r ∧ ∀ i, i < p0.length → (rd r.p i).remaining_time = 0 := by
  induction fuel generalizing s with
  | zero => simp [rrLoop] at hr
  | succ k ih =>
    simp only [rrLoop] at hr
    by_cases hc : s.completed = p0.length
    · simp only [hc, if_true, Option.some.injEq] at hr
      subst hr
      refine ⟨h, ?_⟩
      have := h.count
      rw [hc] at this
      exact finishedCount_full _ _ this.symm
    · simp only [hc, if_false] at hr
      exact ih _ (rrBase_pass p0 q s hq ha h).1 hr

/-- Termination of `round_robin`, wraparound included: a pass that runs a process lowers
the work left, and an idle pass only happens while a process has not arrived, so the
clock does not wrap in a tick. -/
theorem rrLoop_terminates (p0 : List Process) (q : Int) (hq : 0 < q)
    (ha : ∀ i, i < p0.length → (rd p0 i).arrival_time ≤ INT_MAX)
    (fuel : Nat) (s : RRState) (h : RRBase p0 s) (hf : rrClockMeasure s < fuel) :
    ∃ r, rrLoop q p0.length fuel s = some r := by
  induction fuel generalizing s with
  | zero =>
    have := rrBase_totalRemaining_nonneg p0 s h
    have := h.clock.2
    unfold rrClockMeasure at hf
    simp only [Nat.cast_zero] at hf
    omega
  | succ k ih =>
    simp only [rrLoop]
    by_cases hc : s.completed = p0.length
    · exact ⟨s, by simp only [hc, if_true]⟩
    · simp only [hc, if_false]
      obtain ⟨hinv, hm⟩ := rrBase_pass p0 q s hq ha h
      exact ih _ hinv (by have := hm hc; push_cast at hf; omega)

theorem rrBase_init (p0 : List Process)
    (hb : ∀ i, i < p0.length → 0 < (rd p0 i).burst_time)
    (hrem : ∀ i, i < p0.length → (rd p0 i).remaining_time = (rd p0 i).burst_time) :
    RRBase p0 (rrInit p0) := by
  refine ⟨rfl, fun i _ => ⟨rfl, rfl, rfl, rfl⟩, ?_, ?_, ⟨by show INT_MIN ≤ 0; decide,
    by show (0 : Int) ≤ INT_MAX; decide⟩, ?_⟩
  · intro i hi
    show 0 ≤ (rd p0 i).remaining_time ∧ (rd p0 i).remaining_time ≤ _
    rw [hrem i hi]
    exact ⟨le_of_lt (hb i hi), le_rfl⟩
  · show 0 = finishedCount p0 p0.length
    unfold finishedCount
    symm
    rw [Finset.card_eq_zero, Finset.filter_eq_empty_iff]
    intro i hi
    have h1 := hb i (Finset.mem_range.mp hi)
    have h2 := hrem i (Finset.mem_range.mp hi)
    omega
  · intro i hi hz
    have h1 := hb i hi
    have h2 := hrem i hi
    exact absurd hz (by show ¬ (rd p0 i).remaining_time = 0; omega)

/-- On an array of `int` arrival times with positive bursts and
`remaining_time = burst_time`, `round_robin` returns, whatever wraps on the way. -/
theorem rr_terminates (q : Int) (hq : 0 < q) (p : List Process)
    (hb : ∀ i, i < p.length → 0 < (rd p i).burst_time)
    (hrem : ∀ i, i < p.length → (rd p i).remaining_time = (rd p i).burst_time)
    (ha : ∀ i, i < p.length → (rd p i).arrival_time ≤ INT_MAX) :
    ∃ fuel r, rrLoop q p.length fuel (rrInit p) = some r := by
  obtain ⟨r, hr⟩ := rrLoop_terminates p q hq ha ((rrClockMeasure (rrInit p)).toNat + 1) _
    (rrBase_init p hb hrem) (by push_cast; omega)
  exact ⟨_, r, hr⟩

theorem rr_result (q : Int) (hq : 0 < q) (p : List Process)
    (hb : ∀ i, i < p.length → 0 < (rd p i).burst_time)
    (hrem : ∀ i, i < p.length → (rd p i).remaining_time = (rd p i).burst_time)
    (ha : ∀ i, i < p.length → (rd p i).arrival_time ≤ INT_MAX)
    (fuel : Nat) (r : RRState) (hr : rrLoop q p.length fuel (rrInit p) = some r) :
    RRBase p r ∧ ∀ i, i < p.length → (rd r.p i).remaining_time = 0 :=
  rrLoop_base p q hq ha fuel _ r (rrBase_init p hb hrem) hr

/-! ## Round Robin: agreement with the loop over the mathematical integers -/

/-- An entry of a list of non-negative values is at most their sum. -/
theorem rd_le_sum (f : Process → Int) (l : List Process)
    (h : ∀ j, j < l.length → 0 ≤ f (rd l j)) (i : Nat) (hi : i < l.length) :
    f (rd l i) ≤ (l.map f).sum := by
  induction l generalizing i with
  | nil => simp at hi
  | cons a l ih =>
    have h0 := h 0 (by simp)
    rw [rd_cons_zero] at h0
    have hl : ∀ j, j < l.length → 0 ≤ f (rd l j) := fun j hj => by
      have := h (j + 1) (by simpa using hj)
      rwa [rd_cons_succ] at this
    have hs := sum_map_nonneg f l hl
    simp only [List.map_cons, List.sum_cons]
    cases i with
    | zero => rw [rd_cons_zero]; omega
    | succ i =>
      rw [rd_cons_succ]
      have := ih hl i (by simpa using hi)
      omega

namespace Ideal

/-- Over `ℤ` the clock never goes back during a scan. -/
theorem rrStep_clock_le (q : Int) (s : RRState) (i : Nat) (hq : 0 < q) :
    s.current_time ≤ (rrStep q s i).current_time := by
  rcases rrStep_cases_ideal q s i with ⟨_, e⟩ | ⟨⟨ha, hp⟩, hgt, e⟩ | ⟨⟨ha, hp⟩, hle, e⟩
  · rw [e]
  · rw [e]
    show s.current_time ≤ s.current_time + q
    omega
  · rw [e]
    show s.current_time ≤ s.current_time + (rd s.p i).remaining_time
    omega

theorem rrPass_clock_le (q : Int) (n : Nat) (s : RRState) (hq : 0 < q) :
    s.current_time ≤ (rrPass q n s).current_time := by
  have key := foldl_range_inv (rrStep q) (fun _ t => s.current_time ≤ t.current_time) n
    { s with did_something := false } (le_refl _)
    (fun k t _ ht => le_trans ht (rrStep_clock_le q t k hq))
  unfold rrPass
  simp only
  split
  · show s.current_time ≤ _ + 1
    omega
  · exact key

end Ideal

theorem rrStep_eq_ideal (p0 : List Process) (mx q : Int) (s : RRState) (i : Nat)
    (hq : 0 < q) (hi : i < p0.length)
    (ha : ∀ j, j < p0.length → 0 ≤ (rd p0 j).arrival_time)
    (hb : ∀ j, j < p0.length → 0 ≤ (rd p0 j).burst_time)
    (hno : mx + totalBurst p0 ≤ INT_MAX) (hmx : 0 ≤ mx)
    (h : RRInv p0 mx s) (h0 : 0 ≤ s.current_time) :
    rrStep q s i = Ideal.rrStep q s i := by
  have hip : i < s.p.length := by rw [h.len]; exact hi
  obtain ⟨_, sa, sb, _⟩ := h.same i hi
  obtain ⟨r0, r1⟩ := h.rem i hi
  have hsum : (rd s.p i).remaining_time ≤ totalRemaining s.p :=
    rd_le_sum Process.remaining_time s.p
      (fun j hj => (h.rem j (by rw [← h.len]; exact hj)).1) i hip
  have hbs : (rd p0 i).burst_time ≤ totalBurst p0 := rd_le_sum Process.burst_time p0 hb i hi
  have hpot := h.pot
  have hai := ha i hi
  unfold rrStep Ideal.rrStep
  by_cases he : (rd s.p i).arrival_time ≤ s.current_time ∧ (rd s.p i).remaining_time > 0
  · rw [if_pos he, if_pos he]
    obtain ⟨harr, hp⟩ := he
    by_cases hgt : (rd s.p i).remaining_time > q
    · rw [if_pos hgt, if_pos hgt]
      have e1 : wrap (s.current_time + q) = s.current_time + q :=
        wrap_eq _ (by unfold INT_MIN; omega) (by omega)
      rw [e1]
    · rw [if_neg hgt, if_neg hgt]
      have e1 : wrap (s.current_time + (rd s.p i).remaining_time) =
          s.current_time + (rd s.p i).remaining_time :=
        wrap_eq _ (by unfold INT_MIN; omega) (by omega)
      have e2 : wrap (s.current_time + (rd s.p i).remaining_time - (rd s.p i).arrival_time) =
          s.current_time + (rd s.p i).remaining_time - (rd s.p i).arrival_time :=
        wrap_eq _ (by unfold INT_MIN; omega) (by omega)
      have e3 : wrap (s.current_time + (rd s.p i).remaining_time - (rd s.p i).arrival_time
            - (rd s.p i).burst_time) =
          s.current_time + (rd s.p i).remaining_time - (rd s.p i).arrival_time
            - (rd s.p i).burst_time :=
        wrap_eq _ (by unfold INT_MIN INT_MAX at *; omega) (by omega)
      simp only [e1, e2, e3]
  · rw [if_neg he, if_neg he]

theorem rrPass_eq_ideal (p0 : List Process) (mx q : Int) (s : RRState) (hq : 0 < q)
    (ha : ∀ j, j < p0.length → 0 ≤ (rd p0 j).arrival_time ∧ (rd p0 j).arrival_time ≤ mx)
    (hb : ∀ j, j < p0.length → 0 ≤ (rd p0 j).burst_time)
    (hno : mx + totalBurst p0 ≤ INT_MAX) (hmx : 0 ≤ mx)
    (h : RRInv p0 mx s) (h0 : 0 ≤ s.current_time) (hc : s.completed ≠ p0.length) :
    rrPass q p0.length s = Ideal.rrPass q p0.length s := by
  have key := foldl_range_rel (rrStep q) (Ideal.rrStep q)
    (fun a b => a = b ∧ RRInv p0 mx b ∧ 0 ≤ b.current_time) p0.length
    { s with did_something := false } { s with did_something := false }
    ⟨rfl, ⟨h.len, h.same, h.rem, h.count, h.work, h.done, h.pot, h.tot⟩, h0⟩
    (by
      rintro k a b hk ⟨hab, hinv, hb0⟩
      subst hab
      exact ⟨rrStep_eq_ideal p0 mx q a k hq hk (fun j hj => (ha j hj).1) hb hno hmx hinv hb0,
        Ideal.rrInv_step p0 mx q a k hq hk hinv,
        le_trans hb0 (Ideal.rrStep_clock_le q a k hq)⟩)
  obtain ⟨hfold, hinv, hf0⟩ := key
  obtain ⟨_, hfalse, _⟩ := Ideal.rrScan_inv p0 mx q s hq h
  unfold rrPass Ideal.rrPass
  simp only
  rw [hfold]
  cases hd : ((List.range p0.length).foldl (Ideal.rrStep q)
      { s with did_something := false }).did_something with
  | true => simp only [Bool.true_eq_false, if_false]
  | false =>
    simp only [if_true]
    obtain ⟨ht, hall⟩ := hfalse hd
    rw [ht]
    rw [h.count] at hc
    obtain ⟨i, hi, hri⟩ := finishedCount_not_full _ _ hc
    have h1 := hall i hi
    have h2 := (h.rem i hi).1
    have h3 := (ha i hi).2
    have h4 := (h.same i hi).2.1
    have hlt : ¬ (rd s.p i).arrival_time ≤ s.current_time := fun hle => h1 ⟨hle, by omega⟩
    have hbt := sum_map_nonneg Process.burst_time p0 hb
    have hw : wrap (s.current_time + 1) = s.current_time + 1 :=
      wrap_eq _ (by unfold INT_MIN; omega) (by unfold totalBurst at hno; omega)
    show ({ s with did_something := false, current_time := wrap (s.current_time + 1) } : RRState)
      = { s with did_something := false, current_time := s.current_time + 1 }
    rw [hw]

/-- The lockstep of `round_robin` with the loop over `ℤ`: when a bound `mx` on the
arrival times plus the sum of the bursts fits in an `int`, no computation wraps and the
two loops take the same steps. -/
theorem rrLoop_eq_ideal (p0 : List Process) (mx q : Int) (hq : 0 < q)
    (ha : ∀ j, j < p0.length → 0 ≤ (rd p0 j).arrival_time ∧ (rd p0 j).arrival_time ≤ mx)
    (hb : ∀ j, j < p0.length → 0 ≤ (rd p0 j).burst_time)
    (hno : mx + totalBurst p0 ≤ INT_MAX) (hmx : 0 ≤ mx)
    (fuel : Nat) (s : RRState) (h : RRInv p0 mx s) (h0 : 0 ≤ s.current_time) :
    rrLoop q p0.length fuel s = Ideal.rrLoop q p0.length fuel s := by
  induction fuel generalizing s with
  | zero => rfl
  | succ k ih =>
    simp only [rrLoop, Ideal.rrLoop]
    by_cases hc : s.completed = p0.length
    · simp only [hc, if_true]
    · simp only [hc, if_false]
      rw [rrPass_eq_ideal p0 mx q s hq ha hb hno hmx h h0 hc]
      exact ih _ (Ideal.rrPass_inv p0 mx q s hq (fun j hj => (ha j hj).2) h hc).1
        (le_trans h0 (Ideal.rrPass_clock_le q p0.length s hq))

/-- From the initial state: on a valid array whose largest arrival time plus the sum of
the bursts fits in an `int`, `round_robin` is the loop over `ℤ`. -/
theorem rr_eq_ideal (q : Int) (hq : 0 < q) (p : List Process)
    (hv : Ideal.ValidProcesses p)
    (hno : NoOverflow p) (fuel : Nat) :
    rrLoop q p.length fuel (rrInit p) = Ideal.rrLoop q p.length fuel (rrInit p) := by
  obtain ⟨k, hk, hmx⟩ := exists_max_arrival p hv.1
  have h0 : 0 ≤ (rd p k).arrival_time := (hv.2 k hk).1
  exact rrLoop_eq_ideal p (rd p k).arrival_time q hq
    (fun j hj => ⟨(hv.2 j hj).1, hmx j hj⟩) (fun j hj => le_of_lt (hv.2 j hj).2.1)
    (hno k hk) h0 fuel _
    (Ideal.rrInv_init p _ h0 (fun i hi => (hv.2 i hi).2.1) (fun i hi => (hv.2 i hi).2.2))
    le_rfl

/-! ## Round Robin on short jobs in arrival order -/

theorem prevCompletion_set (l : List Process) (k i : Nat) (v : Process) (hik : i ≤ k) :
    prevCompletion (l.set k v) i = prevCompletion l i := by
  unfold prevCompletion
  by_cases h0 : i = 0
  · simp [h0]
  · simp only [h0, if_false]
    rw [rd_set_ne _ _ _ _ (by omega)]

theorem rrSeq_step (p0 : List Process) (q : Int) (s : RRState) (i : Nat)
    (hi : i < p0.length)
    (hb : ∀ k, k < p0.length → 0 < (rd p0 k).burst_time ∧ (rd p0 k).burst_time ≤ q)
    (hs : ∀ a b, a ≤ b → b < p0.length → (rd p0 a).arrival_time ≤ (rd p0 b).arrival_time)
    (h : RRSeq p0 s)
    (hw : s.completed < i → s.current_time < (rd p0 s.completed).arrival_time) :
    RRSeq p0 (rrStep q s i) ∧
    ((rrStep q s i).completed < i + 1 →
      (rrStep q s i).current_time < (rd p0 (rrStep q s i).completed).arrival_time) := by
  obtain ⟨sa, sb⟩ := h.same i hi
  have hip : i < s.p.length := by rw [h.len]; exact hi
  rcases rrStep_cases q s i with ⟨hne, e⟩ | ⟨⟨ha, hp⟩, hgt, e⟩ | ⟨⟨ha, hp⟩, hle, e⟩
  · -- not eligible: nothing changes
    rw [e]
    refine ⟨h, fun hlt => ?_⟩
    rcases Nat.lt_or_ge s.completed i with hki | hki
    · exact hw hki
    · have hk : s.completed = i := by omega
      have hrem := h.todo i (by omega) hi
      have hbi := (hb i hi).1
      rw [hk]
      by_contra hcon
      exact hne ⟨by rw [sa]; omega, by rw [hrem]; exact hbi⟩
  · -- a slice: impossible, every burst fits in one quantum
    exfalso
    rcases Nat.lt_or_ge i s.completed with hik | hik
    · have := (h.done i hik).1
      omega
    · have := h.todo i hik hi
      have := (hb i hi).2
      omega
  · -- the process finishes
    have hik : s.completed = i := by
      rcases Nat.lt_trichotomy s.completed i with hlt | heq | hgt
      · have h1 := hw hlt
        have h2 := hs s.completed i (by omega) hi
        rw [sa] at ha
        omega
      · exact heq
      · have := (h.done i hgt).1
        omega
    have hrem := h.todo i (by omega) hi
    have hlo := h.lo (by omega)
    have hhi := h.hi (by omega)
    rw [hik] at hlo hhi
    rw [sa] at ha
    rw [e]
    refine ⟨⟨by simp [h.len], by show s.completed + 1 ≤ p0.length; omega, ?_, ?_, ?_,
      (wrap_range _).1, ?_, ?_⟩, fun hlt => ?_⟩
    · intro j hj
      show (rd (s.p.set i _) j).arrival_time = _ ∧ (rd (s.p.set i _) j).burst_time = _
      by_cases hji : j = i
      · rw [hji, rd_set_eq _ _ _ hip]
        exact ⟨sa, sb⟩
      · rw [rd_set_ne _ _ _ _ (fun e => hji e.symm)]
        exact h.same j hj
    · intro j hkj hj
      have hkj' : s.completed + 1 ≤ j := hkj
      show (rd (s.p.set i _) j).remaining_time = _
      rw [rd_set_ne _ _ _ _ (by omega)]
      exact h.todo j (by omega) hj
    · intro j hj
      have hj' : j < s.completed + 1 := hj
      show (rd (s.p.set i _) j).remaining_time = 0 ∧
        (rd (s.p.set i _) j).completion_time =
          wrap (max (prevCompletion (s.p.set i _) j) (rd p0 j).arrival_time
            + (rd p0 j).burst_time)
      rw [prevCompletion_set _ _ _ _ (by omega)]
      by_cases hji : j = i
      · rw [hji, rd_set_eq _ _ _ hip]
        refine ⟨rfl, ?_⟩
        show wrap (s.current_time + (rd s.p i).remaining_time) = _
        rw [hrem]
        have hmax : max (prevCompletion s.p i) (rd p0 i).arrival_time = s.current_time := by
          omega
        rw [hmax]
      · rw [rd_set_ne _ _ _ _ (fun e => hji e.symm)]
        exact h.done j (by omega)
    · intro _
      show prevCompletion (s.p.set i _) (s.completed + 1) ≤
        wrap (s.current_time + (rd s.p i).remaining_time)
      unfold prevCompletion
      simp only [Nat.succ_ne_zero, if_false, Nat.add_sub_cancel]
      rw [hik, rd_set_eq _ _ _ hip]
    · intro _
      show wrap (s.current_time + (rd s.p i).remaining_time) ≤
        max (prevCompletion (s.p.set i _) (s.completed + 1))
          (rd p0 (s.completed + 1)).arrival_time
      unfold prevCompletion
      simp only [Nat.succ_ne_zero, if_false, Nat.add_sub_cancel]
      rw [hik, rd_set_eq _ _ _ hip]
      exact le_max_left _ _
    · have : s.completed + 1 < i + 1 := hlt
      omega

theorem rrSeq_tick (p0 : List Process) (t : RRState)
    (ha : ∀ k, k < p0.length → (rd p0 k).arrival_time ≤ INT_MAX) (h : RRSeq p0 t)
    (hw : t.completed < p0.length → t.current_time < (rd p0 t.completed).arrival_time) :
    RRSeq p0 { t with current_time := wrap (t.current_time + 1) } := by
  refine ⟨h.len, h.le, h.same, h.todo, h.done, (wrap_range _).1, fun hlt => ?_, fun hlt => ?_⟩
  · have hlt' : t.completed < p0.length := hlt
    have h1 := hw hlt'
    have h2 := ha _ hlt'
    have h3 := h.lo hlt'
    have hc := h.clock
    show prevCompletion t.p t.completed ≤ wrap (t.current_time + 1)
    rw [wrap_eq _ (by omega) (by omega)]
    omega
  · have hlt' : t.completed < p0.length := hlt
    have h1 := hw hlt'
    have h2 := ha _ hlt'
    have h3 := h.lo hlt'
    have hc := h.clock
    show wrap (t.current_time + 1) ≤
      max (prevCompletion t.p t.completed) (rd p0 t.completed).arrival_time
    rw [wrap_eq _ (by omega) (by omega)]
    have := le_max_right (prevCompletion t.p t.completed) (rd p0 t.completed).arrival_time
    omega

theorem rrSeq_pass (p0 : List Process) (q : Int) (s : RRState)
    (hb : ∀ k, k < p0.length → 0 < (rd p0 k).burst_time ∧ (rd p0 k).burst_time ≤ q)
    (hs : ∀ a b, a ≤ b → b < p0.length → (rd p0 a).arrival_time ≤ (rd p0 b).arrival_time)
    (ha : ∀ k, k < p0.length → (rd p0 k).arrival_time ≤ INT_MAX)
    (h : RRSeq p0 s) : RRSeq p0 (rrPass q p0.length s) := by
  have key := foldl_range_inv (rrStep q)
    (fun k t => RRSeq p0 t ∧
      (t.completed < k → t.current_time < (rd p0 t.completed).arrival_time))
    p0.length { s with did_something := false }
    ⟨⟨h.len, h.le, h.same, h.todo, h.done, h.clock, h.lo, h.hi⟩,
      fun hlt => absurd hlt (Nat.not_lt_zero _)⟩
    (fun k t hk ht => rrSeq_step p0 q t k hk hb hs ht.1 ht.2)
  obtain ⟨hseq, hw⟩ := key
  unfold rrPass
  simp only
  split
  · exact rrSeq_tick p0 _ ha hseq hw
  · exact hseq

theorem rrSeq_loop (p0 : List Process) (q : Int)
    (hb : ∀ k, k < p0.length → 0 < (rd p0 k).burst_time ∧ (rd p0 k).burst_time ≤ q)
    (hs : ∀ a b, a ≤ b → b < p0.length → (rd p0 a).arrival_time ≤ (rd p0 b).arrival_time)
    (ha : ∀ k, k < p0.length → (rd p0 k).arrival_time ≤ INT_MAX)
    (fuel : Nat) (s r : RRState) (h : RRSeq p0 s)
    (hr : rrLoop q p0.length fuel s = some r) : RRSeq p0 r ∧ r.completed = p0.length := by
  induction fuel generalizing s with
  | zero => simp [rrLoop] at hr
  | succ k ih =>
    simp only [rrLoop] at hr
    by_cases hc : s.completed = p0.length
    · simp only [hc, if_true, Option.some.injEq] at hr
      subst hr
      exact ⟨h, hc⟩
    · simp only [hc, if_false] at hr
      exact ih _ (rrSeq_pass p0 q s hb hs ha h) hr

theorem rrSeq_init (p0 : List Process)
    (hrem : ∀ i, i < p0.length → (rd p0 i).remaining_time = (rd p0 i).burst_time) :
    RRSeq p0 (rrInit p0) := by
  refine ⟨rfl, Nat.zero_le _, fun i _ => ⟨rfl, rfl⟩, fun i _ hi => hrem i hi,
    fun i hi => absurd hi (Nat.not_lt_zero i), by show INT_MIN ≤ 0; decide, fun _ => ?_,
    fun _ => ?_⟩
  · show prevCompletion p0 0 ≤ 0
    simp [prevCompletion]
  · show (0 : Int) ≤ max (prevCompletion p0 0) _
    simp [prevCompletion]

/-- On an arrival-sorted valid input whose bursts fit in one quantum, every finishing run
of Round Robin gives each position the record `fcfs` gives it, wraparound included. -/
theorem rr_eq_fcfs (q : Int) (hq : 0 < q) (p : List Process) (hv : ValidProcesses p)
    (hs : ∀ a b, a ≤ b → b < p.length → (rd p a).arrival_time ≤ (rd p b).arrival_time)
    (hb : ∀ k, k < p.length → (rd p k).burst_time ≤ q)
    (fuel : Nat) (r : RRState) (hr : rrLoop q p.length fuel (rrInit p) = some r)
    (i : Nat) (hi : i < p.length) :
    (rd r.p i).pid = (rd (fcfs p) i).pid ∧
    (rd r.p i).completion_time = (rd (fcfs p) i).completion_time ∧
    (rd r.p i).turnaround_time = (rd (fcfs p) i).turnaround_time ∧
    (rd r.p i).waiting_time = (rd (fcfs p) i).waiting_time := by
  have ha : ∀ k, k < p.length → (rd p k).arrival_time ≤ INT_MAX :=
    fun k hk => (hv.2 k hk).1.2
  obtain ⟨hseq, hcomp⟩ := rrSeq_loop p q (fun k hk => ⟨(hv.2 k hk).2.1.1, hb k hk⟩) hs ha
    fuel _ r (rrSeq_init p (fun k hk => (hv.2 k hk).2.2)) hr
  obtain ⟨hinv, hall⟩ := rr_result q hq p (fun k hk => (hv.2 k hk).2.1.1)
    (fun k hk => (hv.2 k hk).2.2) ha fuel r hr
  have hsort := fcfsSort_of_sorted p hs
  have hf := (fcfs_fields p).2
  rw [hsort] at hf
  -- completion times agree, by induction along the array
  have hc : ∀ j, j < p.length →
      (rd r.p j).completion_time = (rd (fcfs p) j).completion_time := by
    intro j
    induction j using Nat.strong_induction_on with
    | _ j ih =>
      intro hj
      obtain ⟨sF, cF, _⟩ := hf j hj
      have hd := (hseq.done j (by rw [hcomp]; exact hj)).2
      rw [hd, cF, sF.2.1, sF.2.2.1]
      have hprev : prevCompletion r.p j =
          (if j = 0 then (0 : Int) else (rd (fcfs p) (j - 1)).completion_time) := by
        unfold prevCompletion
        by_cases h0 : j = 0
        · simp [h0]
        · simp only [h0, if_false]
          exact ih (j - 1) (by omega) (by omega)
      rw [hprev]
  obtain ⟨sF, _, tF, wF⟩ := hf i hi
  obtain ⟨_, tR, wR⟩ := hinv.done i hi (hall i hi)
  obtain ⟨sp, sa, sb, _⟩ := hinv.same i hi
  have hci := hc i hi
  refine ⟨by rw [sp, sF.1], hci, ?_, ?_⟩
  · rw [tR, tF, hci, sF.2.1]
  · rw [wR, wF, tR, tF, hci, sF.2.1, sF.2.2.1]

/-! ## The workload advisor: the `float` test -/

theorem roundHalfEven_ge (k : Int) (y : ℚ) (h : (k : ℚ) ≤ y) : k ≤ roundHalfEven y := by
  have hf : k ≤ ⌊y⌋ := Int.le_floor.mpr h
  unfold roundHalfEven
  split_ifs <;> omega

theorem roundHalfEven_le (k : Int) (y : ℚ) (h : y ≤ (k : ℚ)) : roundHalfEven y ≤ k := by
  have hfl : (⌊y⌋ : ℚ) ≤ y := Int.floor_le y
  have h1 : ⌊y⌋ ≤ k := by exact_mod_cast le_trans hfl h
  by_cases hfr : y - ⌊y⌋ < 1 / 2
  · unfold roundHalfEven
    rw [if_pos hfr]
    exact h1
  · have h2 : ⌊y⌋ < k := by
      have : (⌊y⌋ : ℚ) < k := by linarith
      exact_mod_cast this
    unfold roundHalfEven
    rw [if_neg hfr]
    split_ifs <;> omega

theorem roundHalfEven_le_add_half (y : ℚ) : (roundHalfEven y : ℚ) ≤ y + 1 / 2 := by
  have hfl : (⌊y⌋ : ℚ) ≤ y := Int.floor_le y
  by_cases hfr : y - ⌊y⌋ < 1 / 2
  · unfold roundHalfEven
    rw [if_pos hfr]
    linarith
  · have h2 : ((⌊y⌋ + 1 : ℤ) : ℚ) ≤ y + 1 / 2 := by
      push_cast
      linarith
    unfold roundHalfEven
    rw [if_neg hfr]
    split_ifs
    · exact h2
    · linarith
    · exact h2

theorem toFloat_nonpos (x : ℚ) (h : x ≤ 0) : toFloat x ≤ 0 := by
  unfold toFloat
  split_ifs with h0
  · exact le_refl 0
  · have hu : (0 : ℚ) < 2 ^ (Int.log 2 |x| - 23) := zpow_pos (by norm_num) _
    have hq : x / 2 ^ (Int.log 2 |x| - 23) ≤ ((0 : ℤ) : ℚ) := by
      rw [Int.cast_zero]
      exact div_nonpos_of_nonpos_of_nonneg h hu.le
    have hr : (roundHalfEven (x / 2 ^ (Int.log 2 |x| - 23)) : ℚ) ≤ 0 := by
      exact_mod_cast roundHalfEven_le 0 _ hq
    exact mul_nonpos_iff.mpr (Or.inr ⟨hr, hu.le⟩)

theorem toFloat_of_pos (x : ℚ) (hx : 0 < x) :
    toFloat x =
      roundHalfEven (x / 2 ^ (Int.log 2 x - 23)) * 2 ^ (Int.log 2 x - 23) := by
  unfold toFloat
  rw [if_neg hx.ne', abs_of_pos hx]

/-- Rounding does not go below a multiple of the unit in the last place. -/
theorem toFloat_ge_of (x : ℚ) (hx : 0 < x) (k : Int)
    (h : (k : ℚ) * 2 ^ (Int.log 2 x - 23) ≤ x) :
    (k : ℚ) * 2 ^ (Int.log 2 x - 23) ≤ toFloat x := by
  have hu : (0 : ℚ) < 2 ^ (Int.log 2 x - 23) := zpow_pos (by norm_num) _
  rw [toFloat_of_pos x hx]
  have hk : (k : ℚ) ≤ x / 2 ^ (Int.log 2 x - 23) := (le_div_iff₀ hu).mpr h
  have hr : (k : ℚ) ≤ (roundHalfEven (x / 2 ^ (Int.log 2 x - 23)) : ℚ) := by
    exact_mod_cast roundHalfEven_ge k _ hk
  exact mul_le_mul_of_nonneg_right hr hu.le

/-- Rounding does not go above a multiple of the unit in the last place. -/
theorem toFloat_le_of (x : ℚ) (hx : 0 < x) (k : Int)
    (h : x ≤ (k : ℚ) * 2 ^ (Int.log 2 x - 23)) :
    toFloat x ≤ (k : ℚ) * 2 ^ (Int.log 2 x - 23) := by
  have hu : (0 : ℚ) < 2 ^ (Int.log 2 x - 23) := zpow_pos (by norm_num) _
  rw [toFloat_of_pos x hx]
  have hk : x / 2 ^ (Int.log 2 x - 23) ≤ (k : ℚ) := (div_le_iff₀ hu).mpr h
  have hr : (roundHalfEven (x / 2 ^ (Int.log 2 x - 23)) : ℚ) ≤ (k : ℚ) := by
    exact_mod_cast roundHalfEven_le k _ hk
  exact mul_le_mul_of_nonneg_right hr hu.le

theorem two_pow_log_le_toFloat (x : ℚ) (hx : 0 < x) : (2 : ℚ) ^ Int.log 2 x ≤ toFloat x := by
  have h1 : (2 : ℚ) ^ Int.log 2 x ≤ x := by
    have := Int.zpow_log_le_self (b := 2) (r := x) (by norm_num) hx
    simpa using this
  have e : (((2 : ℤ) ^ 23 : ℤ) : ℚ) * 2 ^ (Int.log 2 x - 23) = 2 ^ Int.log 2 x := by
    have : (((2 : ℤ) ^ 23 : ℤ) : ℚ) = (2 : ℚ) ^ (23 : ℤ) := by norm_num
    rw [this, ← zpow_add₀ (by norm_num : (2 : ℚ) ≠ 0)]
    congr 1
    omega
  have := toFloat_ge_of x hx ((2 : ℤ) ^ 23) (by rw [e]; exact h1)
  rwa [e] at this

theorem toFloat_le_add (x : ℚ) (hx : 0 < x) :
    toFloat x ≤ x + 2 ^ (Int.log 2 x - 23) / 2 := by
  have hu : (0 : ℚ) < 2 ^ (Int.log 2 x - 23) := zpow_pos (by norm_num) _
  rw [toFloat_of_pos x hx]
  have h := roundHalfEven_le_add_half (x / 2 ^ (Int.log 2 x - 23))
  have := mul_le_mul_of_nonneg_right h hu.le
  have e : (x / 2 ^ (Int.log 2 x - 23) + 1 / 2) * 2 ^ (Int.log 2 x - 23) =
      x + 2 ^ (Int.log 2 x - 23) / 2 := by
    field_simp
    ring
  rwa [e] at this

/-- An integer of fewer than 24 bits is a `float`. -/
theorem toFloat_int (m : Int) (h0 : 0 < m) (h1 : m < 16777216) : toFloat (m : ℚ) = m := by
  have hx : (0 : ℚ) < (m : ℚ) := by exact_mod_cast h0
  have hlog : Int.log 2 (m : ℚ) < 24 := by
    rw [← Int.lt_zpow_iff_log_lt (by norm_num) hx]
    have : ((m : ℤ) : ℚ) < ((16777216 : ℤ) : ℚ) := by exact_mod_cast h1
    norm_num at this ⊢
    exact this
  obtain ⟨d, hd⟩ := Int.eq_ofNat_of_zero_le (show 0 ≤ 23 - Int.log 2 (m : ℚ) by omega)
  have hu : (2 : ℚ) ^ (Int.log 2 (m : ℚ) - 23) = ((2 : ℚ) ^ d)⁻¹ := by
    have : Int.log 2 (m : ℚ) - 23 = -(d : ℤ) := by omega
    rw [this, zpow_neg, zpow_natCast]
  have hk : (((m * 2 ^ d : ℤ)) : ℚ) * 2 ^ (Int.log 2 (m : ℚ) - 23) = (m : ℚ) := by
    rw [hu]
    push_cast
    field_simp
  apply le_antisymm
  · have := toFloat_le_of (m : ℚ) hx (m * 2 ^ d) (by rw [hk])
    rwa [hk] at this
  · have := toFloat_ge_of (m : ℚ) hx (m * 2 ^ d) (by rw [hk])
    rwa [hk] at this

/-- Rounding does not go below a power of two. -/
theorem toFloat_ge_two_pow (y : ℚ) (k : Int) (h : (2 : ℚ) ^ k ≤ y) : (2 : ℚ) ^ k ≤ toFloat y := by
  have hy : 0 < y := lt_of_lt_of_le (zpow_pos (by norm_num) _) h
  have hk : k ≤ Int.log 2 y := by
    rw [← Int.zpow_le_iff_le_log (by norm_num) hy]
    simpa using h
  exact le_trans (zpow_le_zpow_right₀ (by norm_num) hk) (two_pow_log_le_toFloat y hy)

theorem toFloat_natCast (n : Nat) (h1 : 1 ≤ n) (h2 : n ≤ 50) : toFloat (n : ℚ) = n := by
  have := toFloat_int (n : ℤ) (by omega) (by omega)
  simpa using this

/-- A quotient below 15 by at least a fiftieth rounds to a `float` below 15. -/
theorem toFloat_lt_15 (y : ℚ) (hy : 0 < y) (h : y ≤ 15 - 1 / 50) : toFloat y < 15 := by
  have hlog : Int.log 2 y < 4 := by
    rw [← Int.lt_zpow_iff_log_lt (by norm_num) hy]
    norm_num
    linarith
  have hu : (2 : ℚ) ^ (Int.log 2 y - 23) ≤ 2 ^ (-20 : ℤ) :=
    zpow_le_zpow_right₀ (by norm_num) (by omega)
  have h1 := toFloat_le_add y hy
  have h2 : (2 : ℚ) ^ (-20 : ℤ) = 1 / 1048576 := by norm_num [zpow_neg]
  rw [h2] at hu
  linarith

/-- A quotient of at least 15 rounds to a `float` of at least 15. -/
theorem toFloat_ge_15 (y : ℚ) (h : 15 ≤ y) : 15 ≤ toFloat y := by
  have hy : 0 < y := by linarith
  have hlog : 3 ≤ Int.log 2 y := by
    rw [← Int.zpow_le_iff_le_log (by norm_num) hy]
    norm_num
    linarith
  rcases eq_or_lt_of_le hlog with h3 | h4
  · have e : (((15 * 2 ^ 20 : ℤ)) : ℚ) * 2 ^ (Int.log 2 y - 23) = 15 := by
      rw [← h3]
      norm_num [zpow_neg]
    have := toFloat_ge_of y hy (15 * 2 ^ 20) (by rw [e]; exact h)
    rwa [e] at this
  · have h16 : (2 : ℚ) ^ (4 : ℤ) ≤ toFloat y :=
      le_trans (zpow_le_zpow_right₀ (by norm_num) (by omega)) (two_pow_log_le_toFloat y hy)
    norm_num at h16
    linarith

/-- The `float` test `(float)total_burst / n < 15` of `recommend_algorithm` holds exactly
when `total_burst < 15 * n`, for every `int` total and every `n` from 1 to 50. -/
theorem float_lt_15_iff (t : Int) (n : Nat) (h1 : 1 ≤ n) (h2 : n ≤ 50) :
    toFloat (toFloat (t : ℚ) / toFloat (n : ℚ)) < 15 ↔ t < 15 * n := by
  rw [toFloat_natCast n h1 h2]
  have hn : (0 : ℚ) < (n : ℚ) := by exact_mod_cast h1
  have hn50 : (n : ℚ) ≤ 50 := by exact_mod_cast h2
  rcases le_or_lt t 0 with ht0 | ht0
  · -- a non-positive total
    have hx : toFloat (t : ℚ) ≤ 0 := toFloat_nonpos _ (by exact_mod_cast ht0)
    have hq : toFloat (t : ℚ) / (n : ℚ) ≤ 0 := div_nonpos_of_nonpos_of_nonneg hx hn.le
    have := toFloat_nonpos _ hq
    constructor
    · intro _; omega
    · intro _; linarith
  · rcases lt_or_le t 16777216 with hsmall | hbig
    · -- the total is a `float`
      rw [toFloat_int t ht0 hsmall]
      have htq : (0 : ℚ) < (t : ℚ) := by exact_mod_cast ht0
      have hy : (0 : ℚ) < (t : ℚ) / (n : ℚ) := div_pos htq hn
      constructor
      · intro hlt
        by_contra hge
        have hge' : 15 * (n : ℤ) ≤ t := by omega
        have hq : (15 : ℚ) ≤ (t : ℚ) / (n : ℚ) := by
          rw [le_div_iff₀ hn]
          exact_mod_cast hge'
        have := toFloat_ge_15 _ hq
        linarith
      · intro hlt
        apply toFloat_lt_15 _ hy
        rw [div_le_iff₀ hn]
        have h3 : (t : ℚ) ≤ 15 * (n : ℚ) - 1 := by
          have : t ≤ 15 * (n : ℤ) - 1 := by omega
          exact_mod_cast this
        nlinarith
    · -- the total has more than 24 bits
      have htq : (2 : ℚ) ^ (24 : ℤ) ≤ (t : ℚ) := by
        have : ((16777216 : ℤ) : ℚ) ≤ (t : ℚ) := by exact_mod_cast hbig
        norm_num at this ⊢
        exact this
      have hx := toFloat_ge_two_pow _ 24 htq
      have hq : (2 : ℚ) ^ (4 : ℤ) ≤ toFloat (t : ℚ) / (n : ℚ) := by
        rw [le_div_iff₀ hn]
        norm_num at hx ⊢
        nlinarith
      have h16 := toFloat_ge_two_pow _ 4 hq
      norm_num at h16
      constructor
      · intro hlt; linarith
      · intro hlt; omega

/-! ## The workload advisor: the analysis loop and the rule -/

theorem analyze_eq (p : List Process) :
    analyze p = (wrap (totalBurst p), (shortJobs p : Int), (longJobs p : Int)) := by
  have key := foldl_range_inv (analyzeStep p)
    (fun k s => s = (wrap (totalBurst (p.take k)), (shortJobs (p.take k) : Int),
      (longJobs (p.take k) : Int)))
    p.length (0, 0, 0) (by simp [totalBurst, shortJobs, longJobs, wrap])
    (by
      intro k s hk hs
      have htake : p.take (k + 1) = p.take k ++ [rd p k] := by
        rw [List.take_succ, rd_eq_getElem _ _ hk]
        simp [hk]
      have hs' : s = (wrap (totalBurst (p.take k)), (shortJobs (p.take k) : Int),
        (longJobs (p.take k) : Int)) := hs
      subst hs'
      show analyzeStep p _ k = _
      unfold analyzeStep
      simp only [htake, totalBurst, shortJobs, longJobs, List.map_append, List.sum_append,
        List.filter_append, List.length_append, List.map_cons, List.map_nil, List.sum_cons,
        List.sum_nil, add_zero, wrap_add_wrap]
      by_cases hlt : (rd p k).burst_time < 10
      · have hge : ¬ 10 ≤ (rd p k).burst_time := by omega
        simp [hlt, hge, List.filter_cons]
      · have hge : 10 ≤ (rd p k).burst_time := by omega
        simp [hlt, hge, List.filter_cons])
  simp only [List.take_length] at key
  exact key

theorem recommend_eq (p : List Process) :
    recommend_algorithm p =
      if shortJobs p > longJobs p ∧ avg_burst p < 15 then Recommendation.SJF
      else if longJobs p > 2 * shortJobs p then Recommendation.Priority
      else Recommendation.RoundRobin := by
  unfold recommend_algorithm
  rw [analyze_eq]
  simp only
  have e1 : ((shortJobs p : Int) > (longJobs p : Int)) ↔ shortJobs p > longJobs p := by
    omega
  have e2 : ((longJobs p : Int) > (shortJobs p : Int) * 2) ↔ longJobs p > 2 * shortJobs p := by
    omega
  simp only [e1, e2]

/-- For 1 to `MAX_PROCESSES` processes the `float` test of the program is the comparison
of the wrapped `int` total with `15 * n`. -/
theorem avg_burst_lt_iff (p : List Process) (h1 : 1 ≤ p.length)
    (h2 : p.length ≤ MAX_PROCESSES) :
    avg_burst p < 15 ↔ wrap (totalBurst p) < 15 * p.length := by
  unfold avg_burst
  rw [analyze_eq]
  exact float_lt_15_iff _ _ h1 h2

/-- When moreover the sum of the bursts is an `int`, the `float` test is the test on the
exact average. -/
theorem avg_burst_lt_iff_exact (p : List Process) (h1 : 1 ≤ p.length)
    (h2 : p.length ≤ MAX_PROCESSES) (hlo : INT_MIN ≤ totalBurst p)
    (hhi : totalBurst p ≤ INT_MAX) :
    avg_burst p < 15 ↔ avgBurst p < 15 := by
  rw [avg_burst_lt_iff p h1 h2, wrap_eq _ hlo hhi]
  unfold avgBurst
  have hpos : (0 : ℚ) < (p.length : ℚ) := by exact_mod_cast h1
  rw [div_lt_iff₀ hpos]
  constructor
  · intro h
    exact_mod_cast h
  · intro h
    exact_mod_cast h

/-! ## The schedules of the program when no computation overflows

On a valid input whose largest arrival time plus the sum of the bursts fits in an `int`,
the program computes what the loops over `ℤ` compute, so their properties carry over. -/

theorem fcfs_record (p : List Process)
    (ha : ∀ i, i < p.length → 0 ≤ (rd p i).arrival_time)
    (hb : ∀ i, i < p.length → 0 ≤ (rd p i).burst_time) (hno : NoOverflow p)
    (i : Nat) (hi : i < p.length) :
    NonNegWait (rd (fcfs p) i) ∧ Conserved (rd (fcfs p) i) := by
  rw [fcfs_eq_ideal p ha hb hno]
  exact Ideal.fcfs_record_ideal p i hi

theorem fcfs_completion_mono (p : List Process)
    (ha : ∀ i, i < p.length → 0 ≤ (rd p i).arrival_time)
    (hb : ∀ k, k < p.length → 0 < (rd p k).burst_time) (hno : NoOverflow p)
    (i j : Nat) (hij : i < j) (hj : j < p.length) :
    (rd (fcfs p) i).completion_time < (rd (fcfs p) j).completion_time := by
  rw [fcfs_eq_ideal p ha (fun k hk => le_of_lt (hb k hk)) hno]
  exact Ideal.fcfs_completion_mono_ideal p hb i j hij hj

theorem fcfs_no_overlap (p : List Process)
    (ha : ∀ i, i < p.length → 0 ≤ (rd p i).arrival_time)
    (hb : ∀ k, k < p.length → 0 < (rd p k).burst_time) (hno : NoOverflow p)
    (i j : Nat) (hij : i < j) (hj : j < p.length) :
    (rd (fcfs p) i).completion_time ≤
      (rd (fcfs p) j).completion_time - (rd (fcfs p) j).burst_time := by
  rw [fcfs_eq_ideal p ha (fun k hk => le_of_lt (hb k hk)) hno]
  exact Ideal.fcfs_no_overlap_ideal p hb i j hij hj

theorem sel_ideal_run (key : Process → Int) (hkey : ∀ x y, SameInput x y → key x = key y)
    (p : List Process) (hv : ValidInput p) (hno : NoOverflow p) (fuel : Nat) :
    selLoop key p.length fuel (selInit p) = Ideal.selLoop key p.length fuel (selInit p) :=
  sel_eq_ideal key hkey p hv.2.1 (fun i hi => (hv.2.2 i hi).1.1)
    (fun i hi => le_of_lt (hv.2.2 i hi).2.1.1) hno fuel

theorem sel_record (key : Process → Int) (p : List Process)
    (hkey : ∀ x y, SameInput x y → key x = key y) (hv : ValidInput p) (hno : NoOverflow p)
    (fuel : Nat) (r : SelState) (hr : selLoop key p.length fuel (selInit p) = some r)
    (i : Nat) (hi : i < p.length) :
    NonNegWait (rd r.p i) ∧ Conserved (rd r.p i) := by
  rw [sel_ideal_run key hkey p hv hno fuel] at hr
  exact Ideal.sel_record_ideal key p hkey (validInput_ideal hv) fuel r hr i hi

theorem sel_schedule (key : Process → Int) (p : List Process)
    (hkey : ∀ x y, SameInput x y → key x = key y) (hv : ValidInput p) (hno : NoOverflow p)
    (fuel : Nat) (r : SelState) (hr : selLoop key p.length fuel (selInit p) = some r)
    (i : Nat) (hi : i < p.length) :
    (rd r.p i).arrival_time ≤ (rd r.p i).completion_time - (rd r.p i).burst_time ∧
    ∀ j, j < p.length → j ≠ i →
      ((rd r.p j).completion_time ≤ (rd r.p i).completion_time - (rd r.p i).burst_time ∨
        (rd r.p i).completion_time ≤ (rd r.p j).completion_time - (rd r.p j).burst_time) ∧
      ((rd r.p j).arrival_time ≤ (rd r.p i).completion_time - (rd r.p i).burst_time →
        (rd r.p i).completion_time < (rd r.p j).completion_time →
        key (rd r.p i) ≤ key (rd r.p j) ∧ (key (rd r.p i) = key (rd r.p j) → i < j)) := by
  rw [sel_ideal_run key hkey p hv hno fuel] at hr
  exact Ideal.sel_schedule_ideal key p hkey (validInput_ideal hv) fuel r hr i hi

theorem rr_record (q : Int) (hq : 0 < q) (p : List Process) (hv : ValidProcesses p)
    (hno : NoOverflow p)
    (fuel : Nat) (r : RRState) (hr : rrLoop q p.length fuel (rrInit p) = some r)
    (i : Nat) (hi : i < p.length) :
    NonNegWait (rd r.p i) ∧ Conserved (rd r.p i) := by
  rw [rr_eq_ideal q hq p (validProcesses_ideal hv) hno fuel] at hr
  exact Ideal.rr_record_ideal q hq p (validProcesses_ideal hv) fuel r hr i hi

/-! ## Facts that hold with or without overflow -/

theorem sel_descr (key : Process → Int) (p : List Process) (hn : p.length ≤ MAX_PROCESSES)
    (fuel : Nat) (r : SelState) (hr : selLoop key p.length fuel (selInit p) = some r) :
    r.p.length = p.length ∧ r.p.map Process.descr = p.map Process.descr ∧
    ∀ i, i < p.length → (rd r.p i).pid = (rd p i).pid := by
  obtain ⟨hinv, _⟩ := selLoop_base key p hn fuel _ r (selBase_init p) hr
  refine ⟨hinv.len, map_eq_of_rd _ _ _ hinv.len (fun i hi => ?_), fun i hi => (hinv.same i hi).1⟩
  rw [hinv.len] at hi
  exact (hinv.same i hi).descr_eq

theorem rr_valid_result (q : Int) (hq : 0 < q) (p : List Process) (hv : ValidProcesses p)
    (fuel : Nat) (r : RRState) (hr : rrLoop q p.length fuel (rrInit p) = some r) :
    RRBase p r ∧ ∀ i, i < p.length → (rd r.p i).remaining_time = 0 :=
  rr_result q hq p (fun i hi => (hv.2 i hi).2.1.1) (fun i hi => (hv.2 i hi).2.2)
    (fun i hi => (hv.2 i hi).1.2) fuel r hr

theorem rr_valid_terminates (q : Int) (hq : 0 < q) (p : List Process)
    (hv : ValidProcesses p) : ∃ fuel r, rrLoop q p.length fuel (rrInit p) = some r :=
  rr_terminates q hq p (fun i hi => (hv.2 i hi).2.1.1) (fun i hi => (hv.2 i hi).2.2)
    (fun i hi => (hv.2 i hi).1.2)

theorem rr_descr (q : Int) (hq : 0 < q) (p : List Process) (hv : ValidProcesses p)
    (fuel : Nat) (r : RRState) (hr : rrLoop q p.length fuel (rrInit p) = some r) :
    r.p.length = p.length ∧ r.p.map Process.descr = p.map Process.descr := by
  obtain ⟨hinv, _⟩ := rr_valid_result q hq p hv fuel r hr
  refine ⟨hinv.len, map_eq_of_rd _ _ _ hinv.len (fun i hi => ?_)⟩
  rw [hinv.len] at hi
  obtain ⟨h1, h2, h3, h4⟩ := hinv.same i hi
  simp [Process.descr, h1, h2, h3, h4]

/-- The completion times of Round Robin never exceed the largest arrival time plus the
sum of the bursts: when that bound fits in an `int` the run is the run over `ℤ`, and
otherwise the bound exceeds every `int`. -/
theorem rr_completion_bound (q : Int) (hq : 0 < q) (p : List Process)
    (hv : ValidProcesses p) (k : Nat)
    (hmx : ∀ j, j < p.length → (rd p j).arrival_time ≤ (rd p k).arrival_time)
    (fuel : Nat) (r : RRState) (hr : rrLoop q p.length fuel (rrInit p) = some r)
    (i : Nat) (hi : i < p.length) :
    (rd r.p i).completion_time ≤ (rd p k).arrival_time + totalBurst p := by
  by_cases hle : (rd p k).arrival_time + totalBurst p ≤ INT_MAX
  · have hno : NoOverflow p := fun j hj => le_trans (by have := hmx j hj; omega) hle
    rw [rr_eq_ideal q hq p (validProcesses_ideal hv) hno fuel] at hr
    exact (Ideal.rr_completion_bound_ideal q hq p (validProcesses_ideal hv) _ hmx fuel r hr i hi).2
  · obtain ⟨hinv, hall⟩ := rr_valid_result q hq p hv fuel r hr
    have := (hinv.done i hi (hall i hi)).1.2
    omega

/-- When the largest arrival time plus the sum of the bursts fits in an `int`, any fuel
above that bound makes `round_robin` return. -/
theorem rr_fuel_bound (q : Int) (hq : 0 < q) (p : List Process)
    (hv : ValidProcesses p) (k : Nat)
    (hmx : ∀ j, j < p.length → (rd p j).arrival_time ≤ (rd p k).arrival_time)
    (hle : (rd p k).arrival_time + totalBurst p ≤ INT_MAX)
    (fuel : Nat) (hf : (rd p k).arrival_time + totalBurst p < fuel) :
    ∃ r, rrLoop q p.length fuel (rrInit p) = some r := by
  have hno : NoOverflow p := fun j hj => le_trans (by have := hmx j hj; omega) hle
  rw [rr_eq_ideal q hq p (validProcesses_ideal hv) hno fuel]
  exact Ideal.rr_terminates_ideal q hq p (validProcesses_ideal hv) _ hmx fuel hf

/-- Every record written by the selection loop has what `selExec` writes: if a property
holds of every record with the three timing fields computed from some clock value, it
holds of every record of the result. -/
theorem selLoop_written (key : Process → Int) (p0 : List Process)
    (hn : p0.length ≤ MAX_PROCESSES) (P : Process → Prop)
    (hP : ∀ (x : Process) (ct : Int),
      P { x with
        completion_time := wrap (ct + x.burst_time)
        turnaround_time := wrap (wrap (ct + x.burst_time) - x.arrival_time)
        waiting_time := wrap (wrap (wrap (ct + x.burst_time) - x.arrival_time)
          - x.burst_time) })
    (fuel : Nat) (s r : SelState) (h : SelBase p0 s)
    (hc : ∀ i, i < p0.length → flag s.is_completed i = true → P (rd s.p i))
    (hr : selLoop key p0.length fuel s = some r) :
    ∀ i, i < p0.length → P (rd r.p i) := by
  induction fuel generalizing s with
  | zero => simp [selLoop] at hr
  | succ k ih =>
    simp only [selLoop] at hr
    by_cases hcn : s.completed = p0.length
    · simp only [hcn, if_true, Option.some.injEq] at hr
      subst hr
      intro i hi
      have hfull := doneCount_full _ _ (hcn ▸ h.count).symm
      exact hc i hi (hfull i hi)
    · simp only [hcn, if_false] at hr
      cases hsc : selScan key p0.length s.p s.current_time s.is_completed with
      | none =>
        rw [hsc] at hr
        exact ih { s with current_time := wrap (s.current_time + 1) }
          (selBase_clock p0 s h _) hc hr
      | some idx =>
        rw [hsc] at hr
        simp only at hr
        obtain ⟨hidx, hel, _⟩ := (selScan_spec key _ s.p s.current_time s.is_completed).2 idx hsc
        refine ih _ (selBase_exec p0 s idx hn h hidx hel.2) (fun i hi hf => ?_) hr
        have hip : idx < s.p.length := by rw [h.len]; exact hidx
        by_cases e : i = idx
        · subst e
          show P (rd (s.p.set i _) i)
          rw [rd_set_eq _ _ _ hip]
          exact hP (rd s.p i) s.current_time
        · show P (rd (s.p.set idx _) i)
          rw [rd_set_ne _ _ _ _ (fun e' => e e'.symm)]
          have hf' : flag (s.is_completed.set idx true) i = true := hf
          rw [flag_set_ne _ _ _ _ (fun e' => e e'.symm)] at hf'
          exact hc i hi hf'

/-- In every array returned by the selection loop the completion times are `int` values
and the other two timing fields are computed from them by `int` subtractions. -/
theorem sel_written (key : Process → Int) (p : List Process)
    (hn : p.length ≤ MAX_PROCESSES) (fuel : Nat) (r : SelState)
    (hr : selLoop key p.length fuel (selInit p) = some r) (i : Nat) (hi : i < p.length) :
    (rd r.p i).completion_time ≤ INT_MAX ∧ WrapConserved (rd r.p i) :=
  selLoop_written key p hn
    (fun x => x.completion_time ≤ INT_MAX ∧ WrapConserved x)
    (fun _ _ => ⟨(wrap_range _).2, rfl, rfl⟩) fuel _ r (selBase_init p)
    (fun j _ hf => by
      have hf' : flag (List.replicate MAX_PROCESSES false) j = true := hf
      rw [flag_replicate] at hf'
      exact absurd hf' (by decide)) hr i hi

/-- The completion times of `sjf` and `priority_scheduling` never exceed the largest
arrival time plus the sum of the bursts, when the compared fields are below the sentinel:
when that bound fits in an `int` the run is the run over `ℤ`, and otherwise the bound
exceeds every `int`. -/
theorem sel_completion_bound (key : Process → Int)
    (hkey : ∀ x y, SameInput x y → key x = key y) (p : List Process) (hv : ValidInput p)
    (hlt : ∀ i, i < p.length → key (rd p i) < 99999) (k : Nat)
    (hmx : ∀ j, j < p.length → (rd p j).arrival_time ≤ (rd p k).arrival_time)
    (fuel : Nat) (r : SelState)
    (hr : selLoop key p.length fuel (selInit p) = some r) (i : Nat) (hi : i < p.length) :
    (rd r.p i).completion_time ≤ (rd p k).arrival_time + totalBurst p := by
  by_cases hle : (rd p k).arrival_time + totalBurst p ≤ INT_MAX
  · have hno : NoOverflow p := fun j hj => le_trans (by have := hmx j hj; omega) hle
    rw [sel_ideal_run key hkey p hv hno fuel] at hr
    exact Ideal.sel_completion_bound_ideal key hkey p (validInput_ideal hv) hlt _ hmx fuel r hr i hi
  · have := (sel_written key p hv.2.1 fuel r hr i hi).1
    omega

/-- In the array returned by `fcfs` the other two timing fields are computed from the
completion time by `int` subtractions. -/
theorem fcfs_written (p : List Process) (i : Nat) (hi : i < p.length) :
    WrapConserved (rd (fcfs p) i) :=
  ⟨((fcfs_fields p).2 i hi).2.2.1, ((fcfs_fields p).2 i hi).2.2.2⟩

/-- In every array returned by Round Robin on a valid array the other two timing fields
are computed from the completion time by `int` subtractions. -/
theorem rr_written (q : Int) (hq : 0 < q) (p : List Process) (hv : ValidProcesses p)
    (fuel : Nat) (r : RRState) (hr : rrLoop q p.length fuel (rrInit p) = some r)
    (i : Nat) (hi : i < p.length) : WrapConserved (rd r.p i) := by
  obtain ⟨hinv, hall⟩ := rr_valid_result q hq p hv fuel r hr
  obtain ⟨_, sa, sb, _⟩ := hinv.same i hi
  obtain ⟨_, ht, hw⟩ := hinv.done i hi (hall i hi)
  exact ⟨by rw [ht, sa], by rw [hw, sb]⟩

/-- Below the sentinel the selection loop does what C11 claims, wraparound included: on a
valid input whose compared fields are all smaller than 99999 it returns, and no
completion time exceeds the largest arrival time plus the sum of the bursts. -/
theorem sel_terminates_below_sentinel (key : Process → Int)
    (hkey : ∀ x y, SameInput x y → key x = key y) (p : List Process) (hv : ValidInput p)
    (hlt : ∀ i, i < p.length → key (rd p i) < 99999) (k : Nat)
    (hk : ∀ j, j < p.length → (rd p j).arrival_time ≤ (rd p k).arrival_time) :
    (∃ fuel r, selLoop key p.length fuel (selInit p) = some r) ∧
    (∀ fuel r, selLoop key p.length fuel (selInit p) = some r → ∀ i, i < p.length →
      (rd r.p i).completion_time ≤ (rd p k).arrival_time + totalBurst p) :=
  ⟨sel_terminates key hkey p hv.2.1 hlt (fun i hi => (hv.2.2 i hi).1.2),
    fun fuel r hr i hi => sel_completion_bound key hkey p hv hlt k hk fuel r hr i hi⟩

/-! ## Round Robin on a single process whose run overflows

The process arrives at time 1 with burst `INT_MAX`.  After the idle tick the clock plus the
remaining time stays `2^31`, so no slice overflows except the last one, which brings the
clock to `INT_MIN`. -/

theorem rr_single_pass (q : Int) (hq : 0 < q) (s : RRState)
    (hl : s.p.length = 1)
    (ha : (rd s.p 0).arrival_time = 1 ∧ (rd s.p 0).burst_time = 2147483647)
    (hp : 0 < (rd s.p 0).remaining_time) (hc : s.completed = 0)
    (h : (s.current_time = 0 ∧ (rd s.p 0).remaining_time = 2147483647) ∨
      (1 ≤ s.current_time ∧ s.current_time + (rd s.p 0).remaining_time = 2147483648)) :
    (rrPass q 1 s).p.length = 1 ∧
    (((rrPass q 1 s).completed = 1 ∧
        (rd (rrPass q 1 s).p 0).completion_time = -2147483648 ∧
        (rd (rrPass q 1 s).p 0).turnaround_time = 2147483647 ∧
        (rd (rrPass q 1 s).p 0).waiting_time = 0) ∨
      (((rd (rrPass q 1 s).p 0).arrival_time = 1 ∧
          (rd (rrPass q 1 s).p 0).burst_time = 2147483647) ∧
        0 < (rd (rrPass q 1 s).p 0).remaining_time ∧
        (rrPass q 1 s).completed = 0 ∧
        (((rrPass q 1 s).current_time = 0 ∧
            (rd (rrPass q 1 s).p 0).remaining_time = 2147483647) ∨
          (1 ≤ (rrPass q 1 s).current_time ∧
            (rrPass q 1 s).current_time + (rd (rrPass q 1 s).p 0).remaining_time
              = 2147483648)))) := by
  have e : rrPass q 1 s =
      if (rrStep q { s with did_something := false } 0).did_something = false then
        { rrStep q { s with did_something := false } 0 with
          current_time := wrap ((rrStep q { s with did_something := false } 0).current_time + 1) }
      else rrStep q { s with did_something := false } 0 := rfl
  have h0 : 0 < s.p.length := by omega
  rw [e]
  rcases rrStep_cases q { s with did_something := false } 0 with
    ⟨hne, e1⟩ | ⟨⟨harr, _⟩, hgt, e1⟩ | ⟨⟨harr, _⟩, hle, e1⟩
  · rw [e1]
    simp only [if_true]
    have hne' : ¬ ((rd s.p 0).arrival_time ≤ s.current_time ∧ (rd s.p 0).remaining_time > 0) :=
      hne
    have hct : s.current_time = 0 ∧ (rd s.p 0).remaining_time = 2147483647 := by
      rcases h with h | h
      · exact h
      · exact absurd ⟨by omega, hp⟩ hne'
    refine ⟨hl, Or.inr ⟨ha, hp, hc, Or.inr ?_⟩⟩
    show 1 ≤ wrap (s.current_time + 1) ∧ wrap (s.current_time + 1) + (rd s.p 0).remaining_time
      = 2147483648
    rw [hct.1, hct.2]
    decide
  · rw [e1]
    simp only [Bool.true_eq_false, if_false]
    have harr' : (rd s.p 0).arrival_time ≤ s.current_time := harr
    have hgt' : (rd s.p 0).remaining_time > q := hgt
    have hsum : 1 ≤ s.current_time ∧ s.current_time + (rd s.p 0).remaining_time = 2147483648 := by
      rcases h with h | h
      · omega
      · exact h
    have hw : wrap (s.current_time + q) = s.current_time + q :=
      wrap_eq _ (by unfold INT_MIN; omega) (by unfold INT_MAX; omega)
    refine ⟨by simp [hl], Or.inr ?_⟩
    show ((rd (s.p.set 0 _) 0).arrival_time = 1 ∧
        (rd (s.p.set 0 _) 0).burst_time = 2147483647) ∧
      0 < (rd (s.p.set 0 _) 0).remaining_time ∧
      s.completed = 0 ∧
      ((wrap (s.current_time + q) = 0 ∧ (rd (s.p.set 0 _) 0).remaining_time = 2147483647) ∨
        (1 ≤ wrap (s.current_time + q) ∧
          wrap (s.current_time + q) + (rd (s.p.set 0 _) 0).remaining_time = 2147483648))
    rw [rd_set_eq _ _ _ h0, hw]
    refine ⟨ha, ?_, hc, Or.inr ⟨by omega, ?_⟩⟩
    · show 0 < (rd s.p 0).remaining_time - q
      omega
    · show s.current_time + q + ((rd s.p 0).remaining_time - q) = 2147483648
      omega
  · rw [e1]
    simp only [Bool.true_eq_false, if_false]
    have harr' : (rd s.p 0).arrival_time ≤ s.current_time := harr
    have hsum : s.current_time + (rd s.p 0).remaining_time = 2147483648 := by
      rcases h with h | h
      · omega
      · exact h.2
    refine ⟨by simp [hl], Or.inl ⟨?_, ?_⟩⟩
    · show s.completed + 1 = 1
      omega
    · show (rd (s.p.set 0 _) 0).completion_time = -2147483648 ∧
        (rd (s.p.set 0 _) 0).turnaround_time = 2147483647 ∧
        (rd (s.p.set 0 _) 0).waiting_time = 0
      rw [rd_set_eq _ _ _ h0]
      show wrap (s.current_time + (rd s.p 0).remaining_time) = -2147483648 ∧
        wrap (wrap (s.current_time + (rd s.p 0).remaining_time) - (rd s.p 0).arrival_time)
          = 2147483647 ∧
        wrap (wrap (wrap (s.current_time + (rd s.p 0).remaining_time)
          - (rd s.p 0).arrival_time) - (rd s.p 0).burst_time) = 0
      rw [hsum, ha.1, ha.2]
      decide

theorem rr_single_loop (q : Int) (hq : 0 < q) (fuel : Nat) (s r : RRState)
    (hl : s.p.length = 1)
    (h : (s.completed = 1 ∧ (rd s.p 0).completion_time = -2147483648 ∧
        (rd s.p 0).turnaround_time = 2147483647 ∧ (rd s.p 0).waiting_time = 0) ∨
      (((rd s.p 0).arrival_time = 1 ∧ (rd s.p 0).burst_time = 2147483647) ∧
        0 < (rd s.p 0).remaining_time ∧ s.completed = 0 ∧
        ((s.current_time = 0 ∧ (rd s.p 0).remaining_time = 2147483647) ∨
          (1 ≤ s.current_time ∧
            s.current_time + (rd s.p 0).remaining_time = 2147483648))))
    (hr : rrLoop q 1 fuel s = some r) :
    (rd r.p 0).completion_time = -2147483648 ∧
    (rd r.p 0).turnaround_time = 2147483647 ∧ (rd r.p 0).waiting_time = 0 := by
  induction fuel generalizing s with
  | zero => simp [rrLoop] at hr
  | succ k ih =>
    simp only [rrLoop] at hr
    rcases h with ⟨hc, hd⟩ | ⟨ha, hp, hc, hh⟩
    · simp only [hc, if_true, Option.some.injEq] at hr
      rw [← hr]
      exact hd
    · rw [if_neg (by omega)] at hr
      obtain ⟨hl', h'⟩ := rr_single_pass q hq s hl ha hp hc hh
      exact ih _ hl' h' hr

/-- With any positive quantum, every finishing run of Round Robin on the single process
(arrival 1, burst `INT_MAX`) completes it at `INT_MIN`, with turnaround time `INT_MAX` and
waiting time 0. -/
theorem rr_single_wraps (q : Int) (hq : 0 < q) (pr : Int) (fuel : Nat) (r : List Process)
    (hr : round_robin_q q fuel [mkProc 0 1 2147483647 pr] = some r) :
    (rd r 0).completion_time = -2147483648 ∧
    (rd r 0).turnaround_time = 2147483647 ∧ (rd r 0).waiting_time = 0 := by
  obtain ⟨s, hs, rfl⟩ := rr_some q fuel _ r hr
  have hp : 0 < (rd (rrInit [mkProc 0 1 2147483647 pr]).p 0).remaining_time := by
    show (0 : Int) < 2147483647
    decide
  exact rr_single_loop q hq fuel (rrInit [mkProc 0 1 2147483647 pr]) s rfl
    (Or.inr ⟨⟨rfl, rfl⟩, hp, rfl, Or.inl ⟨rfl, rfl⟩⟩) hs

/-! ## The selection loop on a single process that arrives at `INT_MAX`

The loop ticks up to `INT_MAX` without overflow, then runs the process, and the clock
wraps to `INT_MIN`. -/

theorem sel_single_loop (key : Process → Int) (fuel : Nat) (s r : SelState)
    (hl : s.p.length = 1)
    (h : (s.completed = 1 ∧ (rd s.p 0).completion_time = -2147483648 ∧
        (rd s.p 0).turnaround_time = 1 ∧ (rd s.p 0).waiting_time = 0) ∨
      (s.completed = 0 ∧ flag s.is_completed 0 = false ∧
        (rd s.p 0).arrival_time = 2147483647 ∧ (rd s.p 0).burst_time = 1 ∧
        key (rd s.p 0) < 99999 ∧ 0 ≤ s.current_time ∧ s.current_time ≤ 2147483647))
    (hr : selLoop key 1 fuel s = some r) :
    (rd r.p 0).completion_time = -2147483648 ∧
    (rd r.p 0).turnaround_time = 1 ∧ (rd r.p 0).waiting_time = 0 := by
  induction fuel generalizing s with
  | zero => simp [selLoop] at hr
  | succ k ih =>
    simp only [selLoop] at hr
    rcases h with ⟨hc, hd⟩ | ⟨hc, hf, ha, hb, hk, h0, h1⟩
    · simp only [hc, if_true, Option.some.injEq] at hr
      rw [← hr]
      exact hd
    · rw [if_neg (by omega)] at hr
      have h0l : 0 < s.p.length := by omega
      cases hsc : selScan key 1 s.p s.current_time s.is_completed with
      | none =>
        rw [hsc] at hr
        simp only at hr
        have hne : ¬ Eligible s.p s.current_time s.is_completed 0 := fun he => by
          have := (selScan_spec key 1 s.p s.current_time s.is_completed).1 hsc 0 (by decide) he
          omega
        have hlt : s.current_time < 2147483647 := by
          by_contra hge
          exact hne ⟨by omega, hf⟩
        have hw : wrap (s.current_time + 1) = s.current_time + 1 :=
          wrap_eq _ (by unfold INT_MIN; omega) (by unfold INT_MAX; omega)
        refine ih { s with current_time := wrap (s.current_time + 1) } hl (Or.inr ?_) hr
        refine ⟨hc, hf, ha, hb, hk, ?_, ?_⟩
        · show 0 ≤ wrap (s.current_time + 1)
          omega
        · show wrap (s.current_time + 1) ≤ 2147483647
          omega
      | some idx =>
        rw [hsc] at hr
        simp only at hr
        obtain ⟨hidx, ⟨harr, _⟩, _⟩ :=
          (selScan_spec key 1 s.p s.current_time s.is_completed).2 idx hsc
        have hi0 : idx = 0 := by omega
        subst hi0
        have hct : s.current_time = 2147483647 := by omega
        refine ih (selExec s 0) (by simp [selExec, hl]) (Or.inl ⟨?_, ?_⟩) hr
        · show s.completed + 1 = 1
          omega
        · show (rd (s.p.set 0 _) 0).completion_time = -2147483648 ∧
            (rd (s.p.set 0 _) 0).turnaround_time = 1 ∧ (rd (s.p.set 0 _) 0).waiting_time = 0
          rw [rd_set_eq _ _ _ h0l]
          show wrap (s.current_time + (rd s.p 0).burst_time) = -2147483648 ∧
            wrap (wrap (s.current_time + (rd s.p 0).burst_time) - (rd s.p 0).arrival_time)
              = 1 ∧
            wrap (wrap (wrap (s.current_time + (rd s.p 0).burst_time)
              - (rd s.p 0).arrival_time) - (rd s.p 0).burst_time) = 0
          rw [hct, hb, ha]
          decide

/-- Every finishing run of the selection loop on the single process (arrival `INT_MAX`,
burst 1) completes it at `INT_MIN`, with turnaround time 1 and waiting time 0. -/
theorem sel_single_wraps (key : Process → Int) (pr : Int)
    (hk : key (mkProc 0 2147483647 1 pr) < 99999) (fuel : Nat) (r : SelState)
    (hr : selLoop key 1 fuel (selInit [mkProc 0 2147483647 1 pr]) = some r) :
    (rd r.p 0).completion_time = -2147483648 ∧
    (rd r.p 0).turnaround_time = 1 ∧ (rd r.p 0).waiting_time = 0 :=
  sel_single_loop key fuel (selInit [mkProc 0 2147483647 1 pr]) r rfl
    (Or.inr ⟨rfl, flag_replicate 0, rfl, rfl, hk, le_refl _, by
      show (0 : Int) ≤ 2147483647
      decide⟩) hr

/-! ## Unfolding `round_robin` -/

theorem round_robin_q_eq (q : Int) (fuel : Nat) (p : List Process) :
    round_robin_q q fuel p = (rrLoop q p.length fuel (rrInit p)).map RRState.p := rfl

theorem round_robin_eq (fuel : Nat) (p : List Process) :
    round_robin fuel p = (rrLoop TIME_QUANTUM p.length fuel (rrInit p)).map RRState.p := rfl

/-! # The claims -/

/-! ## C1: waiting and turnaround times are non-negative -/

/-- C1 as stated fails when the clock overflows.  On the valid input P1 (arrival 0,
burst 2147483647), P2 (arrival 0, burst 1) `fcfs` completes P2 at -2147483648, with
turnaround time -2147483648 (below its burst) and waiting time 2147483647, and
`priority_scheduling` gives P2 the same turnaround time.  On the valid input of one process
(arrival 2147483647, burst 1) `sjf` finishes with completion time -2147483648, and on the
valid input of one process (arrival 1, burst 2147483647) so does `round_robin`: both
completion times are below `arrival_time + burst_time`. -/
theorem waiting_time_overflow :
    ValidInput [mkProc 0 0 2147483647 1, mkProc 1 0 1 1] ∧
    (fcfs [mkProc 0 0 2147483647 1, mkProc 1 0 1 1]).map Process.completion_time
      = [2147483647, -2147483648] ∧
    (fcfs [mkProc 0 0 2147483647 1, mkProc 1 0 1 1]).map Process.turnaround_time
      = [2147483647, -2147483648] ∧
    (fcfs [mkProc 0 0 2147483647 1, mkProc 1 0 1 1]).map Process.waiting_time
      = [0, 2147483647] ∧
    (rd (fcfs [mkProc 0 0 2147483647 1, mkProc 1 0 1 1]) 1).turnaround_time <
      (rd (fcfs [mkProc 0 0 2147483647 1, mkProc 1 0 1 1]) 1).burst_time ∧
    (priority_scheduling 3 [mkProc 0 0 2147483647 1, mkProc 1 0 1 1]).map
      (List.map Process.turnaround_time) = some [2147483647, -2147483648] ∧
    ValidInput [mkProc 0 2147483647 1 1] ∧
    (∃ fuel r, sjf fuel [mkProc 0 2147483647 1 1] = some r) ∧
    (∀ fuel r, sjf fuel [mkProc 0 2147483647 1 1] = some r →
      (rd r 0).completion_time = -2147483648 ∧ ¬ NonNegWait (rd r 0)) ∧
    ValidInput [mkProc 0 1 2147483647 1] ∧
    (∃ fuel r, round_robin fuel [mkProc 0 1 2147483647 1] = some r) ∧
    (∀ fuel r, round_robin fuel [mkProc 0 1 2147483647 1] = some r →
      (rd r 0).completion_time = -2147483648 ∧ ¬ NonNegWait (rd r 0)) := by
  refine ⟨by decide, by decide, by decide, by decide, by decide, by decide, by decide,
    ?_, ?_, by decide, ?_, ?_⟩
  · obtain ⟨fuel, r, hr⟩ := sel_terminates Process.burst_time hkey_burst
      [mkProc 0 2147483647 1 1] (by decide) (by decide) (by decide)
    exact ⟨fuel, r.p, by rw [sjf_eq, hr]; rfl⟩
  · intro fuel r hr
    obtain ⟨s, hs, rfl⟩ := sjf_some fuel _ r hr
    have hc := (sel_single_wraps Process.burst_time 1 (by decide) fuel s hs).1
    obtain ⟨hinv, _⟩ := selLoop_base Process.burst_time [mkProc 0 2147483647 1 1]
      (by decide) fuel _ s (selBase_init _) hs
    obtain ⟨_, sa, sb, _⟩ := hinv.same 0 (by decide)
    refine ⟨hc, fun hw => ?_⟩
    have h3 := hw.2.2
    rw [hc, sa, sb] at h3
    exact absurd h3 (by decide)
  · obtain ⟨fuel, r, hr⟩ := rr_valid_terminates TIME_QUANTUM TIME_QUANTUM_pos
      [mkProc 0 1 2147483647 1] (by decide)
    exact ⟨fuel, r.p, by rw [round_robin_eq, hr]; rfl⟩
  · intro fuel r hr
    have hc := (rr_single_wraps TIME_QUANTUM TIME_QUANTUM_pos 1 fuel r hr).1
    obtain ⟨s, hs, rfl⟩ := rr_some _ fuel _ r hr
    obtain ⟨hinv, _⟩ := rr_valid_result TIME_QUANTUM TIME_QUANTUM_pos
      [mkProc 0 1 2147483647 1] (by decide) fuel s hs
    obtain ⟨_, sa, sb, _⟩ := hinv.same 0 (by decide)
    refine ⟨hc, fun hw => ?_⟩
    have h3 := hw.2.2
    rw [hc, sa, sb] at h3
    exact absurd h3 (by decide)

/-- C1 (amended): on every valid input whose largest `arrival_time` plus the sum of its
`burst_time`s is at most `INT_MAX`, every process in the array returned by `fcfs`, and in
the array returned by any finishing run of `sjf`, `round_robin` and
`priority_scheduling`, has `waiting_time ≥ 0`, `turnaround_time ≥ burst_time` and
`completion_time ≥ arrival_time + burst_time`. -/
theorem waiting_time_nonneg (p : List Process) (hv : ValidInput p) (hno : NoOverflow p) :
    (∀ i, i < p.length → NonNegWait (rd (fcfs p) i)) ∧
    (∀ fuel r, sjf fuel p = some r → ∀ i, i < p.length → NonNegWait (rd r i)) ∧
    (∀ fuel r, round_robin fuel p = some r → ∀ i, i < p.length → NonNegWait (rd r i)) ∧
    (∀ fuel r, priority_scheduling fuel p = some r →
      ∀ i, i < p.length → NonNegWait (rd r i)) := by
  refine ⟨fun i hi => (fcfs_record p (fun k hk => (hv.2.2 k hk).1.1)
    (fun k hk => le_of_lt (hv.2.2 k hk).2.1.1) hno i hi).1, ?_, ?_, ?_⟩
  · intro fuel r hr i hi
    obtain ⟨s, hs, rfl⟩ := sjf_some fuel p r hr
    exact (sel_record _ p hkey_burst hv hno fuel s hs i hi).1
  · intro fuel r hr i hi
    obtain ⟨s, hs, rfl⟩ := rr_some _ fuel p r hr
    exact (rr_record _ TIME_QUANTUM_pos p hv.procs hno fuel s hs i hi).1
  · intro fuel r hr i hi
    obtain ⟨s, hs, rfl⟩ := priority_some fuel p r hr
    exact (sel_record _ p hkey_priority hv hno fuel s hs i hi).1

theorem waiting_time_nonneg_witness :
    ValidInput [mkProc 0 3 10 2, mkProc 1 0 5 1] ∧
    NoOverflow [mkProc 0 3 10 2, mkProc 1 0 5 1] ∧
    NonNegWait (rd (fcfs [mkProc 0 3 10 2, mkProc 1 0 5 1]) 1) ∧
    ((sjf 3 [mkProc 0 3 10 2, mkProc 1 0 5 1]).isSome = true ∧
      ∀ r, sjf 3 [mkProc 0 3 10 2, mkProc 1 0 5 1] = some r → NonNegWait (rd r 1)) ∧
    ((round_robin 5 [mkProc 0 3 10 2, mkProc 1 0 5 1]).isSome = true ∧
      ∀ r, round_robin 5 [mkProc 0 3 10 2, mkProc 1 0 5 1] = some r →
        NonNegWait (rd r 1)) ∧
    ((priority_scheduling 3 [mkProc 0 3 10 2, mkProc 1 0 5 1]).isSome = true ∧
      ∀ r, priority_scheduling 3 [mkProc 0 3 10 2, mkProc 1 0 5 1] = some r →
        NonNegWait (rd r 1)) :=
  have h := waiting_time_nonneg [mkProc 0 3 10 2, mkProc 1 0 5 1] (by decide) (by decide)
  ⟨by decide, by decide, h.1 1 (by decide),
    ⟨by decide, fun r hr => h.2.1 3 r hr 1 (by decide)⟩,
    ⟨by decide, fun r hr => h.2.2.1 5 r hr 1 (by decide)⟩,
    ⟨by decide, fun r hr => h.2.2.2 3 r hr 1 (by decide)⟩⟩

/-! ## C2: one record per process -/

/-- C2 fails on the code for `sjf` and `priority_scheduling`, which return no array at all
on a valid input holding a `burst_time` (resp. `priority`) of 99999 or more.  What holds
on every valid input: `fcfs` returns a permutation of the input as far as `pid`,
`arrival_time`, `burst_time`, `priority` are concerned, so no pid is omitted or
duplicated; `round_robin` returns; `sjf` returns when every `burst_time` is below 99999
and returns for no fuel otherwise, and likewise `priority_scheduling` with `priority`;
every array returned by `sjf`, `round_robin` or `priority_scheduling` has the four input
fields unchanged at every index.  In every case all timing fields of all `n` records are
written by the run: the returned array is the same whatever `completion_time`,
`turnaround_time`, `waiting_time` the input records held on entry. -/
theorem one_record_per_process (p : List Process) (hv : ValidInput p) :
    ((fcfs p).length = p.length ∧
      ((fcfs p).map Process.descr).Perm (p.map Process.descr) ∧
      ((fcfs p).map Process.pid).Perm (p.map Process.pid) ∧
      ∀ m, SameInputs p m → fcfs m = fcfs p) ∧
    ((∃ fuel r, round_robin fuel p = some r) ∧
      ∀ fuel r, round_robin fuel p = some r →
        r.length = p.length ∧ r.map Process.descr = p.map Process.descr ∧
        ∀ m, SameInputs p m → round_robin fuel m = some r) ∧
    (((∀ i, i < p.length → (rd p i).burst_time < 99999) →
        ∃ fuel r, sjf fuel p = some r) ∧
      ((∃ i, i < p.length ∧ 99999 ≤ (rd p i).burst_time) → ∀ fuel, sjf fuel p = none) ∧
      ∀ fuel r, sjf fuel p = some r →
        r.length = p.length ∧ r.map Process.descr = p.map Process.descr ∧
        ∀ m, SameInputs p m → sjf fuel m = some r) ∧
    (((∀ i, i < p.length → (rd p i).priority < 99999) →
        ∃ fuel r, priority_scheduling fuel p = some r) ∧
      ((∃ i, i < p.length ∧ 99999 ≤ (rd p i).priority) →
        ∀ fuel, priority_scheduling fuel p = none) ∧
      ∀ fuel r, priority_scheduling fuel p = some r →
        r.length = p.length ∧ r.map Process.descr = p.map Process.descr ∧
        ∀ m, SameInputs p m → priority_scheduling fuel m = some r) := by
  have hperm : ((fcfs p).map Process.descr).Perm (p.map Process.descr) := by
    rw [fcfs_map_descr]
    exact (fcfsSort_perm_filter p).2.1.map _
  have ha : ∀ i, i < p.length → (rd p i).arrival_time ≤ INT_MAX :=
    fun i hi => (hv.2.2 i hi).1.2
  refine ⟨⟨(fcfs_fields p).1, hperm, ?_, fun m hm => fcfs_independent p m hm⟩,
    ⟨?_, ?_⟩, ⟨?_, ?_, ?_⟩, ⟨?_, ?_, ?_⟩⟩
  · rw [map_pid_eq, map_pid_eq]
    exact hperm.map _
  · obtain ⟨fuel, r, hr⟩ := rr_valid_terminates TIME_QUANTUM TIME_QUANTUM_pos p hv.procs
    exact ⟨fuel, r.p, by rw [round_robin_eq, hr]; rfl⟩
  · intro fuel r hr
    obtain ⟨s, hs, rfl⟩ := rr_some _ fuel p r hr
    obtain ⟨h1, h2⟩ := rr_descr _ TIME_QUANTUM_pos p hv.procs fuel s hs
    exact ⟨h1, h2, fun m hm => rr_independent_gen _ p m hm fuel s hs⟩
  · intro hlt
    obtain ⟨fuel, r, hr⟩ := sel_terminates _ hkey_burst p hv.2.1 hlt ha
    exact ⟨fuel, r.p, by rw [sjf_eq, hr]; rfl⟩
  · rintro ⟨i, hi, hbig⟩ fuel
    rw [sjf_eq, sel_never_returns _ hkey_burst p hv.2.1 i hi hbig]
    rfl
  · intro fuel r hr
    obtain ⟨s, hs, rfl⟩ := sjf_some fuel p r hr
    obtain ⟨h1, h2, _⟩ := sel_descr Process.burst_time p hv.2.1 fuel s hs
    refine ⟨h1, h2, fun m hm => ?_⟩
    rw [← sjf_independent_gen p m hv.2.1 hm fuel]
    exact hr
  · intro hlt
    obtain ⟨fuel, r, hr⟩ := sel_terminates _ hkey_priority p hv.2.1 hlt ha
    exact ⟨fuel, r.p, by rw [priority_scheduling_eq, hr]; rfl⟩
  · rintro ⟨i, hi, hbig⟩ fuel
    rw [priority_scheduling_eq, sel_never_returns _ hkey_priority p hv.2.1 i hi hbig]
    rfl
  · intro fuel r hr
    obtain ⟨s, hs, rfl⟩ := priority_some fuel p r hr
    obtain ⟨h1, h2, _⟩ := sel_descr Process.priority p hv.2.1 fuel s hs
    refine ⟨h1, h2, fun m hm => ?_⟩
    rw [← priority_independent_gen p m hv.2.1 hm fuel]
    exact hr

theorem one_record_per_process_witness :
    ValidInput [mkProc 0 0 3 1, mkProc 1 2 99999 99999] ∧
    (∀ fuel, sjf fuel [mkProc 0 0 3 1, mkProc 1 2 99999 99999] = none) ∧
    (∀ fuel, priority_scheduling fuel [mkProc 0 0 3 1, mkProc 1 2 99999 99999] = none) ∧
    ((fcfs [mkProc 0 0 3 1, mkProc 1 2 99999 99999]).map Process.pid).Perm
      ([mkProc 0 0 3 1, mkProc 1 2 99999 99999].map Process.pid) ∧
    (∃ fuel r, round_robin fuel [mkProc 0 0 3 1, mkProc 1 2 99999 99999] = some r) ∧
    ValidInput [mkProc 0 5 3 2, mkProc 1 0 7 1] ∧
    ((sjf 4 [mkProc 0 5 3 2, mkProc 1 0 7 1]).isSome = true ∧
      ∀ r, sjf 4 [mkProc 0 5 3 2, mkProc 1 0 7 1] = some r → r.length = 2) ∧
    ((round_robin 5 [mkProc 0 5 3 2, mkProc 1 0 7 1]).isSome = true ∧
      ∀ r, round_robin 5 [mkProc 0 5 3 2, mkProc 1 0 7 1] = some r → r.length = 2) ∧
    ((priority_scheduling 4 [mkProc 0 5 3 2, mkProc 1 0 7 1]).isSome = true ∧
      ∀ r, priority_scheduling 4 [mkProc 0 5 3 2, mkProc 1 0 7 1] = some r →
        r.length = 2) :=
  have g := one_record_per_process [mkProc 0 0 3 1, mkProc 1 2 99999 99999] (by decide)
  have h := one_record_per_process [mkProc 0 5 3 2, mkProc 1 0 7 1] (by decide)
  ⟨by decide, g.2.2.1.2.1 ⟨1, by decide, by decide⟩, g.2.2.2.2.1 ⟨1, by decide, by decide⟩,
    g.1.2.2.1, g.2.1.1, by decide,
    ⟨by decide, fun r hr => (h.2.2.1.2.2 4 r hr).1⟩,
    ⟨by decide, fun r hr => (h.2.1.2 5 r hr).1⟩,
    ⟨by decide, fun r hr => (h.2.2.2.2.2 4 r hr).1⟩⟩

/-! ## C3: conservation of the timing fields -/

/-- C3 as stated fails when the clock overflows.  On the valid input P1 (arrival 0,
burst 2147483647), P2 (arrival 0, burst 1) `fcfs` and `priority_scheduling` return P2
with turnaround time -2147483648 and waiting time 2147483647, which is not
`turnaround_time - burst_time`.  On one process (arrival 2147483647, burst 1) `sjf`
returns completion time -2147483648 and turnaround time 1, and on one process (arrival 1,
burst 2147483647) `round_robin` returns completion time -2147483648 and turnaround time
2147483647: neither is `completion_time - arrival_time`. -/
theorem conservation_overflow :
    ValidInput [mkProc 0 0 2147483647 1, mkProc 1 0 1 1] ∧
    (rd (fcfs [mkProc 0 0 2147483647 1, mkProc 1 0 1 1]) 1).turnaround_time
      = -2147483648 ∧
    (rd (fcfs [mkProc 0 0 2147483647 1, mkProc 1 0 1 1]) 1).waiting_time = 2147483647 ∧
    (rd (fcfs [mkProc 0 0 2147483647 1, mkProc 1 0 1 1]) 1).waiting_time ≠
      (rd (fcfs [mkProc 0 0 2147483647 1, mkProc 1 0 1 1]) 1).turnaround_time -
        (rd (fcfs [mkProc 0 0 2147483647 1, mkProc 1 0 1 1]) 1).burst_time ∧
    (priority_scheduling 3 [mkProc 0 0 2147483647 1, mkProc 1 0 1 1]).map
      (List.map Process.turnaround_time) = some [2147483647, -2147483648] ∧
    (priority_scheduling 3 [mkProc 0 0 2147483647 1, mkProc 1 0 1 1]).map
      (List.map Process.waiting_time) = some [0, 2147483647] ∧
    ValidInput [mkProc 0 2147483647 1 1] ∧
    (∃ fuel r, sjf fuel [mkProc 0 2147483647 1 1] = some r) ∧
    (∀ fuel r, sjf fuel [mkProc 0 2147483647 1 1] = some r →
      (rd r 0).completion_time = -2147483648 ∧ (rd r 0).turnaround_time = 1 ∧
      ¬ Conserved (rd r 0)) ∧
    ValidInput [mkProc 0 1 2147483647 1] ∧
    (∃ fuel r, round_robin fuel [mkProc 0 1 2147483647 1] = some r) ∧
    (∀ fuel r, round_robin fuel [mkProc 0 1 2147483647 1] = some r →
      (rd r 0).completion_time = -2147483648 ∧ (rd r 0).turnaround_time = 2147483647 ∧
      ¬ Conserved (rd r 0)) := by
  refine ⟨by decide, by decide, by decide, by decide, by decide, by decide, by decide,
    ?_, ?_, by decide, ?_, ?_⟩
  · obtain ⟨fuel, r, hr⟩ := sel_terminates Process.burst_time hkey_burst
      [mkProc 0 2147483647 1 1] (by decide) (by decide) (by decide)
    exact ⟨fuel, r.p, by rw [sjf_eq, hr]; rfl⟩
  · intro fuel r hr
    obtain ⟨s, hs, rfl⟩ := sjf_some fuel _ r hr
    obtain ⟨hc, ht, _⟩ := sel_single_wraps Process.burst_time 1 (by decide) fuel s hs
    obtain ⟨hinv, _⟩ := selLoop_base Process.burst_time [mkProc 0 2147483647 1 1]
      (by decide) fuel _ s (selBase_init _) hs
    obtain ⟨_, sa, _⟩ := hinv.same 0 (by decide)
    refine ⟨hc, ht, fun hw => ?_⟩
    have h3 := hw.1
    rw [hc, ht, sa] at h3
    exact absurd h3 (by decide)
  · obtain ⟨fuel, r, hr⟩ := rr_valid_terminates TIME_QUANTUM TIME_QUANTUM_pos
      [mkProc 0 1 2147483647 1] (by decide)
    exact ⟨fuel, r.p, by rw [round_robin_eq, hr]; rfl⟩
  · intro fuel r hr
    obtain ⟨hc, ht, _⟩ := rr_single_wraps TIME_QUANTUM TIME_QUANTUM_pos 1 fuel r hr
    obtain ⟨s, hs, rfl⟩ := rr_some _ fuel _ r hr
    obtain ⟨hinv, _⟩ := rr_valid_result TIME_QUANTUM TIME_QUANTUM_pos
      [mkProc 0 1 2147483647 1] (by decide) fuel s hs
    obtain ⟨_, sa, _⟩ := hinv.same 0 (by decide)
    refine ⟨hc, ht, fun hw => ?_⟩
    have h3 := hw.1
    rw [hc, ht, sa] at h3
    exact absurd h3 (by decide)

/-- C3 (amended): on every valid input, every process in the array returned by `fcfs`,
and in the array returned by any finishing run of `sjf`, `round_robin` and
`priority_scheduling`, satisfies `turnaround_time = completion_time - arrival_time` and
`waiting_time = turnaround_time - burst_time` with each difference reduced modulo `2^32`
into the range of `int`; when the largest `arrival_time` plus the sum of the `burst_time`s
is at most `INT_MAX`, the two equations hold exactly. -/
theorem timing_conservation (p : List Process) (hv : ValidInput p) :
    ((∀ i, i < p.length → WrapConserved (rd (fcfs p) i)) ∧
      (∀ fuel r, sjf fuel p = some r → ∀ i, i < p.length → WrapConserved (rd r i)) ∧
      (∀ fuel r, round_robin fuel p = some r →
        ∀ i, i < p.length → WrapConserved (rd r i)) ∧
      (∀ fuel r, priority_scheduling fuel p = some r →
        ∀ i, i < p.length → WrapConserved (rd r i))) ∧
    (NoOverflow p →
      (∀ i, i < p.length → Conserved (rd (fcfs p) i)) ∧
      (∀ fuel r, sjf fuel p = some r → ∀ i, i < p.length → Conserved (rd r i)) ∧
      (∀ fuel r, round_robin fuel p = some r → ∀ i, i < p.length → Conserved (rd r i)) ∧
      (∀ fuel r, priority_scheduling fuel p = some r →
        ∀ i, i < p.length → Conserved (rd r i))) := by
  refine ⟨⟨fun i hi => fcfs_written p i hi, ?_, ?_, ?_⟩, fun hno =>
    ⟨fun i hi => (fcfs_record p (fun k hk => (hv.2.2 k hk).1.1)
      (fun k hk => le_of_lt (hv.2.2 k hk).2.1.1) hno i hi).2, ?_, ?_, ?_⟩⟩
  · intro fuel r hr i hi
    obtain ⟨s, hs, rfl⟩ := sjf_some fuel p r hr
    exact (sel_written _ p hv.2.1 fuel s hs i hi).2
  · intro fuel r hr i hi
    obtain ⟨s, hs, rfl⟩ := rr_some _ fuel p r hr
    exact rr_written _ TIME_QUANTUM_pos p hv.procs fuel s hs i hi
  · intro fuel r hr i hi
    obtain ⟨s, hs, rfl⟩ := priority_some fuel p r hr
    exact (sel_written _ p hv.2.1 fuel s hs i hi).2
  · intro fuel r hr i hi
    obtain ⟨s, hs, rfl⟩ := sjf_some fuel p r hr
    exact (sel_record _ p hkey_burst hv hno fuel s hs i hi).2
  · intro fuel r hr i hi
    obtain ⟨s, hs, rfl⟩ := rr_some _ fuel p r hr
    exact (rr_record _ TIME_QUANTUM_pos p hv.procs hno fuel s hs i hi).2
  · intro fuel r hr i hi
    obtain ⟨s, hs, rfl⟩ := priority_some fuel p r hr
    exact (sel_record _ p hkey_priority hv hno fuel s hs i hi).2

theorem timing_conservation_witness :
    ValidInput [mkProc 0 2 6 3, mkProc 1 0 9 1, mkProc 2 4 2 2] ∧
    NoOverflow [mkProc 0 2 6 3, mkProc 1 0 9 1, mkProc 2 4 2 2] ∧
    Conserved (rd (fcfs [mkProc 0 2 6 3, mkProc 1 0 9 1, mkProc 2 4 2 2]) 2) ∧
    ((sjf 4 [mkProc 0 2 6 3, mkProc 1 0 9 1, mkProc 2 4 2 2]).isSome = true ∧
      ∀ r, sjf 4 [mkProc 0 2 6 3, mkProc 1 0 9 1, mkProc 2 4 2 2] = some r →
        Conserved (rd r 2)) ∧
    ((round_robin 6 [mkProc 0 2 6 3, mkProc 1 0 9 1, mkProc 2 4 2 2]).isSome = true ∧
      ∀ r, round_robin 6 [mkProc 0 2 6 3, mkProc 1 0 9 1, mkProc 2 4 2 2] = some r →
        Conserved (rd r 2)) ∧
    ((priority_scheduling 4 [mkProc 0 2 6 3, mkProc 1 0 9 1, mkProc 2 4 2 2]).isSome = true ∧
      ∀ r, priority_scheduling 4 [mkProc 0 2 6 3, mkProc 1 0 9 1, mkProc 2 4 2 2] = some r →
        Conserved (rd r 2)) ∧
    ValidInput [mkProc 0 0 2147483647 1, mkProc 1 0 1 1] ∧
    WrapConserved (rd (fcfs [mkProc 0 0 2147483647 1, mkProc 1 0 1 1]) 1) :=
  have h := (timing_conservation [mkProc 0 2 6 3, mkProc 1 0 9 1, mkProc 2 4 2 2]
    (by decide)).2 (by decide)
  ⟨by decide, by decide, h.1 2 (by decide),
    ⟨by decide, fun r hr => h.2.1 4 r hr 2 (by decide)⟩,
    ⟨by decide, fun r hr => h.2.2.1 6 r hr 2 (by decide)⟩,
    ⟨by decide, fun r hr => h.2.2.2 4 r hr 2 (by decide)⟩,
    by decide,
    (timing_conservation [mkProc 0 0 2147483647 1, mkProc 1 0 1 1] (by decide)).1.1 1
      (by decide)⟩

/-! ## C4: the completion times of FCFS -/

/-- C4 as stated fails when the clock overflows: on the valid input P1 (arrival 0,
burst 2147483647), P2 (arrival 0, burst 1) `fcfs` completes P1 at 2147483647 and P2 at
-2147483648, which is not `max(2147483647, 0) + 1`. -/
theorem fcfs_recurrence_overflow :
    ValidInput [mkProc 0 0 2147483647 1, mkProc 1 0 1 1] ∧
    (fcfs [mkProc 0 0 2147483647 1, mkProc 1 0 1 1]).map Process.completion_time
      = [2147483647, -2147483648] ∧
    (rd (fcfs [mkProc 0 0 2147483647 1, mkProc 1 0 1 1]) 1).completion_time ≠
      max (rd (fcfs [mkProc 0 0 2147483647 1, mkProc 1 0 1 1]) 0).completion_time
          (rd (fcfs [mkProc 0 0 2147483647 1, mkProc 1 0 1 1]) 1).arrival_time
        + (rd (fcfs [mkProc 0 0 2147483647 1, mkProc 1 0 1 1]) 1).burst_time := by
  decide

/-- C4 (amended): in the array returned by `fcfs` on any input, the first process
completes at `max(0, arrival_time) + burst_time` and every later process at position `i`
at `max(completion_time of position i-1, arrival_time) + burst_time`, each sum reduced
modulo `2^32` into the range of `int`; when no arrival or burst is negative and the largest
`arrival_time` plus the sum of the `burst_time`s is at most `INT_MAX`, so in particular on
such a valid input, the sums are exact.  For the input (arrival 0, burst 5),
(arrival 2, burst 3) the completion times are 5 and 8. -/
theorem fcfs_completion_recurrence (p : List Process) :
    (∀ i, i < p.length →
      (rd (fcfs p) i).completion_time =
        wrap (max (if i = 0 then 0 else (rd (fcfs p) (i - 1)).completion_time)
          (rd (fcfs p) i).arrival_time + (rd (fcfs p) i).burst_time)) ∧
    ((∀ k, k < p.length → 0 ≤ (rd p k).arrival_time ∧ 0 ≤ (rd p k).burst_time) →
      NoOverflow p →
      (0 < p.length →
        (rd (fcfs p) 0).completion_time =
          max 0 (rd (fcfs p) 0).arrival_time + (rd (fcfs p) 0).burst_time) ∧
      (∀ i, 0 < i → i < p.length →
        (rd (fcfs p) i).completion_time =
          max (rd (fcfs p) (i - 1)).completion_time (rd (fcfs p) i).arrival_time
            + (rd (fcfs p) i).burst_time)) ∧
    (∀ pr1 pr2 : Int,
      (fcfs [mkProc 0 0 5 pr1, mkProc 1 2 3 pr2]).map Process.completion_time = [5, 8]) := by
  refine ⟨fun i hi => ((fcfs_fields p).2 i hi).2.1, fun hab hno => ?_, fun pr1 pr2 => ?_⟩
  · rw [fcfs_eq_ideal p (fun k hk => (hab k hk).1) (fun k hk => (hab k hk).2) hno]
    refine ⟨fun h0 => ?_, fun i hi hn => ?_⟩
    · have := ((Ideal.fcfs_fields_ideal p).2 0 h0).2.1
      simpa using this
    · have := ((Ideal.fcfs_fields_ideal p).2 i hn).2.1
      rw [if_neg (by omega)] at this
      exact this
  · rfl

theorem fcfs_completion_recurrence_witness :
    (rd (fcfs [mkProc 0 4 2 1, mkProc 1 1 6 1]) 0).completion_time =
      max 0 (rd (fcfs [mkProc 0 4 2 1, mkProc 1 1 6 1]) 0).arrival_time
        + (rd (fcfs [mkProc 0 4 2 1, mkProc 1 1 6 1]) 0).burst_time ∧
    (rd (fcfs [mkProc 0 4 2 1, mkProc 1 1 6 1]) 1).completion_time =
      max (rd (fcfs [mkProc 0 4 2 1, mkProc 1 1 6 1]) (1 - 1)).completion_time
          (rd (fcfs [mkProc 0 4 2 1, mkProc 1 1 6 1]) 1).arrival_time
        + (rd (fcfs [mkProc 0 4 2 1, mkProc 1 1 6 1]) 1).burst_time :=
  ⟨((fcfs_completion_recurrence [mkProc 0 4 2 1, mkProc 1 1 6 1]).2.1 (by decide)
      (by decide)).1 (by decide),
   ((fcfs_completion_recurrence [mkProc 0 4 2 1, mkProc 1 1 6 1]).2.1 (by decide)
      (by decide)).2 1 (by decide) (by decide)⟩

/-! ## C5: FCFS sorts by arrival, stably -/

/-- C5 as stated fails.  For P1 (arrival 0, burst 5) and P2 (arrival 0, burst 0), pids in
index order, `fcfs` keeps P1 before P2 but both complete at time 5, so P1 does not
complete first; with burst -3 for P2, P2 even completes at time 2, before P1.  With
positive bursts it still fails when the clock overflows: for P1 (arrival 0,
burst 2147483647) and P2 (arrival 0, burst 1), P1 completes at 2147483647 and P2 at
-2147483648. -/
theorem fcfs_lower_pid_not_first :
    (∀ k, k < 2 → (rd [mkProc 0 0 5 1, mkProc 1 0 0 1] k).pid = k + 1) ∧
    (fcfs [mkProc 0 0 5 1, mkProc 1 0 0 1]).map Process.pid = [1, 2] ∧
    (fcfs [mkProc 0 0 5 1, mkProc 1 0 0 1]).map Process.arrival_time = [0, 0] ∧
    (fcfs [mkProc 0 0 5 1, mkProc 1 0 0 1]).map Process.completion_time = [5, 5] ∧
    ¬ ((rd (fcfs [mkProc 0 0 5 1, mkProc 1 0 0 1]) 0).completion_time <
        (rd (fcfs [mkProc 0 0 5 1, mkProc 1 0 0 1]) 1).completion_time) ∧
    (fcfs [mkProc 0 0 5 1, mkProc 1 0 (-3) 1]).map Process.pid = [1, 2] ∧
    (fcfs [mkProc 0 0 5 1, mkProc 1 0 (-3) 1]).map Process.completion_time = [5, 2] ∧
    (∀ k, k < 2 → (rd [mkProc 0 0 2147483647 1, mkProc 1 0 1 1] k).pid = k + 1) ∧
    (∀ k, k < 2 → 0 < (rd [mkProc 0 0 2147483647 1, mkProc 1 0 1 1] k).burst_time) ∧
    (fcfs [mkProc 0 0 2147483647 1, mkProc 1 0 1 1]).map Process.pid = [1, 2] ∧
    (fcfs [mkProc 0 0 2147483647 1, mkProc 1 0 1 1]).map Process.completion_time
      = [2147483647, -2147483648] := by
  decide

/-- C5 (amended): for an input whose pids are `1..n` in index order, the array returned
by `fcfs` is in non-decreasing `arrival_time` order, processes with equal `arrival_time`
keep their original relative order (the sequence of descriptors with a given arrival
time is the same in the output as in the input), so of two such processes the one with
the lower pid comes first; it also completes first when no `arrival_time` is negative,
every `burst_time` is positive and the largest `arrival_time` plus the sum of the
`burst_time`s is at most `INT_MAX`. -/
theorem fcfs_sorted_stable (p : List Process)
    (hpid : ∀ k, k < p.length → (rd p k).pid = k + 1) :
    (∀ i j, i ≤ j → j < p.length →
      (rd (fcfs p) i).arrival_time ≤ (rd (fcfs p) j).arrival_time) ∧
    (∀ t : Int,
      ((fcfs p).filter (fun x => decide (x.arrival_time = t))).map Process.descr =
        (p.filter (fun x => decide (x.arrival_time = t))).map Process.descr) ∧
    (∀ i j, i < j → j < p.length →
      (rd (fcfs p) i).arrival_time = (rd (fcfs p) j).arrival_time →
      (rd (fcfs p) i).pid < (rd (fcfs p) j).pid ∧
      ((∀ k, k < p.length → 0 ≤ (rd p k).arrival_time ∧ 0 < (rd p k).burst_time) →
        NoOverflow p →
        (rd (fcfs p) i).completion_time < (rd (fcfs p) j).completion_time)) := by
  have hf := (fcfs_fields p).2
  refine ⟨?_, ?_, ?_⟩
  · intro i j hij hj
    rw [(hf i (by omega)).1.2.1, (hf j hj).1.2.1]
    exact fcfsSort_sorted p i j hij hj
  · intro t
    rw [filter_arrival_map_descr, filter_arrival_map_descr, fcfs_map_descr,
      ← filter_arrival_map_descr, ← filter_arrival_map_descr,
      (fcfsSort_perm_filter p).2.2 t]
  · intro i j hij hj he
    refine ⟨?_, fun hab hno => fcfs_completion_mono p (fun k hk => (hab k hk).1)
      (fun k hk => (hab k hk).2) hno i j hij hj⟩
    rw [(hf i (by omega)).1.2.1, (hf j hj).1.2.1] at he
    rw [(hf i (by omega)).1.1, (hf j hj).1.1]
    exact fcfsSort_pid_order p hpid i j hij hj he

theorem fcfs_sorted_stable_witness :
    (rd (fcfs [mkProc 0 2 4 1, mkProc 1 0 3 1, mkProc 2 2 5 1]) 1).arrival_time ≤
      (rd (fcfs [mkProc 0 2 4 1, mkProc 1 0 3 1, mkProc 2 2 5 1]) 2).arrival_time ∧
    (rd (fcfs [mkProc 0 2 4 1, mkProc 1 0 3 1, mkProc 2 2 5 1]) 1).pid <
      (rd (fcfs [mkProc 0 2 4 1, mkProc 1 0 3 1, mkProc 2 2 5 1]) 2).pid ∧
    (rd (fcfs [mkProc 0 2 4 1, mkProc 1 0 3 1, mkProc 2 2 5 1]) 1).completion_time <
      (rd (fcfs [mkProc 0 2 4 1, mkProc 1 0 3 1, mkProc 2 2 5 1]) 2).completion_time :=
  have h := fcfs_sorted_stable [mkProc 0 2 4 1, mkProc 1 0 3 1, mkProc 2 2 5 1] (by decide)
  have h2 := h.2.2 1 2 (by decide) (by decide) (by decide)
  ⟨h.1 1 2 (by decide) (by decide), h2.1, h2.2 (by decide) (by decide)⟩

/-! ## C6: SJF runs the shortest waiting job, without preemption -/

/-- C6 as stated fails when the clock overflows: on the valid input of one process
(arrival 2147483647, burst 1) `sjf` finishes, and its completion time is -2147483648, so
`start = completion_time - burst_time` lies before the arrival. -/
theorem sjf_start_overflow :
    ValidInput [mkProc 0 2147483647 1 1] ∧
    (∃ fuel r, sjf fuel [mkProc 0 2147483647 1 1] = some r) ∧
    (∀ fuel r, sjf fuel [mkProc 0 2147483647 1 1] = some r →
      (rd r 0).arrival_time = 2147483647 ∧ (rd r 0).burst_time = 1 ∧
      (rd r 0).completion_time = -2147483648 ∧
      ¬ ((rd r 0).arrival_time ≤ (rd r 0).completion_time - (rd r 0).burst_time)) := by
  refine ⟨by decide, ?_, ?_⟩
  · obtain ⟨fuel, r, hr⟩ := sel_terminates Process.burst_time hkey_burst
      [mkProc 0 2147483647 1 1] (by decide) (by decide) (by decide)
    exact ⟨fuel, r.p, by rw [sjf_eq, hr]; rfl⟩
  · intro fuel r hr
    obtain ⟨s, hs, rfl⟩ := sjf_some fuel _ r hr
    have hc := (sel_single_wraps Process.burst_time 1 (by decide) fuel s hs).1
    obtain ⟨hinv, _⟩ := selLoop_base Process.burst_time [mkProc 0 2147483647 1 1]
      (by decide) fuel _ s (selBase_init _) hs
    obtain ⟨_, sa, sb, _⟩ := hinv.same 0 (by decide)
    refine ⟨sa, sb, hc, ?_⟩
    rw [hc, sa, sb]
    decide

/-- C6 (amended): on every valid input whose largest `arrival_time` plus the sum of its
`burst_time`s is at most `INT_MAX` and on which `sjf` finishes, every process `i` runs
uninterrupted from `start_i = completion_time_i - burst_time_i ≥ arrival_time_i` (no
other process runs inside its interval), and every other process `j` that had arrived by
`start_i` and completes after `i` has `burst_time_j ≥ burst_time_i`; for the input
(arrival 0, burst 8), (arrival 1, burst 4) the completion times are 8 and 12, although
the shorter second job arrives while the first one runs. -/
theorem sjf_shortest_nonpreemptive (p : List Process) (hv : ValidInput p)
    (hno : NoOverflow p) :
    (∀ fuel r, sjf fuel p = some r → ∀ i, i < p.length →
      (rd r i).arrival_time ≤ (rd r i).completion_time - (rd r i).burst_time ∧
      ∀ j, j < p.length → j ≠ i →
        ((rd r j).completion_time ≤ (rd r i).completion_time - (rd r i).burst_time ∨
          (rd r i).completion_time ≤ (rd r j).completion_time - (rd r j).burst_time) ∧
        ((rd r j).arrival_time ≤ (rd r i).completion_time - (rd r i).burst_time →
          (rd r i).completion_time < (rd r j).completion_time →
          (rd r i).burst_time ≤ (rd r j).burst_time)) ∧
    (∀ pr1 pr2 : Int,
      (sjf 3 [mkProc 0 0 8 pr1, mkProc 1 1 4 pr2]).map (List.map Process.completion_time)
        = some [8, 12]) := by
  refine ⟨fun fuel r hr i hi => ?_, fun pr1 pr2 => rfl⟩
  obtain ⟨s, hs, rfl⟩ := sjf_some fuel p r hr
  obtain ⟨h1, h2⟩ := sel_schedule _ p hkey_burst hv hno fuel s hs i hi
  refine ⟨h1, fun j hj hji => ?_⟩
  obtain ⟨h3, h4⟩ := h2 j hj hji
  exact ⟨h3, fun ha hc => (h4 ha hc).1⟩

theorem sjf_shortest_nonpreemptive_witness :
    ValidInput [mkProc 0 0 8 1, mkProc 1 1 4 1, mkProc 2 2 6 1] ∧
    NoOverflow [mkProc 0 0 8 1, mkProc 1 1 4 1, mkProc 2 2 6 1] ∧
    (rd ((sjf 4 [mkProc 0 0 8 1, mkProc 1 1 4 1, mkProc 2 2 6 1]).getD []) 1).burst_time ≤
      (rd ((sjf 4 [mkProc 0 0 8 1, mkProc 1 1 4 1, mkProc 2 2 6 1]).getD []) 2).burst_time :=
  ⟨by decide, by decide,
    ((((sjf_shortest_nonpreemptive [mkProc 0 0 8 1, mkProc 1 1 4 1, mkProc 2 2 6 1]
      (by decide) (by decide)).1 4 _ (by decide) 1 (by decide)).2 2 (by decide)
        (by decide)).2 (by decide) (by decide))⟩

/-! ## C7: ties on the smallest burst -/

/-- C7 as stated fails: with P1 (arrival 1, burst 3), P2 (arrival 0, burst 3) and
P3 (arrival 0, burst 1), `sjf` first runs P3; at the next decision point (time 1) P1 and
P2 are both candidates and tie on the smallest burst, P2 arrived strictly earlier, and
the scan selects P1 (index 0).  The run completes P1 at 4 and P2 at 7. -/
theorem sjf_tie_not_by_arrival :
    ValidInput [mkProc 0 1 3 1, mkProc 1 0 3 1, mkProc 2 0 1 1] ∧
    sjfScan 3 [mkProc 0 1 3 1, mkProc 1 0 3 1, mkProc 2 0 1 1] 0
      (selInit [mkProc 0 1 3 1, mkProc 1 0 3 1, mkProc 2 0 1 1]).is_completed = some 2 ∧
    sjfScan 3 (selExec (selInit [mkProc 0 1 3 1, mkProc 1 0 3 1, mkProc 2 0 1 1]) 2).p
      (selExec (selInit [mkProc 0 1 3 1, mkProc 1 0 3 1, mkProc 2 0 1 1]) 2).current_time
      (selExec (selInit [mkProc 0 1 3 1, mkProc 1 0 3 1, mkProc 2 0 1 1]) 2).is_completed
      = some 0 ∧
    (selExec (selInit [mkProc 0 1 3 1, mkProc 1 0 3 1, mkProc 2 0 1 1]) 2).current_time = 1 ∧
    flag (selExec (selInit [mkProc 0 1 3 1, mkProc 1 0 3 1, mkProc 2 0 1 1]) 2).is_completed 1
      = false ∧
    (mkProc 1 0 3 1).arrival_time ≤ 1 ∧
    (mkProc 1 0 3 1).burst_time = (mkProc 0 1 3 1).burst_time ∧
    (mkProc 1 0 3 1).arrival_time < (mkProc 0 1 3 1).arrival_time ∧
    (sjf 4 [mkProc 0 1 3 1, mkProc 1 0 3 1, mkProc 2 0 1 1]).map
      (List.map Process.completion_time) = some [4, 7, 1] := by
  decide

/-- C7 (amended): whenever the selection scan of `sjf` selects a process, that process
is a candidate with the smallest `burst_time`, and among the candidates that tie on the
smallest `burst_time` it is the one with the lowest array index (the lowest pid when
pids are `1..n` in index order), whatever their arrival times; so in every finishing run
on a valid input that cannot overflow (largest `arrival_time` plus the sum of the
`burst_time`s at most `INT_MAX`), a process that starts while another candidate with the
same burst is waiting has the lower index. -/
theorem sjf_tie_lowest_index (p : List Process) (hv : ValidInput p) :
    (∀ (q : List Process) (ct : Int) (f : List Bool) (idx : Nat),
      sjfScan p.length q ct f = some idx →
      idx < p.length ∧ Eligible q ct f idx ∧
      ∀ j, j < p.length → Eligible q ct f j →
        (rd q idx).burst_time ≤ (rd q j).burst_time ∧
        ((rd q j).burst_time = (rd q idx).burst_time → idx ≤ j)) ∧
    (NoOverflow p →
      ∀ fuel r, sjf fuel p = some r → ∀ i j, i < p.length → j < p.length → j ≠ i →
      (rd r j).arrival_time ≤ (rd r i).completion_time - (rd r i).burst_time →
      (rd r i).completion_time < (rd r j).completion_time →
      (rd r i).burst_time = (rd r j).burst_time →
      i < j ∧ ((∀ k, k < p.length → (rd p k).pid = k + 1) → (rd r i).pid < (rd r j).pid)) := by
  refine ⟨fun q ct f idx h => ?_, fun hno fuel r hr i j hi hj hji ha hc hb => ?_⟩
  · rw [sjfScan_eq] at h
    obtain ⟨h1, h2, _, h4⟩ := (selScan_spec Process.burst_time _ q ct f).2 idx h
    exact ⟨h1, h2, h4⟩
  · obtain ⟨s, hs, rfl⟩ := sjf_some fuel p r hr
    have hlt := ((((sel_schedule _ p hkey_burst hv hno fuel s hs i hi).2 j hj hji).2 ha hc).2
      hb)
    obtain ⟨_, _, hpd⟩ := sel_descr Process.burst_time p hv.2.1 fuel s hs
    refine ⟨hlt, fun hpid => ?_⟩
    rw [hpd i hi, hpd j hj, hpid i hi, hpid j hj]
    omega

theorem sjf_tie_lowest_index_witness :
    ValidInput [mkProc 0 1 3 1, mkProc 1 0 3 1, mkProc 2 0 1 1] ∧
    NoOverflow [mkProc 0 1 3 1, mkProc 1 0 3 1, mkProc 2 0 1 1] ∧
    (rd ((sjf 4 [mkProc 0 1 3 1, mkProc 1 0 3 1, mkProc 2 0 1 1]).getD []) 0).pid <
      (rd ((sjf 4 [mkProc 0 1 3 1, mkProc 1 0 3 1, mkProc 2 0 1 1]).getD []) 1).pid :=
  ⟨by decide, by decide,
    ((sjf_tie_lowest_index [mkProc 0 1 3 1, mkProc 1 0 3 1, mkProc 2 0 1 1] (by decide)).2
      (by decide) 4 _ (by decide) 0 1 (by decide) (by decide) (by decide) (by decide)
      (by decide) (by decide)).2 (by decide)⟩

/-! ## C8: Priority runs the highest-priority waiting job, without preemption -/

/-- C8 as stated fails when the clock overflows: on the valid input P1 (arrival 0,
burst 2147483647, priority 1), P2 (arrival 0, burst 1, priority 2)
`priority_scheduling` finishes with completion times 2147483647 and -2147483648, so the
start `completion_time - burst_time` of P2 lies before its arrival. -/
theorem priority_start_overflow :
    ValidInput [mkProc 0 0 2147483647 1, mkProc 1 0 1 2] ∧
    (priority_scheduling 3 [mkProc 0 0 2147483647 1, mkProc 1 0 1 2]).map
      (List.map Process.completion_time) = some [2147483647, -2147483648] ∧
    ¬ ((rd ((priority_scheduling 3
          [mkProc 0 0 2147483647 1, mkProc 1 0 1 2]).getD []) 1).arrival_time ≤
        (rd ((priority_scheduling 3
          [mkProc 0 0 2147483647 1, mkProc 1 0 1 2]).getD []) 1).completion_time -
        (rd ((priority_scheduling 3
          [mkProc 0 0 2147483647 1, mkProc 1 0 1 2]).getD []) 1).burst_time) := by
  decide

/-- C8 (amended): on every valid input whose largest `arrival_time` plus the sum of its
`burst_time`s is at most `INT_MAX` and on which `priority_scheduling` finishes, every
process `i` runs uninterrupted from
`start_i = completion_time_i - burst_time_i ≥ arrival_time_i`, and every other process
`j` that had arrived by `start_i` and completes after `i` has
`priority_j ≥ priority_i`; when the priorities are equal `i` has the lower array index,
hence the lower pid when pids are `1..n` in index order. -/
theorem priority_highest_nonpreemptive (p : List Process) (hv : ValidInput p)
    (hno : NoOverflow p) :
    ∀ fuel r, priority_scheduling fuel p = some r → ∀ i, i < p.length →
      (rd r i).arrival_time ≤ (rd r i).completion_time - (rd r i).burst_time ∧
      ∀ j, j < p.length → j ≠ i →
        ((rd r j).completion_time ≤ (rd r i).completion_time - (rd r i).burst_time ∨
          (rd r i).completion_time ≤ (rd r j).completion_time - (rd r j).burst_time) ∧
        ((rd r j).arrival_time ≤ (rd r i).completion_time - (rd r i).burst_time →
          (rd r i).completion_time < (rd r j).completion_time →
          (rd r i).priority ≤ (rd r j).priority ∧
          ((rd r i).priority = (rd r j).priority →
            i < j ∧
            ((∀ k, k < p.length → (rd p k).pid = k + 1) → (rd r i).pid < (rd r j).pid))) := by
  intro fuel r hr i hi
  obtain ⟨s, hs, rfl⟩ := priority_some fuel p r hr
  obtain ⟨h1, h2⟩ := sel_schedule _ p hkey_priority hv hno fuel s hs i hi
  obtain ⟨_, _, hpd⟩ := sel_descr Process.priority p hv.2.1 fuel s hs
  refine ⟨h1, fun j hj hji => ?_⟩
  obtain ⟨h3, h4⟩ := h2 j hj hji
  refine ⟨h3, fun ha hc => ⟨(h4 ha hc).1, fun he => ⟨(h4 ha hc).2 he, fun hpid => ?_⟩⟩⟩
  rw [hpd i hi, hpd j hj, hpid i hi, hpid j hj]
  have := (h4 ha hc).2 he
  omega

theorem priority_highest_nonpreemptive_witness :
    ValidInput [mkProc 0 0 4 2, mkProc 1 1 3 1, mkProc 2 2 5 1] ∧
    NoOverflow [mkProc 0 0 4 2, mkProc 1 1 3 1, mkProc 2 2 5 1] ∧
    (rd ((priority_scheduling 4 [mkProc 0 0 4 2, mkProc 1 1 3 1, mkProc 2 2 5 1]).getD [])
        1).pid <
      (rd ((priority_scheduling 4 [mkProc 0 0 4 2, mkProc 1 1 3 1, mkProc 2 2 5 1]).getD [])
        2).pid :=
  ⟨by decide, by decide,
    ((((((priority_highest_nonpreemptive [mkProc 0 0 4 2, mkProc 1 1 3 1, mkProc 2 2 5 1]
      (by decide) (by decide)) 4 _ (by decide) 1 (by decide)).2 2 (by decide)
        (by decide)).2 (by decide) (by decide)).2 (by decide)).2 (by decide))⟩

/-! ## C9: Round Robin terminates -/

/-- C9: on every valid input `round_robin` terminates, wraparound of the clock
included.  On return every process has `remaining_time = 0` and a `completion_time` of at
most the largest `arrival_time` plus the sum of all `burst_time`s.  When that bound is at
most `INT_MAX`, any fuel exceeding it yields a result. -/
theorem round_robin_terminates (p : List Process) (hv : ValidProcesses p) :
    (∃ fuel r, round_robin fuel p = some r) ∧
    (∀ k, k < p.length →
      (∀ j, j < p.length → (rd p j).arrival_time ≤ (rd p k).arrival_time) →
      (∀ fuel r, round_robin fuel p = some r → ∀ i, i < p.length →
        (rd r i).completion_time ≤ (rd p k).arrival_time + totalBurst p) ∧
      ((rd p k).arrival_time + totalBurst p ≤ INT_MAX →
        ∀ fuel : Nat, (rd p k).arrival_time + totalBurst p < fuel →
          ∃ r, round_robin fuel p = some r)) ∧
    (∀ fuel r, round_robin fuel p = some r →
      ∀ i, i < p.length → (rd r i).remaining_time = 0) := by
  refine ⟨?_, fun k _ hk => ⟨fun fuel r hr i hi => ?_, fun hle fuel hf => ?_⟩,
    fun fuel r hr i hi => ?_⟩
  · obtain ⟨fuel, r, hr⟩ := rr_valid_terminates TIME_QUANTUM TIME_QUANTUM_pos p hv
    exact ⟨fuel, r.p, by rw [round_robin_eq, hr]; rfl⟩
  · obtain ⟨s, hs, rfl⟩ := rr_some _ fuel p r hr
    exact rr_completion_bound _ TIME_QUANTUM_pos p hv k hk fuel s hs i hi
  · obtain ⟨r, hr⟩ := rr_fuel_bound _ TIME_QUANTUM_pos p hv k hk hle fuel hf
    exact ⟨r.p, by rw [round_robin_eq, hr]; rfl⟩
  · obtain ⟨s, hs, rfl⟩ := rr_some _ fuel p r hr
    exact (rr_valid_result _ TIME_QUANTUM_pos p hv fuel s hs).2 i hi

theorem round_robin_terminates_witness :
    ValidProcesses [mkProc 0 3 10 2, mkProc 1 0 5 1] ∧
    (∃ r, round_robin 19 [mkProc 0 3 10 2, mkProc 1 0 5 1] = some r) ∧
    (rd ((round_robin 5 [mkProc 0 3 10 2, mkProc 1 0 5 1]).getD []) 1).completion_time ≤
      (rd [mkProc 0 3 10 2, mkProc 1 0 5 1] 0).arrival_time
        + totalBurst [mkProc 0 3 10 2, mkProc 1 0 5 1] ∧
    (rd ((round_robin 5 [mkProc 0 3 10 2, mkProc 1 0 5 1]).getD []) 1).remaining_time = 0 :=
  have h := round_robin_terminates [mkProc 0 3 10 2, mkProc 1 0 5 1] (by decide)
  have hk := h.2.1 0 (by decide) (by decide)
  ⟨by decide, hk.2 (by decide) 19 (by decide), hk.1 5 _ (by decide) 1 (by decide),
    h.2.2 5 _ (by decide) 1 (by decide)⟩

/-! ## C10: Round Robin on a single process -/

/-- C10 as stated fails when the clock overflows: for the single process (arrival 1,
burst 2147483647) `round_robin` terminates, and every finishing run of Round Robin with a
positive quantum gives completion time -2147483648, which is not
`arrival_time + burst_time`; `fcfs` gives -2147483648 as well.  With quantum 2147483647
the run takes three evaluations of the loop condition. -/
theorem round_robin_single_overflow :
    ((0 : Int) ≤ 1 ∧ (0 : Int) < 2147483647) ∧
    (∃ fuel r, round_robin fuel [mkProc 0 1 2147483647 1] = some r) ∧
    (∀ q : Int, 0 < q → ∀ fuel r, round_robin_q q fuel [mkProc 0 1 2147483647 1] = some r →
      (rd r 0).completion_time = -2147483648 ∧
      (rd r 0).completion_time ≠
        (mkProc 0 1 2147483647 1).arrival_time + (mkProc 0 1 2147483647 1).burst_time) ∧
    (round_robin_q 2147483647 3 [mkProc 0 1 2147483647 1]).map
      (List.map Process.completion_time) = some [-2147483648] ∧
    (fcfs [mkProc 0 1 2147483647 1]).map Process.completion_time = [-2147483648] := by
  refine ⟨by decide, ?_, fun q hq fuel r hr => ?_, by decide, by decide⟩
  · obtain ⟨fuel, r, hr⟩ := rr_valid_terminates TIME_QUANTUM TIME_QUANTUM_pos
      [mkProc 0 1 2147483647 1] (by decide)
    exact ⟨fuel, r.p, by rw [round_robin_eq, hr]; rfl⟩
  · have hc := (rr_single_wraps q hq 1 fuel r hr).1
    refine ⟨hc, ?_⟩
    rw [hc]
    decide

/-- C10 (amended): for an input consisting of a single process with
`arrival_time = a ≥ 0`, `burst_time = b > 0` and `a + b ≤ INT_MAX`, Round Robin with any
positive quantum (in particular `round_robin`, whose quantum is 4) terminates and gives
`completion_time = a + b`, the completion time `fcfs` gives for that input; for
(arrival 0, burst 10) it is 10. -/
theorem round_robin_single_process (x : Process) (ha : 0 ≤ x.arrival_time)
    (hb : 0 < x.burst_time) (hrem : x.remaining_time = x.burst_time)
    (hno : x.arrival_time + x.burst_time ≤ INT_MAX) :
    (∀ q : Int, 0 < q →
      (∃ fuel r, round_robin_q q fuel [x] = some r) ∧
      ∀ fuel r, round_robin_q q fuel [x] = some r →
        (rd r 0).completion_time = x.arrival_time + x.burst_time ∧
        (rd r 0).completion_time = (rd (fcfs [x]) 0).completion_time) ∧
    ((∃ fuel r, round_robin fuel [x] = some r) ∧
      ∀ fuel r, round_robin fuel [x] = some r →
        (rd r 0).completion_time = x.arrival_time + x.burst_time ∧
        (rd r 0).completion_time = (rd (fcfs [x]) 0).completion_time) ∧
    (∀ pr : Int,
      (round_robin 4 [mkProc 0 0 10 pr]).map (List.map Process.completion_time)
        = some [10]) := by
  have hv : ValidProcesses [x] := by
    refine ⟨by simp, fun i hi => ?_⟩
    have : i = 0 := by simpa using hi
    subst this
    rw [rd_cons_zero]
    exact ⟨⟨ha, by omega⟩, ⟨hb, by omega⟩, hrem⟩
  have hmx : ∀ i, i < [x].length → (rd [x] i).arrival_time ≤ x.arrival_time := by
    intro i hi
    have : i = 0 := by simpa using hi
    subst this
    rw [rd_cons_zero]
  have htb : totalBurst [x] = x.burst_time := by simp [totalBurst]
  have hnov : NoOverflow [x] := by
    intro i hi
    have := hmx i hi
    rw [htb]
    omega
  have hfc : (rd (fcfs [x]) 0).completion_time = x.arrival_time + x.burst_time := by
    rw [fcfs_eq_ideal [x] (fun i hi => (hv.2 i hi).1.1)
      (fun i hi => le_of_lt (hv.2 i hi).2.1.1) hnov, Ideal.fcfs_single]
    omega
  have main : ∀ q : Int, 0 < q →
      (∃ fuel r, round_robin_q q fuel [x] = some r) ∧
      ∀ fuel r, round_robin_q q fuel [x] = some r →
        (rd r 0).completion_time = x.arrival_time + x.burst_time ∧
        (rd r 0).completion_time = (rd (fcfs [x]) 0).completion_time := by
    intro q hq
    refine ⟨?_, fun fuel r hr => ?_⟩
    · obtain ⟨fuel, r, hr⟩ := rr_valid_terminates q hq [x] hv
      exact ⟨fuel, r.p, by rw [round_robin_q_eq, hr]; rfl⟩
    · obtain ⟨s, hs, rfl⟩ := rr_some q fuel [x] r hr
      rw [rr_eq_ideal q hq [x] (validProcesses_ideal hv) hnov fuel] at hs
      obtain ⟨h1, h2⟩ := Ideal.rr_completion_bound_ideal q hq [x] (validProcesses_ideal hv)
        x.arrival_time hmx fuel s hs 0 (by simp)
      rw [rd_cons_zero] at h1
      rw [htb] at h2
      have e : (rd s.p 0).completion_time = x.arrival_time + x.burst_time := by omega
      exact ⟨e, by rw [e, hfc]⟩
  exact ⟨main, main TIME_QUANTUM TIME_QUANTUM_pos, fun pr => by
    simp [round_robin, round_robin_q, rrLoop, rrPass, rrStep, List.range, List.range.loop, rd,
      mkProc, TIME_QUANTUM, wrap]⟩

theorem round_robin_single_process_witness :
    (rd ((round_robin_q 3 6 [mkProc 0 2 7 1]).getD []) 0).completion_time = 2 + 7 ∧
    (rd ((round_robin 5 [mkProc 0 2 7 1]).getD []) 0).completion_time =
      (rd (fcfs [mkProc 0 2 7 1]) 0).completion_time :=
  have h := round_robin_single_process (mkProc 0 2 7 1) (by decide) (by decide) (by decide)
    (by decide)
  ⟨((h.1 3 (by decide)).2 6 _ (by decide)).1, (h.2.1.2 5 _ (by decide)).2⟩

/-! ## C11: SJF and Priority do not always terminate -/

/-- C11 fails on the code.  A single process with `burst_time = 99999` is a valid input,
but the scan of `sjf` starts from `min_burst = 99999` and compares with `<`, so the
process is never selected and `sjf` returns for no amount of fuel; the same happens in
`priority_scheduling` for a process with `priority = 99999`.  On the first input `fcfs`
completes the process at 99999 and `round_robin` returns. -/
theorem sentinel_never_returns :
    ValidInput [mkProc 0 0 99999 1] ∧
    (∀ fuel, sjf fuel [mkProc 0 0 99999 1] = none) ∧
    ValidInput [mkProc 0 0 5 99999] ∧
    (∀ fuel, priority_scheduling fuel [mkProc 0 0 5 99999] = none) ∧
    (fcfs [mkProc 0 0 99999 1]).map Process.completion_time = [99999] ∧
    (∃ fuel r, round_robin fuel [mkProc 0 0 99999 1] = some r) := by
  refine ⟨by decide, fun fuel => ?_, by decide, fun fuel => ?_, by decide, ?_⟩
  · rw [sjf_eq, sel_never_returns _ hkey_burst _ (by decide) 0 (by decide) (by decide)]
    rfl
  · rw [priority_scheduling_eq,
      sel_never_returns _ hkey_priority _ (by decide) 0 (by decide) (by decide)]
    rfl
  · obtain ⟨fuel, r, hr⟩ := rr_valid_terminates TIME_QUANTUM TIME_QUANTUM_pos
      [mkProc 0 0 99999 1] (by decide)
    exact ⟨fuel, r.p, by rw [round_robin_eq, hr]; rfl⟩

/-! ## C12: the recommendation rule -/

/-- C12 as stated fails when `total_burst` overflows: for the bursts 1, 1, 2147483647 the
exact average is above 15 and `longJobs > 2 * shortJobs` is false, so the rule of the
claim gives Round Robin, but the `int` sum computed by the analysis loop is -2147483647,
the `float` test `avg_burst < 15` succeeds and `recommend_algorithm` recommends SJF. -/
theorem recommend_overflow :
    shortJobs [mkProc 0 0 1 1, mkProc 1 0 1 1, mkProc 2 0 2147483647 1] >
      longJobs [mkProc 0 0 1 1, mkProc 1 0 1 1, mkProc 2 0 2147483647 1] ∧
    ¬ avgBurst [mkProc 0 0 1 1, mkProc 1 0 1 1, mkProc 2 0 2147483647 1] < 15 ∧
    ¬ longJobs [mkProc 0 0 1 1, mkProc 1 0 1 1, mkProc 2 0 2147483647 1] >
      2 * shortJobs [mkProc 0 0 1 1, mkProc 1 0 1 1, mkProc 2 0 2147483647 1] ∧
    (analyze [mkProc 0 0 1 1, mkProc 1 0 1 1, mkProc 2 0 2147483647 1]).1 = -2147483647 ∧
    recommend_algorithm [mkProc 0 0 1 1, mkProc 1 0 1 1, mkProc 2 0 2147483647 1]
      = Recommendation.SJF := by
  refine ⟨by decide, ?_, by decide, by decide, ?_⟩
  · norm_num [avgBurst, totalBurst, mkProc]
  · rw [recommend_eq, if_pos ⟨by decide, (avg_burst_lt_iff _ (by decide) (by decide)).2
      (by decide)⟩]

/-- C12 (amended): for every workload of `1 ≤ n ≤ MAX_PROCESSES` processes whose sum of
burst times is an `int`, with the average burst taken as an exact rational,
`recommend_algorithm` recommends SJF exactly when `shortJobs > longJobs` and
`avgBurst < 15`, otherwise Priority exactly when `longJobs > 2 * shortJobs`, otherwise
Round Robin; hence such a workload whose bursts are all below 10 gets SJF.  Every
workload of `n ≥ 1` processes whose bursts are all at least 20 gets Priority. -/
theorem recommend_rule (p : List Process) (hn : 1 ≤ p.length) :
    (p.length ≤ MAX_PROCESSES → INT_MIN ≤ totalBurst p → totalBurst p ≤ INT_MAX →
      (recommend_algorithm p = Recommendation.SJF ↔
        shortJobs p > longJobs p ∧ avgBurst p < 15) ∧
      (recommend_algorithm p = Recommendation.Priority ↔
        ¬ (shortJobs p > longJobs p ∧ avgBurst p < 15) ∧ longJobs p > 2 * shortJobs p) ∧
      (recommend_algorithm p = Recommendation.RoundRobin ↔
        ¬ (shortJobs p > longJobs p ∧ avgBurst p < 15) ∧
        ¬ longJobs p > 2 * shortJobs p) ∧
      ((∀ i, i < p.length → (rd p i).burst_time < 10) →
        recommend_algorithm p = Recommendation.SJF)) ∧
    ((∀ i, i < p.length → 20 ≤ (rd p i).burst_time) →
      recommend_algorithm p = Recommendation.Priority) := by
  refine ⟨fun h50 hlo hhi => ?_, fun h => ?_⟩
  · have hiff := avg_burst_lt_iff_exact p hn h50 hlo hhi
    refine ⟨?_, ?_, ?_, fun h => ?_⟩
    · simp only [recommend_eq, hiff]
      split_ifs <;> simp_all
    · simp only [recommend_eq, hiff]
      split_ifs <;> simp_all
    · simp only [recommend_eq, hiff]
      split_ifs <;> simp_all
    · simp only [recommend_eq, hiff]
      obtain ⟨hs, hl⟩ := all_short p h
      have hsum := sum_map_le Process.burst_time 9 p (fun i hi => by have := h i hi; omega)
      have havg : avgBurst p < 15 := by
        unfold avgBurst totalBurst
        have hpos : (0 : ℚ) < (p.length : ℚ) := by exact_mod_cast hn
        rw [div_lt_iff₀ hpos]
        have : (((p.map Process.burst_time).sum : Int) : ℚ) ≤ 9 * (p.length : ℚ) := by
          exact_mod_cast hsum
        linarith
      rw [if_pos ⟨by omega, havg⟩]
  · rw [recommend_eq]
    obtain ⟨hs, hl⟩ := all_long p (fun i hi => by have := h i hi; omega)
    rw [if_neg (by omega), if_pos (by omega)]

theorem recommend_rule_witness :
    recommend_algorithm
      [mkProc 0 0 3 1, mkProc 1 1 4 1, mkProc 2 2 5 1, mkProc 3 3 6 1, mkProc 4 4 7 1]
      = Recommendation.SJF ∧
    recommend_algorithm
      [mkProc 0 0 20 1, mkProc 1 1 25 1, mkProc 2 2 30 1, mkProc 3 3 35 1, mkProc 4 4 40 1]
      = Recommendation.Priority :=
  ⟨((recommend_rule
      [mkProc 0 0 3 1, mkProc 1 1 4 1, mkProc 2 2 5 1, mkProc 3 3 6 1, mkProc 4 4 7 1]
      (by decide)).1 (by decide) (by decide) (by decide)).2.2.2 (by decide),
    (recommend_rule
      [mkProc 0 0 20 1, mkProc 1 1 25 1, mkProc 2 2 30 1, mkProc 3 3 35 1, mkProc 4 4 40 1]
      (by decide)).2 (by decide)⟩

/-! ## C13: copying, then running, is deterministic -/

/-- C13: for any two source arrays that agree at every index `i < n` on `pid`,
`arrival_time`, `burst_time` and `priority` (whatever their other fields hold, and
whatever the two destination arrays held before), `copy_processes` followed by any of
the four algorithms gives the same outcome: `fcfs` returns identical arrays, and for
every amount of fuel `sjf`, `round_robin` and `priority_scheduling` either both fail to
return or return arrays identical in every field.  `copy_processes` returns its source
unchanged, and the algorithms only receive the copy. -/
theorem copy_then_run_deterministic (src1 src2 dest1 dest2 : List Process) (n : Nat)
    (hn : n ≤ MAX_PROCESSES) (hd1 : n ≤ dest1.length) (hd2 : n ≤ dest2.length)
    (h : ∀ i, i < n → (rd src1 i).descr = (rd src2 i).descr) :
    fcfs (copied src1 dest1 n) = fcfs (copied src2 dest2 n) ∧
    (∀ fuel, sjf fuel (copied src1 dest1 n) = sjf fuel (copied src2 dest2 n)) ∧
    (∀ fuel, round_robin fuel (copied src1 dest1 n) =
      round_robin fuel (copied src2 dest2 n)) ∧
    (∀ fuel, priority_scheduling fuel (copied src1 dest1 n) =
      priority_scheduling fuel (copied src2 dest2 n)) ∧
    (copy_processes src1 dest1 n).1 = src1 ∧ (copy_processes src2 dest2 n).1 = src2 := by
  have hs := copied_sameInputs src1 src2 dest1 dest2 n hd1 hd2 h
  have hl : (copied src1 dest1 n).length ≤ MAX_PROCESSES := by
    rw [(copied_spec src1 dest1 n hd1).1]; exact hn
  exact ⟨(fcfs_independent _ _ hs).symm,
    fun fuel => sjf_independent_gen _ _ hl hs fuel,
    fun fuel => round_robin_independent_gen _ _ _ hs fuel,
    fun fuel => priority_independent_gen _ _ hl hs fuel,
    (copy_processes_spec src1 dest1 n hd1).1, (copy_processes_spec src2 dest2 n hd2).1⟩

theorem copy_then_run_deterministic_witness :
    fcfs (copied [mkProc 0 3 6 2, mkProc 1 0 5 1] [mkProc 5 5 5 5, mkProc 6 6 6 6] 2) =
      fcfs (copied
        [{ mkProc 0 3 6 2 with remaining_time := 1, completion_time := 40 },
         { mkProc 1 0 5 1 with waiting_time := 3, turnaround_time := 8 }]
        [mkProc 8 1 1 1, mkProc 9 2 2 2, mkProc 10 3 3 3] 2) ∧
    round_robin 6 (copied [mkProc 0 3 6 2, mkProc 1 0 5 1] [mkProc 5 5 5 5, mkProc 6 6 6 6] 2) =
      round_robin 6 (copied
        [{ mkProc 0 3 6 2 with remaining_time := 1, completion_time := 40 },
         { mkProc 1 0 5 1 with waiting_time := 3, turnaround_time := 8 }]
        [mkProc 8 1 1 1, mkProc 9 2 2 2, mkProc 10 3 3 3] 2) ∧
    (round_robin 6
      (copied [mkProc 0 3 6 2, mkProc 1 0 5 1] [mkProc 5 5 5 5, mkProc 6 6 6 6] 2)).isSome
        = true :=
  have h := copy_then_run_deterministic [mkProc 0 3 6 2, mkProc 1 0 5 1]
    [{ mkProc 0 3 6 2 with remaining_time := 1, completion_time := 40 },
     { mkProc 1 0 5 1 with waiting_time := 3, turnaround_time := 8 }]
    [mkProc 5 5 5 5, mkProc 6 6 6 6] [mkProc 8 1 1 1, mkProc 9 2 2 2, mkProc 10 3 3 3] 2
    (by decide) (by decide) (by decide) (by decide)
  ⟨h.1, h.2.2.1 6, by decide⟩

/-! ## C14: the divisor of the throughput -/

/-- C14 as stated fails for `fcfs`, which sorts the array in place.  For P1 (arrival 5,
burst 1) and P2 (arrival 0, burst 1) the array returned by `fcfs` holds pid 2 and then
pid 1, so `print_results` divides by the completion time of pid 1, which is 6, while the
process with pid `n = 2` completes at 1.  (The divisor need not be the largest completion
time either when the clock overflows: for P1 (arrival 0, burst 2147483647) and
P2 (arrival 0, burst 1) it is -2147483648.) -/
theorem fcfs_divisor_not_last_pid :
    ValidInput [mkProc 0 5 1 1, mkProc 1 0 1 1] ∧
    (∀ k, k < 2 → (rd [mkProc 0 5 1 1, mkProc 1 0 1 1] k).pid = k + 1) ∧
    (fcfs [mkProc 0 5 1 1, mkProc 1 0 1 1]).map Process.pid = [2, 1] ∧
    (fcfs [mkProc 0 5 1 1, mkProc 1 0 1 1]).map Process.completion_time = [1, 6] ∧
    throughputDivisor (fcfs [mkProc 0 5 1 1, mkProc 1 0 1 1]) = 6 ∧
    ValidInput [mkProc 0 0 2147483647 1, mkProc 1 0 1 1] ∧
    (fcfs [mkProc 0 0 2147483647 1, mkProc 1 0 1 1]).map Process.completion_time
      = [2147483647, -2147483648] ∧
    throughputDivisor (fcfs [mkProc 0 0 2147483647 1, mkProc 1 0 1 1]) = -2147483648 := by
  decide

/-- C14 (amended): `print_results` divides `n` by `p[n-1].completion_time`.  On a valid
input with pids `1..n` in input order, for every finishing run of `sjf`, `round_robin`
and `priority_scheduling` this is the completion time of the process with pid `n`; for
`fcfs`, which returns the array sorted by arrival, it is the completion time of the last
record of that array: a process with the latest arrival, and, when the largest
`arrival_time` plus the sum of the `burst_time`s is at most `INT_MAX`, the largest
completion time of the run. -/
theorem throughput_divisor (p : List Process) (hv : ValidInput p)
    (hpid : ∀ k, k < p.length → (rd p k).pid = k + 1) :
    (∀ fuel r, sjf fuel p = some r → ∀ i, i < p.length → (rd r i).pid = p.length →
      throughputDivisor r = (rd r i).completion_time) ∧
    (∀ fuel r, round_robin fuel p = some r → ∀ i, i < p.length → (rd r i).pid = p.length →
      throughputDivisor r = (rd r i).completion_time) ∧
    (∀ fuel r, priority_scheduling fuel p = some r → ∀ i, i < p.length →
      (rd r i).pid = p.length → throughputDivisor r = (rd r i).completion_time) ∧
    (throughputDivisor (fcfs p) = (rd (fcfs p) (p.length - 1)).completion_time ∧
      ∀ i, i < p.length →
        (rd (fcfs p) i).arrival_time ≤ (rd (fcfs p) (p.length - 1)).arrival_time ∧
        (NoOverflow p → (rd (fcfs p) i).completion_time ≤ throughputDivisor (fcfs p))) := by
  refine ⟨fun fuel r hr => ?_, fun fuel r hr => ?_, fun fuel r hr => ?_, ?_, fun i hi => ?_⟩
  · obtain ⟨s, hs, rfl⟩ := sjf_some fuel p r hr
    obtain ⟨hl, _, hpd⟩ := sel_descr Process.burst_time p hv.2.1 fuel s hs
    exact (divisor_of_pid p s.p hv.1 hl hpid hpd).2
  · obtain ⟨s, hs, rfl⟩ := rr_some _ fuel p r hr
    obtain ⟨hinv, _⟩ := rr_valid_result _ TIME_QUANTUM_pos p hv.procs fuel s hs
    exact (divisor_of_pid p s.p hv.1 hinv.len hpid (fun k hk => (hinv.same k hk).1)).2
  · obtain ⟨s, hs, rfl⟩ := priority_some fuel p r hr
    obtain ⟨hl, _, hpd⟩ := sel_descr Process.priority p hv.2.1 fuel s hs
    exact (divisor_of_pid p s.p hv.1 hl hpid hpd).2
  · unfold throughputDivisor
    rw [(fcfs_fields p).1]
  · have hn := hv.1
    have hsort := fcfs_arrival_sorted p i (p.length - 1) (by omega) (by omega)
    refine ⟨hsort, fun hno => ?_⟩
    unfold throughputDivisor
    rw [(fcfs_fields p).1]
    by_cases e : i = p.length - 1
    · rw [e]
    · exact le_of_lt (fcfs_completion_mono p (fun k hk => (hv.2.2 k hk).1.1)
        (fun k hk => (hv.2.2 k hk).2.1.1) hno i (p.length - 1) (by omega) (by omega))

theorem throughput_divisor_witness :
    throughputDivisor ((sjf 8 [mkProc 0 5 1 1, mkProc 1 0 1 1]).getD []) =
      (rd ((sjf 8 [mkProc 0 5 1 1, mkProc 1 0 1 1]).getD []) 1).completion_time ∧
    (rd (fcfs [mkProc 0 5 1 1, mkProc 1 0 1 1]) 0).completion_time ≤
      throughputDivisor (fcfs [mkProc 0 5 1 1, mkProc 1 0 1 1]) :=
  have h := throughput_divisor [mkProc 0 5 1 1, mkProc 1 0 1 1] (by decide) (by decide)
  ⟨h.1 8 _ (by decide) 1 (by decide) (by decide), (h.2.2.2.2 0 (by decide)).2 (by decide)⟩

/-! ## C15: a process with burst 0 -/

/-- C15 as stated fails for `round_robin`: for P1 (arrival 0, burst 0) and
P2 (arrival 0, burst 3), with `remaining_time = burst_time` on entry, `round_robin`
returns for no amount of fuel, whereas `sjf` and `priority_scheduling` return
(completion times 0 and 3). -/
theorem round_robin_zero_burst_diverges :
    (∀ fuel, round_robin fuel [mkProc 0 0 0 1, mkProc 1 0 3 1] = none) ∧
    (sjf 3 [mkProc 0 0 0 1, mkProc 1 0 3 1]).map (List.map Process.completion_time)
      = some [0, 3] ∧
    (priority_scheduling 3 [mkProc 0 0 0 1, mkProc 1 0 3 1]).map
      (List.map Process.completion_time) = some [0, 3] :=
  ⟨fun fuel => rr_never_returns _ _ 0 (by decide) (by decide) fuel, by decide, by decide⟩

/-- C15 (amended): on an input of at most `MAX_PROCESSES` processes with
`remaining_time = burst_time` on entry, arrival times that are `int` values, no negative
burst and at least one `burst_time = 0`, `sjf` terminates when every `burst_time` is
below 99999 and `priority_scheduling` terminates when every `priority` is below 99999,
whereas `round_robin` does not terminate: the zero-burst process is never counted as
completed. -/
theorem zero_burst_termination (p : List Process) (hn : p.length ≤ MAX_PROCESSES)
    (ha : ∀ i, i < p.length → (rd p i).arrival_time ≤ INT_MAX)
    (_hb : ∀ i, i < p.length → 0 ≤ (rd p i).burst_time)
    (hrem : ∀ i, i < p.length → (rd p i).remaining_time = (rd p i).burst_time)
    (k : Nat) (hk : k < p.length) (hz : (rd p k).burst_time = 0) :
    ((∀ i, i < p.length → (rd p i).burst_time < 99999) →
      ∃ fuel r, sjf fuel p = some r) ∧
    ((∀ i, i < p.length → (rd p i).priority < 99999) →
      ∃ fuel r, priority_scheduling fuel p = some r) ∧
    (∀ fuel, round_robin fuel p = none) := by
  refine ⟨fun hlt => ?_, fun hlt => ?_, fun fuel => ?_⟩
  · obtain ⟨fuel, r, hr⟩ := sel_terminates _ hkey_burst p hn hlt ha
    exact ⟨fuel, r.p, by rw [sjf_eq, hr]; rfl⟩
  · obtain ⟨fuel, r, hr⟩ := sel_terminates _ hkey_priority p hn hlt ha
    exact ⟨fuel, r.p, by rw [priority_scheduling_eq, hr]; rfl⟩
  · exact rr_never_returns _ p k hk (by rw [hrem k hk, hz]) fuel

theorem zero_burst_termination_witness :
    (∃ fuel r, sjf fuel [mkProc 0 2 0 1, mkProc 1 0 3 2] = some r) ∧
    (∃ fuel r, priority_scheduling fuel [mkProc 0 2 0 1, mkProc 1 0 3 2] = some r) ∧
    (∀ fuel, round_robin fuel [mkProc 0 2 0 1, mkProc 1 0 3 2] = none) :=
  have h := zero_burst_termination [mkProc 0 2 0 1, mkProc 1 0 3 2] (by decide) (by decide)
    (by decide) (by decide) 0 (by decide) (by decide)
  ⟨h.1 (by decide), h.2.1 (by decide), h.2.2⟩

/-! ## C16: the two rules of the recommendation exclude each other -/

/-- C16 as stated fails: no workload satisfies the conditions of rule 1 and rule 2
together, because rule 1 needs `shortJobs > longJobs` and rule 2 needs
`longJobs > 2 * shortJobs`; this holds for the counts of the claim with the exact average
and for the counters computed by the analysis loop with the `float` test of the
program. -/
theorem no_workload_triggers_both_rules :
    (¬ ∃ p : List Process, 1 ≤ p.length ∧
      (shortJobs p > longJobs p ∧ avgBurst p < 15) ∧ longJobs p > 2 * shortJobs p) ∧
    (¬ ∃ p : List Process, 1 ≤ p.length ∧
      ((analyze p).2.1 > (analyze p).2.2 ∧ avg_burst p < 15) ∧
      (analyze p).2.2 > (analyze p).2.1 * 2) := by
  refine ⟨?_, ?_⟩
  · rintro ⟨p, _, ⟨h1, _⟩, h2⟩
    omega
  · rintro ⟨p, _, ⟨h1, _⟩, h2⟩
    rw [analyze_eq] at h1 h2
    simp only at h1 h2
    omega

/-- C16 (amended): the conditions of rule 1 and rule 2 exclude each other, so no workload
triggers both and their order cannot be observed; `recommend_algorithm` recommends SJF
whenever its test of rule 1 succeeds (`short_jobs > long_jobs` and the `float`
`avg_burst < 15`) and Priority whenever the condition of rule 2 holds.  For
`1 ≤ n ≤ MAX_PROCESSES` and a sum of bursts that is an `int`, the test of rule 1 succeeds
exactly when `shortJobs > longJobs` and the exact average is below 15. -/
theorem recommend_rules_exclusive (p : List Process) :
    ¬ ((shortJobs p > longJobs p ∧ avg_burst p < 15) ∧ longJobs p > 2 * shortJobs p) ∧
    ¬ ((shortJobs p > longJobs p ∧ avgBurst p < 15) ∧ longJobs p > 2 * shortJobs p) ∧
    ((shortJobs p > longJobs p ∧ avg_burst p < 15) →
      recommend_algorithm p = Recommendation.SJF) ∧
    (longJobs p > 2 * shortJobs p → recommend_algorithm p = Recommendation.Priority) ∧
    (1 ≤ p.length → p.length ≤ MAX_PROCESSES → INT_MIN ≤ totalBurst p →
      totalBurst p ≤ INT_MAX →
      ((shortJobs p > longJobs p ∧ avg_burst p < 15) ↔
        (shortJobs p > longJobs p ∧ avgBurst p < 15))) := by
  refine ⟨?_, ?_, fun h => ?_, fun h => ?_, fun h1 h2 hlo hhi => ?_⟩
  · rintro ⟨⟨h1, _⟩, h2⟩
    omega
  · rintro ⟨⟨h1, _⟩, h2⟩
    omega
  · rw [recommend_eq, if_pos h]
  · rw [recommend_eq, if_neg (by omega), if_pos h]
  · rw [avg_burst_lt_iff_exact p h1 h2 hlo hhi]

theorem recommend_rules_exclusive_witness :
    recommend_algorithm [mkProc 0 0 3 1, mkProc 1 1 12 1, mkProc 2 2 5 1]
      = Recommendation.SJF ∧
    recommend_algorithm [mkProc 0 0 30 1, mkProc 1 1 12 1, mkProc 2 2 50 1]
      = Recommendation.Priority :=
  ⟨(recommend_rules_exclusive [mkProc 0 0 3 1, mkProc 1 1 12 1, mkProc 2 2 5 1]).2.2.1
      ⟨by decide, (avg_burst_lt_iff _ (by decide) (by decide)).2 (by decide)⟩,
    (recommend_rules_exclusive
      [mkProc 0 0 30 1, mkProc 1 1 12 1, mkProc 2 2 50 1]).2.2.2.1 (by decide)⟩

/-! ## C17: what `copy_processes` copies -/

/-- C17 as stated fails: `copy_processes` copies the whole record and resets only
`remaining_time`, so the timing fields of the destination are those of the source.  Two
sources that differ only in stale timing fields give destinations that differ. -/
theorem copy_processes_keeps_stale_times :
    rd (copy_processes
        [{ mkProc 0 0 5 1 with completion_time := 7, turnaround_time := 7, waiting_time := 2 }]
        [mkProc 9 9 9 9] 1).2 0 =
      { mkProc 0 0 5 1 with completion_time := 7, turnaround_time := 7, waiting_time := 2 } ∧
    rd (copy_processes
        [{ mkProc 0 0 5 1 with completion_time := 9, turnaround_time := 9, waiting_time := 4 }]
        [mkProc 9 9 9 9] 1).2 0 =
      { mkProc 0 0 5 1 with completion_time := 9, turnaround_time := 9, waiting_time := 4 } ∧
    (rd (copy_processes
        [{ mkProc 0 0 5 1 with completion_time := 7, turnaround_time := 7, waiting_time := 2 }]
        [mkProc 9 9 9 9] 1).2 0).completion_time ≠
      (rd (copy_processes
        [{ mkProc 0 0 5 1 with completion_time := 9, turnaround_time := 9, waiting_time := 4 }]
        [mkProc 9 9 9 9] 1).2 0).completion_time := by
  decide

/-- C17 (amended): for every source array and every `n` within the two arrays,
`copy_processes` leaves the source unchanged and gives each destination record `i < n`
the `pid`, `arrival_time`, `burst_time` and `priority` of source record `i`,
`remaining_time` equal to that `burst_time`, and the `completion_time`,
`turnaround_time` and `waiting_time` of source record `i` (they are copied, not reset);
destination records from index `n` on are untouched. -/
theorem copy_processes_frame (src dest : List Process) (n : Nat) (_hs : n ≤ src.length)
    (hd : n ≤ dest.length) :
    (copy_processes src dest n).1 = src ∧
    (copy_processes src dest n).2.length = dest.length ∧
    (∀ i, i < n →
      (rd (copy_processes src dest n).2 i).descr = (rd src i).descr ∧
      (rd (copy_processes src dest n).2 i).remaining_time = (rd src i).burst_time ∧
      (rd (copy_processes src dest n).2 i).completion_time = (rd src i).completion_time ∧
      (rd (copy_processes src dest n).2 i).turnaround_time = (rd src i).turnaround_time ∧
      (rd (copy_processes src dest n).2 i).waiting_time = (rd src i).waiting_time) ∧
    (∀ i, n ≤ i → rd (copy_processes src dest n).2 i = rd dest i) := by
  obtain ⟨h1, h2, h3, h4⟩ := copy_processes_spec src dest n hd
  refine ⟨h1, h2, fun i hi => ?_, h4⟩
  rw [h3 i hi]
  exact ⟨rfl, rfl, rfl, rfl, rfl⟩

theorem copy_processes_frame_witness :
    (copy_processes [mkProc 0 3 10 2, mkProc 1 0 5 1] [mkProc 7 7 7 7, mkProc 8 8 8 8] 2).1 =
      [mkProc 0 3 10 2, mkProc 1 0 5 1] ∧
    (rd (copy_processes [mkProc 0 3 10 2, mkProc 1 0 5 1]
      [mkProc 7 7 7 7, mkProc 8 8 8 8] 2).2 1).remaining_time =
      (rd [mkProc 0 3 10 2, mkProc 1 0 5 1] 1).burst_time :=
  have h := copy_processes_frame [mkProc 0 3 10 2, mkProc 1 0 5 1]
    [mkProc 7 7 7 7, mkProc 8 8 8 8] 2 (by decide) (by decide)
  ⟨h.1, (h.2.2.1 1 (by decide)).2.1⟩

/-! ## C18: Priority with `priority = burst_time` is SJF -/

/-- C18: on every input in which each process's `priority` equals its `burst_time`,
`priority_scheduling` and `sjf` behave identically: for every amount of fuel they either
both fail to return or return the same array, hence the same `completion_time`,
`turnaround_time` and `waiting_time` for every process. -/
theorem priority_scheduling_eq_sjf (p : List Process)
    (h : ∀ i, i < p.length → (rd p i).priority = (rd p i).burst_time) :
    ∀ fuel, priority_scheduling fuel p = sjf fuel p := by
  intro fuel
  rw [priority_scheduling_eq, sjf_eq, selLoop_priority_eq_burst p.length fuel _ rfl h]

theorem priority_scheduling_eq_sjf_witness :
    priority_scheduling 4 [mkProc 0 0 8 8, mkProc 1 1 4 4, mkProc 2 2 6 6] =
      sjf 4 [mkProc 0 0 8 8, mkProc 1 1 4 4, mkProc 2 2 6 6] ∧
    (sjf 4 [mkProc 0 0 8 8, mkProc 1 1 4 4, mkProc 2 2 6 6]).map
      (List.map Process.completion_time) = some [8, 12, 18] :=
  ⟨priority_scheduling_eq_sjf [mkProc 0 0 8 8, mkProc 1 1 4 4, mkProc 2 2 6 6] (by decide) 4,
    by decide⟩

/-! ## C19: no two processes run at the same time -/

/-- C19 as stated fails when the clock overflows: on the valid input of three processes
with arrival 0 and burst 1073741824, `fcfs` returns the completion times 1073741824,
-2147483648 and 1073741824, so the first and the third process are given the same
execution interval. -/
theorem fcfs_overlap_overflow :
    ValidInput [mkProc 0 0 1073741824 1, mkProc 1 0 1073741824 1, mkProc 2 0 1073741824 1] ∧
    (fcfs [mkProc 0 0 1073741824 1, mkProc 1 0 1073741824 1,
      mkProc 2 0 1073741824 1]).map Process.completion_time
      = [1073741824, -2147483648, 1073741824] ∧
    ¬ ((rd (fcfs [mkProc 0 0 1073741824 1, mkProc 1 0 1073741824 1,
          mkProc 2 0 1073741824 1]) 0).completion_time ≤
        (rd (fcfs [mkProc 0 0 1073741824 1, mkProc 1 0 1073741824 1,
          mkProc 2 0 1073741824 1]) 2).completion_time -
        (rd (fcfs [mkProc 0 0 1073741824 1, mkProc 1 0 1073741824 1,
          mkProc 2 0 1073741824 1]) 2).burst_time ∨
      (rd (fcfs [mkProc 0 0 1073741824 1, mkProc 1 0 1073741824 1,
          mkProc 2 0 1073741824 1]) 2).completion_time ≤
        (rd (fcfs [mkProc 0 0 1073741824 1, mkProc 1 0 1073741824 1,
          mkProc 2 0 1073741824 1]) 0).completion_time -
        (rd (fcfs [mkProc 0 0 1073741824 1, mkProc 1 0 1073741824 1,
          mkProc 2 0 1073741824 1]) 0).burst_time) := by
  decide

/-- C19 (amended): on every valid input whose largest `arrival_time` plus the sum of its
`burst_time`s is at most `INT_MAX`, the schedule of `fcfs`, and of every finishing run of
`sjf` and `priority_scheduling`, never runs two processes at the same time: for any two
distinct processes the intervals `[completion_time - burst_time, completion_time)` are
disjoint. -/
theorem schedules_do_not_overlap (p : List Process) (hv : ValidInput p)
    (hno : NoOverflow p) :
    (∀ i j, i < p.length → j < p.length → i ≠ j →
      NoOverlap (rd (fcfs p) i) (rd (fcfs p) j)) ∧
    (∀ fuel r, sjf fuel p = some r → ∀ i j, i < p.length → j < p.length → i ≠ j →
      NoOverlap (rd r i) (rd r j)) ∧
    (∀ fuel r, priority_scheduling fuel p = some r →
      ∀ i j, i < p.length → j < p.length → i ≠ j → NoOverlap (rd r i) (rd r j)) := by
  have ha : ∀ k, k < p.length → 0 ≤ (rd p k).arrival_time := fun k hk => (hv.2.2 k hk).1.1
  have hb : ∀ k, k < p.length → 0 < (rd p k).burst_time := fun k hk => (hv.2.2 k hk).2.1.1
  refine ⟨fun i j hi hj hij => ?_, fun fuel r hr i j hi hj hij => ?_,
    fun fuel r hr i j hi hj hij => ?_⟩
  · rcases Nat.lt_or_gt_of_ne hij with hlt | hgt
    · exact Or.inl (fcfs_no_overlap p ha hb hno i j hlt hj)
    · exact Or.inr (fcfs_no_overlap p ha hb hno j i hgt hi)
  · obtain ⟨s, hs, rfl⟩ := sjf_some fuel p r hr
    exact (((sel_schedule _ p hkey_burst hv hno fuel s hs i hi).2 j hj
      (fun e => hij e.symm)).1).symm
  · obtain ⟨s, hs, rfl⟩ := priority_some fuel p r hr
    exact (((sel_schedule _ p hkey_priority hv hno fuel s hs i hi).2 j hj
      (fun e => hij e.symm)).1).symm

theorem schedules_do_not_overlap_witness :
    ValidInput [mkProc 0 2 6 3, mkProc 1 0 9 1, mkProc 2 4 2 2] ∧
    NoOverflow [mkProc 0 2 6 3, mkProc 1 0 9 1, mkProc 2 4 2 2] ∧
    NoOverlap (rd (fcfs [mkProc 0 2 6 3, mkProc 1 0 9 1, mkProc 2 4 2 2]) 0)
      (rd (fcfs [mkProc 0 2 6 3, mkProc 1 0 9 1, mkProc 2 4 2 2]) 2) ∧
    NoOverlap (rd ((sjf 4 [mkProc 0 2 6 3, mkProc 1 0 9 1, mkProc 2 4 2 2]).getD []) 0)
      (rd ((sjf 4 [mkProc 0 2 6 3, mkProc 1 0 9 1, mkProc 2 4 2 2]).getD []) 2) ∧
    NoOverlap
      (rd ((priority_scheduling 4 [mkProc 0 2 6 3, mkProc 1 0 9 1, mkProc 2 4 2 2]).getD [])
        0)
      (rd ((priority_scheduling 4 [mkProc 0 2 6 3, mkProc 1 0 9 1, mkProc 2 4 2 2]).getD [])
        2) :=
  have h := schedules_do_not_overlap [mkProc 0 2 6 3, mkProc 1 0 9 1, mkProc 2 4 2 2]
    (by decide) (by decide)
  ⟨by decide, by decide, h.1 0 2 (by decide) (by decide) (by decide),
    h.2.1 4 _ (by decide) 0 2 (by decide) (by decide) (by decide),
    h.2.2 4 _ (by decide) 0 2 (by decide) (by decide) (by decide)⟩

/-! ## C20: Round Robin with short jobs is FCFS -/

/-- C20: on every valid input that is already in non-decreasing `arrival_time` order and
in which every `burst_time` is at most `TIME_QUANTUM`, `round_robin` terminates and gives
every process the `completion_time`, `turnaround_time` and `waiting_time` that `fcfs`
gives it. -/
theorem round_robin_eq_fcfs_short_jobs (p : List Process) (hv : ValidInput p)
    (hs : ArrivalSorted p)
    (hb : ∀ k, k < p.length → (rd p k).burst_time ≤ TIME_QUANTUM) :
    (∃ fuel r, round_robin fuel p = some r) ∧
    ∀ fuel r, round_robin fuel p = some r → ∀ i, i < p.length →
      (rd r i).pid = (rd (fcfs p) i).pid ∧
      (rd r i).completion_time = (rd (fcfs p) i).completion_time ∧
      (rd r i).turnaround_time = (rd (fcfs p) i).turnaround_time ∧
      (rd r i).waiting_time = (rd (fcfs p) i).waiting_time := by
  refine ⟨?_, fun fuel r hr i hi => ?_⟩
  · obtain ⟨fuel, r, hr⟩ := rr_valid_terminates TIME_QUANTUM TIME_QUANTUM_pos p hv.procs
    exact ⟨fuel, r.p, by rw [round_robin_eq, hr]; rfl⟩
  · obtain ⟨s, hs', rfl⟩ := rr_some _ fuel p r hr
    exact rr_eq_fcfs _ TIME_QUANTUM_pos p hv.procs (fun a b hab hb' => hs b hb' a hab) hb
      fuel s hs' i hi

theorem round_robin_eq_fcfs_short_jobs_witness :
    ValidInput [mkProc 0 0 4 1, mkProc 1 2 3 1, mkProc 2 9 1 1] ∧
    (rd ((round_robin 7 [mkProc 0 0 4 1, mkProc 1 2 3 1, mkProc 2 9 1 1]).getD []) 2
      ).completion_time =
      (rd (fcfs [mkProc 0 0 4 1, mkProc 1 2 3 1, mkProc 2 9 1 1]) 2).completion_time ∧
    (rd (fcfs [mkProc 0 0 4 1, mkProc 1 2 3 1, mkProc 2 9 1 1]) 2).completion_time = 10 :=
  have h := round_robin_eq_fcfs_short_jobs [mkProc 0 0 4 1, mkProc 1 2 3 1, mkProc 2 9 1 1]
    (by decide) (by decide) (by decide)
  ⟨by decide, ((h.2 7 _ (by decide) 2 (by decide)).2.1), by decide⟩

end ProcessScheduler
